import Mathlib

set_option linter.unusedSectionVars false

/-!
Verification of the curius-enhanced merge core: the order-statistic
red-black tree (`src/data_structures/order_statistic_red_black_tree.py`)
and the stream merge buffer (`src/buffer.py`).

The tree is embedded arena-style: nodes live in a list indexed by
natural numbers, index 0 is the `nil` sentinel (whose fields, as in the
Python source, are mutable and really are mutated by `_transplant`).
Loops of the source become fuel-indexed recursions; the fuel is always
taken large enough (node-count based) and the invariant proofs show it
suffices on well-formed states.
-/

namespace Curius

/-- Node colors, as in the source: `RED = True`, `BLACK = False`. -/
def RED : Bool := true

def BLACK : Bool := false

/-- One arena node of the order-statistic red-black tree.  `key = none`
marks the nil sentinel (Python's `key = None`); `uid` is the per-tree
insertion counter used as comparison tie-breaker (`-1` on nil). -/
structure RBNode (K : Type) where
  key : Option K
  uid : Int
  color : Bool
  size : Nat
  left : Nat
  right : Nat
  parent : Nat
  deriving Repr, DecidableEq

/-- The nil sentinel node: black, size 0, self-referential pointers
(index 0 points to itself). -/
def nilNode (K : Type) : RBNode K :=
  ⟨none, -1, BLACK, 0, 0, 0, 0⟩

/-- Arena state of `OrderStatisticRedBlackTree`: node store (index 0 is
the nil sentinel), root index, element count, and the uid counter. -/
structure OSTree (K : Type) where
  nodes : List (RBNode K)
  root : Nat
  size : Nat
  nextUid : Int
  deriving Repr, DecidableEq

namespace OSTree

variable {K : Type} [LinearOrder K]

/-- Fresh empty tree (`__init__` with no items). -/
def empty (K : Type) : OSTree K :=
  ⟨[nilNode K], 0, 0, 0⟩

/-- Read the node at index `i` (out-of-range reads give the sentinel;
they do not occur on well-formed states). -/
def nget (s : OSTree K) (i : Nat) : RBNode K :=
  s.nodes.getD i (nilNode K)

/-- Write the node at index `i` through an update function. -/
def nset (s : OSTree K) (i : Nat) (f : RBNode K → RBNode K) : OSTree K :=
  { s with nodes := s.nodes.set i (f (s.nodes.getD i (nilNode K))) }

/-- Lexicographic strict comparison `(key, uid) < (node.key, node.uid)`
used by the insert descent; the source only evaluates it at non-nil
nodes, where `key` is present. -/
def ltNode (k : K) (uid : Int) (n : RBNode K) : Bool :=
  match n.key with
  | some k2 => decide (k < k2 ∨ (k = k2 ∧ uid < n.uid))
  | none => false

/-- The descent loop of `insert`: walk from `current` keeping track of
the last non-nil node visited, returning the final parent index. -/
def insertDescend (s : OSTree K) (k : K) (uid : Int) :
    Nat → Nat → Nat → Nat
  | 0, parent, _ => parent
  | fuel + 1, parent, current =>
    if current = 0 then parent
    else
      let node := s.nget current
      if ltNode k uid node then
        insertDescend s k uid fuel current node.left
      else
        insertDescend s k uid fuel current node.right

/-- `_recompute_size`: `node.size = node.left.size + node.right.size + 1`. -/
def recomputeSize (s : OSTree K) (i : Nat) : OSTree K :=
  let n := s.nget i
  s.nset i fun m => { m with size := (s.nget n.left).size + (s.nget n.right).size + 1 }

/-- `_update_sizes_upward`: recompute sizes walking parent pointers up
to the sentinel. -/
def updateSizesUpward (s : OSTree K) : Nat → Nat → OSTree K
  | 0, _ => s
  | fuel + 1, i =>
    if i = 0 then s
    else
      let s' := recomputeSize s i
      updateSizesUpward s' fuel (s'.nget i).parent

/-- `_rotate_left` at index `x` (requires `x.right ≠ nil` on the states
where the source calls it). -/
def rotateLeft (s : OSTree K) (x : Nat) : OSTree K :=
  let y := (s.nget x).right
  let s₁ := s.nset x fun n => { n with right := (s.nget y).left }
  let s₂ :=
    if (s₁.nget y).left ≠ 0 then
      s₁.nset (s₁.nget y).left fun n => { n with parent := x }
    else s₁
  let s₃ := s₂.nset y fun n => { n with parent := (s₂.nget x).parent }
  let xparent := (s₃.nget x).parent
  let s₄ :=
    if xparent = 0 then { s₃ with root := y }
    else if x = (s₃.nget xparent).left then
      s₃.nset xparent fun n => { n with left := y }
    else
      s₃.nset xparent fun n => { n with right := y }
  let s₅ := s₄.nset y fun n => { n with left := x }
  let s₆ := s₅.nset x fun n => { n with parent := y }
  let s₇ := recomputeSize s₆ x
  recomputeSize s₇ y

/-- `_rotate_right` at index `y` (mirror image). -/
def rotateRight (s : OSTree K) (y : Nat) : OSTree K :=
  let x := (s.nget y).left
  let s₁ := s.nset y fun n => { n with left := (s.nget x).right }
  let s₂ :=
    if (s₁.nget x).right ≠ 0 then
      s₁.nset (s₁.nget x).right fun n => { n with parent := y }
    else s₁
  let s₃ := s₂.nset x fun n => { n with parent := (s₂.nget y).parent }
  let yparent := (s₃.nget y).parent
  let s₄ :=
    if yparent = 0 then { s₃ with root := x }
    else if y = (s₃.nget yparent).right then
      s₃.nset yparent fun n => { n with right := x }
    else
      s₃.nset yparent fun n => { n with left := x }
  let s₅ := s₄.nset x fun n => { n with right := y }
  let s₆ := s₅.nset y fun n => { n with parent := x }
  let s₇ := recomputeSize s₆ y
  recomputeSize s₇ x

/-- One traversal of the `_insert_fixup` while-loop body, driven by
fuel; returns the state with the root recolored black at the end, as in
the source. -/
def insertFixup (s : OSTree K) : Nat → Nat → OSTree K
  | 0, _ =>
    s.nset s.root fun n => { n with color := BLACK }
  | fuel + 1, z =>
    if (s.nget (s.nget z).parent).color = RED then
      let zp := (s.nget z).parent
      let zpp := (s.nget zp).parent
      if zp = (s.nget zpp).left then
        let y := (s.nget zpp).right
        if (s.nget y).color = RED then
          let s₁ := s.nset zp fun n => { n with color := BLACK }
          let s₂ := s₁.nset y fun n => { n with color := BLACK }
          let s₃ := s₂.nset zpp fun n => { n with color := RED }
          insertFixup s₃ fuel zpp
        else
          let (s₁, z₁) :=
            if z = (s.nget zp).right then (rotateLeft s zp, zp) else (s, z)
          let zp₁ := (s₁.nget z₁).parent
          let zpp₁ := (s₁.nget zp₁).parent
          let s₂ := s₁.nset zp₁ fun n => { n with color := BLACK }
          let s₃ := s₂.nset zpp₁ fun n => { n with color := RED }
          let s₄ := rotateRight s₃ zpp₁
          insertFixup s₄ fuel z₁
      else
        let y := (s.nget zpp).left
        if (s.nget y).color = RED then
          let s₁ := s.nset zp fun n => { n with color := BLACK }
          let s₂ := s₁.nset y fun n => { n with color := BLACK }
          let s₃ := s₂.nset zpp fun n => { n with color := RED }
          insertFixup s₃ fuel zpp
        else
          let (s₁, z₁) :=
            if z = (s.nget zp).left then (rotateRight s zp, zp) else (s, z)
          let zp₁ := (s₁.nget z₁).parent
          let zpp₁ := (s₁.nget zp₁).parent
          let s₂ := s₁.nset zp₁ fun n => { n with color := BLACK }
          let s₃ := s₂.nset zpp₁ fun n => { n with color := RED }
          let s₄ := rotateLeft s₃ zpp₁
          insertFixup s₄ fuel z₁
    else
      s.nset s.root fun n => { n with color := BLACK }

/-- `insert`: allocate a red node with the next uid, attach it at the
descent position, bump the element count, recompute ancestor sizes, and
run the fixup loop. -/
def insert (s : OSTree K) (k : K) : OSTree K :=
  let uid := s.nextUid
  let s := { s with nextUid := s.nextUid + 1 }
  let fuel := s.nodes.length + 1
  let parent := insertDescend s k uid fuel 0 s.root
  let z := s.nodes.length
  let newNode : RBNode K := ⟨some k, uid, RED, 1, 0, 0, parent⟩
  let s₁ := { s with nodes := s.nodes ++ [newNode] }
  let s₂ :=
    if parent = 0 then { s₁ with root := z }
    else if ltNode k uid (s₁.nget parent) then
      s₁.nset parent fun n => { n with left := z }
    else
      s₁.nset parent fun n => { n with right := z }
  let s₃ := { s₂ with size := s₂.size + 1 }
  let s₄ := updateSizesUpward s₃ (s₃.nodes.length + 1) (s₃.nget z).parent
  insertFixup s₄ (s₄.nodes.length + 1) z

/-- The walk of `_select_node`: descend comparing the requested rank
with the left subtree size; `none` models the `IndexError` raise. -/
def selectNode (s : OSTree K) : Nat → Nat → Nat → Option Nat
  | 0, _, _ => none
  | fuel + 1, current, k =>
    if current = 0 then none
    else
      let leftSize := (s.nget (s.nget current).left).size
      if k < leftSize then selectNode s fuel (s.nget current).left k
      else if k = leftSize then some current
      else selectNode s fuel (s.nget current).right (k - leftSize - 1)

/-- `select(k)`: the element of rank `k`; `none` models the
`IndexError` raised when `k` is outside `[0, len)`. -/
def select (s : OSTree K) (k : Nat) : Option K :=
  if k ≥ s.size then none
  else
    match selectNode s (s.nodes.length + 1) s.root k with
    | none => none
    | some i => (s.nget i).key

/-- `_count_less_than`: number of stored elements with key strictly
below `key` (key comparison only, uid ignored, as in the source). -/
def countLessThan (s : OSTree K) (k : K) : Nat :=
  go (s.nodes.length + 1) s.root 0
where
  go : Nat → Nat → Nat → Nat
    | 0, _, acc => acc
    | fuel + 1, current, acc =>
      if current = 0 then acc
      else
        let node := s.nget current
        if (match node.key with
            | some k2 => decide (k ≤ k2)
            | none => false) then
          go fuel node.left acc
        else
          go fuel node.right (acc + (s.nget node.left).size + 1)

/-- `_count_less_equal`: number of stored elements with key at most
`key`. -/
def countLessEqual (s : OSTree K) (k : K) : Nat :=
  go (s.nodes.length + 1) s.root 0
where
  go : Nat → Nat → Nat → Nat
    | 0, _, acc => acc
    | fuel + 1, current, acc =>
      if current = 0 then acc
      else
        let node := s.nget current
        if (match node.key with
            | some k2 => decide (k < k2)
            | none => false) then
          go fuel node.left acc
        else
          go fuel node.right (acc + (s.nget node.left).size + 1)

/-- `rank(key) = _count_less_than(key)`. -/
def rank (s : OSTree K) (k : K) : Nat :=
  countLessThan s k

/-- `count_range(lo, hi)`: `0` when `lo > hi`, otherwise the
difference of the two threaded counts. -/
def count_range (s : OSTree K) (lo hi : K) : Nat :=
  if lo > hi then 0
  else countLessEqual s hi - countLessThan s lo

/-- `_min_node`: leftmost node of the subtree rooted at `i`. -/
def minNode (s : OSTree K) : Nat → Nat → Nat
  | 0, i => i
  | fuel + 1, i =>
    if i ≠ 0 ∧ (s.nget i).left ≠ 0 then minNode s fuel (s.nget i).left
    else i

/-- `_transplant(u, v)`: replace subtree `u` by subtree `v` in `u`'s
parent; sets `v.parent` unconditionally (also when `v` is the sentinel,
which the deletion fixup relies on). -/
def transplant (s : OSTree K) (u v : Nat) : OSTree K :=
  let up := (s.nget u).parent
  let s₁ :=
    if up = 0 then { s with root := v }
    else if u = (s.nget up).left then
      s.nset up fun n => { n with left := v }
    else
      s.nset up fun n => { n with right := v }
  s₁.nset v fun n => { n with parent := up }

/-- One pass of the `_delete_fixup` while-loop, fuel-driven; recolors
`x` black on exit as in the source. -/
def deleteFixup (s : OSTree K) : Nat → Nat → OSTree K
  | 0, x => s.nset x fun n => { n with color := BLACK }
  | fuel + 1, x =>
    if x ≠ s.root ∧ (s.nget x).color = BLACK then
      let xp := (s.nget x).parent
      if x = (s.nget xp).left then
        let w := (s.nget xp).right
        let (s₁, w₁) :=
          if (s.nget w).color = RED then
            let sa := s.nset w fun n => { n with color := BLACK }
            let sb := sa.nset xp fun n => { n with color := RED }
            let sc := rotateLeft sb xp
            (sc, (sc.nget xp).right)
          else (s, w)
        if (s₁.nget (s₁.nget w₁).left).color = BLACK ∧
            (s₁.nget (s₁.nget w₁).right).color = BLACK then
          let s₂ := s₁.nset w₁ fun n => { n with color := RED }
          deleteFixup s₂ fuel (s₂.nget x).parent
        else
          let (s₂, w₂) :=
            if (s₁.nget (s₁.nget w₁).right).color = BLACK then
              let sa := s₁.nset (s₁.nget w₁).left fun n => { n with color := BLACK }
              let sb := sa.nset w₁ fun n => { n with color := RED }
              let sc := rotateRight sb w₁
              (sc, (sc.nget (sc.nget x).parent).right)
            else (s₁, w₁)
          let xp₂ := (s₂.nget x).parent
          let s₃ := s₂.nset w₂ fun n => { n with color := (s₂.nget xp₂).color }
          let s₄ := s₃.nset xp₂ fun n => { n with color := BLACK }
          let s₅ := s₄.nset (s₄.nget w₂).right fun n => { n with color := BLACK }
          let s₆ := rotateLeft s₅ xp₂
          deleteFixup s₆ fuel s₆.root
      else
        let w := (s.nget xp).left
        let (s₁, w₁) :=
          if (s.nget w).color = RED then
            let sa := s.nset w fun n => { n with color := BLACK }
            let sb := sa.nset xp fun n => { n with color := RED }
            let sc := rotateRight sb xp
            (sc, (sc.nget xp).left)
          else (s, w)
        if (s₁.nget (s₁.nget w₁).right).color = BLACK ∧
            (s₁.nget (s₁.nget w₁).left).color = BLACK then
          let s₂ := s₁.nset w₁ fun n => { n with color := RED }
          deleteFixup s₂ fuel (s₂.nget x).parent
        else
          let (s₂, w₂) :=
            if (s₁.nget (s₁.nget w₁).left).color = BLACK then
              let sa := s₁.nset (s₁.nget w₁).right fun n => { n with color := BLACK }
              let sb := sa.nset w₁ fun n => { n with color := RED }
              let sc := rotateLeft sb w₁
              (sc, (sc.nget (sc.nget x).parent).left)
            else (s₁, w₁)
          let xp₂ := (s₂.nget x).parent
          let s₃ := s₂.nset w₂ fun n => { n with color := (s₂.nget xp₂).color }
          let s₄ := s₃.nset xp₂ fun n => { n with color := BLACK }
          let s₅ := s₄.nset (s₄.nget w₂).left fun n => { n with color := BLACK }
          let s₆ := rotateRight s₅ xp₂
          deleteFixup s₆ fuel s₆.root
    else
      s.nset x fun n => { n with color := BLACK }

/-- `_delete_node` at index `z`, following the source: three splice
cases, conditional fixup, size decrement, and the up-to-three upward
size-recomputation walks. -/
def deleteNode (s : OSTree K) (z : Nat) : OSTree K :=
  let fuel := s.nodes.length + 1
  let zl := (s.nget z).left
  let zr := (s.nget z).right
  let (s₁, x, y, yOrig, extra) :=
    if zl = 0 then
      (transplant s z zr, zr, z, (s.nget z).color, (none : Option Nat))
    else if zr = 0 then
      (transplant s z zl, zl, z, (s.nget z).color, none)
    else
      let y := minNode s fuel zr
      let yOrig := (s.nget y).color
      let x := (s.nget y).right
      let (sa, extra) :=
        if (s.nget y).parent = z then
          (s.nset x fun n => { n with parent := y }, (none : Option Nat))
        else
          let e := (s.nget y).parent
          let sb := transplant s y (s.nget y).right
          let sc := sb.nset y fun n => { n with right := (sb.nget z).right }
          let sd := sc.nset (sc.nget y).right fun n => { n with parent := y }
          (sd, some e)
      let se := transplant sa z y
      let sf := se.nset y fun n => { n with left := (se.nget z).left }
      let sg := sf.nset (sf.nget y).left fun n => { n with parent := y }
      let sh := sg.nset y fun n => { n with color := (sg.nget z).color }
      (recomputeSize sh y, x, y, yOrig, extra)
  let s₂ := if yOrig = BLACK then deleteFixup s₁ fuel x else s₁
  let s₃ := { s₂ with size := s₂.size - 1 }
  let s₄ := updateSizesUpward s₃ fuel (s₃.nget x).parent
  let s₅ := updateSizesUpward s₄ fuel (s₄.nget y).parent
  match extra with
  | some e => updateSizesUpward s₅ fuel e
  | none => s₅

/-- `remove_by_rank(k)`; `none` models the `IndexError` raise on an
out-of-range rank. -/
def remove_by_rank (s : OSTree K) (k : Nat) : Option (OSTree K) :=
  if k ≥ s.size then none
  else
    match selectNode s (s.nodes.length + 1) s.root k with
    | none => none
    | some node => some (deleteNode s node)

/-- In-order key sequence of the stored elements (fuel-driven walk of
the arena). -/
def inorderAux (s : OSTree K) : Nat → Nat → List K
  | 0, _ => []
  | fuel + 1, i =>
    if i = 0 then []
    else
      inorderAux s fuel (s.nget i).left ++
        ((s.nget i).key.elim [] fun k => [k]) ++
        inorderAux s fuel (s.nget i).right

/-- `inorder()` / `__iter__`. -/
def inorder (s : OSTree K) : List K :=
  inorderAux s (s.nodes.length + 1) s.root

/-- `OrderStatisticRedBlackTree(items)`: fold `insert` over the items. -/
def ofList (l : List K) : OSTree K :=
  l.foldl insert (empty K)

end OSTree

/-! ## Representation predicates for the arena tree

`STree` is the logical shape of the arena: each node records its arena
index together with its key and uid.  `ReprB` states that the arena
fields (key, uid, parent, left, right) realise a given shape; sizes and
colors are constrained by separate predicates, since the algorithms
break and restore them at different moments. -/

/-- Logical shape of the arena tree, carrying indices and contents. -/
inductive STree (K : Type) where
  | leaf
  | node (i : Nat) (k : K) (uid : Int) (l r : STree K)
  deriving Repr, DecidableEq

namespace STree

variable {K : Type}

/-- Arena index of the root (`0`, the sentinel, for a leaf). -/
def rootIdx : STree K → Nat
  | .leaf => 0
  | .node i _ _ _ _ => i

/-- Number of stored elements. -/
def count : STree K → Nat
  | .leaf => 0
  | .node _ _ _ l r => l.count + r.count + 1

/-- In-order entry list `(key, uid)` in the lexicographic order the
tree compares by. -/
def entries : STree K → List (K ×ₗ Int)
  | .leaf => []
  | .node _ k uid l r => l.entries ++ [toLex (k, uid)] ++ r.entries

/-- All arena indices of the shape (pre-order). -/
def idxList : STree K → List Nat
  | .leaf => []
  | .node i _ _ l r => i :: (l.idxList ++ r.idxList)

theorem count_eq_length_entries (t : STree K) :
    t.count = t.entries.length := by
  induction t with
  | leaf => rfl
  | node i k uid l r ihl ihr =>
    simp [count, entries, ihl, ihr]; omega

theorem rootIdx_mem_idxList {t : STree K} (h : t ≠ .leaf) :
    t.rootIdx ∈ t.idxList := by
  cases t with
  | leaf => exact absurd rfl h
  | node i k uid l r => simp [rootIdx, idxList]

end STree

namespace OSTree

variable {K : Type} [LinearOrder K]

theorem nget_nset_self {s : OSTree K} {i : Nat} (h : i < s.nodes.length)
    (f : RBNode K → RBNode K) : (s.nset i f).nget i = f (s.nget i) := by
  simp [nset, nget, List.getD_eq_getElem?_getD, List.getElem?_set_self h,
    List.getElem?_eq_getElem h]

theorem nget_nset_ne {s : OSTree K} {i j : Nat} (h : j ≠ i)
    (f : RBNode K → RBNode K) : (s.nset i f).nget j = s.nget j := by
  simp [nset, nget, List.getD_eq_getElem?_getD,
    List.getElem?_set_ne (Ne.symm h)]

@[simp] theorem nodes_length_nset (s : OSTree K) (i : Nat)
    (f : RBNode K → RBNode K) :
    (s.nset i f).nodes.length = s.nodes.length := by
  simp [nset]

@[simp] theorem root_nset (s : OSTree K) (i : Nat)
    (f : RBNode K → RBNode K) : (s.nset i f).root = s.root := rfl

@[simp] theorem size_nset (s : OSTree K) (i : Nat)
    (f : RBNode K → RBNode K) : (s.nset i f).size = s.size := rfl

@[simp] theorem nextUid_nset (s : OSTree K) (i : Nat)
    (f : RBNode K → RBNode K) : (s.nset i f).nextUid = s.nextUid := rfl

/-- The arena realises shape `t` whose root's parent pointer is `p`:
key/uid/parent/left/right fields all match, recursively. -/
def ReprB (s : OSTree K) : Nat → STree K → Prop
  | _, .leaf => True
  | p, .node i k uid l r =>
    i ≠ 0 ∧ i < s.nodes.length ∧
    (s.nget i).key = some k ∧ (s.nget i).uid = uid ∧
    (s.nget i).parent = p ∧
    (s.nget i).left = l.rootIdx ∧ (s.nget i).right = r.rootIdx ∧
    ReprB s i l ∧ ReprB s i r

/-- All sizes inside shape `t` are correct. -/
def SizeOk (s : OSTree K) : STree K → Prop
  | .leaf => True
  | .node i _ _ l r =>
    (s.nget i).size = l.count + r.count + 1 ∧ SizeOk s l ∧ SizeOk s r

/-- The sentinel node's immutable part: no key, size `0`, black, and
both child pointers still `0`.  (Its parent pointer is genuinely
mutated by `_transplant`, so it is not constrained.) -/
def NilOk (s : OSTree K) : Prop :=
  (s.nget 0).key = none ∧ (s.nget 0).size = 0 ∧
    (s.nget 0).color = BLACK ∧ (s.nget 0).left = 0 ∧ (s.nget 0).right = 0

theorem ReprB_mono_of_agree {s s' : OSTree K} {p : Nat} {t : STree K}
    (hlen : s.nodes.length ≤ s'.nodes.length)
    (hag : ∀ i ∈ t.idxList, s'.nget i = s.nget i) :
    ReprB s p t → ReprB s' p t := by
  induction t generalizing p with
  | leaf => intro h; trivial
  | node i k uid l r ihl ihr =>
    intro h
    obtain ⟨h0, hlt, hk, hu, hp, hl, hr, hL, hR⟩ := h
    have hi : s'.nget i = s.nget i := hag i (by simp [STree.idxList])
    refine ⟨h0, lt_of_lt_of_le hlt hlen, ?_, ?_, ?_, ?_, ?_, ?_, ?_⟩
    · rw [hi]; exact hk
    · rw [hi]; exact hu
    · rw [hi]; exact hp
    · rw [hi]; exact hl
    · rw [hi]; exact hr
    · exact ihl (fun j hj => hag j (by simp [STree.idxList, hj])) hL
    · exact ihr (fun j hj => hag j (by simp [STree.idxList, hj])) hR

theorem SizeOk_mono_of_agree {s s' : OSTree K} {t : STree K}
    (hag : ∀ i ∈ t.idxList, (s'.nget i).size = (s.nget i).size) :
    SizeOk s t → SizeOk s' t := by
  induction t with
  | leaf => intro h; trivial
  | node i k uid l r ihl ihr =>
    intro h
    obtain ⟨hs, hL, hR⟩ := h
    refine ⟨?_, ?_, ?_⟩
    · rw [hag i (by simp [STree.idxList])]; exact hs
    · exact ihl (fun j hj => hag j (by simp [STree.idxList, hj])) hL
    · exact ihr (fun j hj => hag j (by simp [STree.idxList, hj])) hR

theorem nget_nset (s : OSTree K) (i j : Nat) (f : RBNode K → RBNode K) :
    (s.nset i f).nget j =
      if j = i ∧ i < s.nodes.length then f (s.nget i) else s.nget j := by
  by_cases hl : i < s.nodes.length
  · by_cases h : j = i
    · subst h; simp [nget_nset_self hl, hl]
    · simp [nget_nset_ne h, h]
  · have he : s.nset i f = { s with nodes := s.nodes } := by
      simp [nset, List.set_eq_of_length_le (le_of_not_lt hl)]
    rw [he, if_neg (by tauto)]

@[simp] theorem root_recomputeSize (s : OSTree K) (i : Nat) :
    (recomputeSize s i).root = s.root := rfl

@[simp] theorem nodes_length_recomputeSize (s : OSTree K) (i : Nat) :
    (recomputeSize s i).nodes.length = s.nodes.length := by
  simp [recomputeSize]

@[simp] theorem size_recomputeSize (s : OSTree K) (i : Nat) :
    (recomputeSize s i).size = s.size := rfl

@[simp] theorem nextUid_recomputeSize (s : OSTree K) (i : Nat) :
    (recomputeSize s i).nextUid = s.nextUid := rfl

theorem nget_recomputeSize (s : OSTree K) (i j : Nat) :
    (recomputeSize s i).nget j =
      if j = i ∧ i < s.nodes.length then
        { s.nget i with
            size := (s.nget (s.nget i).left).size +
              (s.nget (s.nget i).right).size + 1 }
      else s.nget j := by
  simp [recomputeSize, nget_nset]

theorem nget_recomputeSize_ne {s : OSTree K} {i j : Nat} (h : j ≠ i) :
    (recomputeSize s i).nget j = s.nget j := by
  rw [nget_recomputeSize, if_neg (by tauto)]

theorem nget_recomputeSize_self {s : OSTree K} {i : Nat}
    (h : i < s.nodes.length) :
    (recomputeSize s i).nget i =
      { s.nget i with
          size := (s.nget (s.nget i).left).size +
            (s.nget (s.nget i).right).size + 1 } := by
  rw [nget_recomputeSize, if_pos ⟨rfl, h⟩]

set_option maxHeartbeats 2000000 in
/-- Flat characterization of `_rotate_left` at `x` with right child
`y`, subtree roots `a` (`x.left`), `b` (`y.left`), `c` (`y.right`) and
parent `p`, all suitably distinct as they are in a well-formed arena. -/
theorem rotateLeft_eq (s : OSTree K) (x : Nat)
    (y b p a c : Nat) (sideLeft : Bool)
    (hy : (s.nget x).right = y) (hb : (s.nget y).left = b)
    (hp : (s.nget x).parent = p) (ha : (s.nget x).left = a)
    (hc : (s.nget y).right = c)
    (hx0 : x ≠ 0) (hy0 : y ≠ 0) (hxy : x ≠ y)
    (hbx : b ≠ x) (hby : b ≠ y)
    (hpx : p ≠ x) (hpy : p ≠ y) (hpb : p ≠ b ∨ p = 0)
    (hax : a ≠ x) (hay : a ≠ y) (hab : a ≠ b ∨ a = 0) (hap : a ≠ p ∨ a = 0)
    (hcx : c ≠ x) (hcy : c ≠ y) (hcb : c ≠ b ∨ c = 0) (hcp : c ≠ p ∨ c = 0)
    (hxlen : x < s.nodes.length) (hylen : y < s.nodes.length)
    (hblen : b ≠ 0 → b < s.nodes.length) (hplen : p ≠ 0 → p < s.nodes.length)
    (hside : p ≠ 0 → ((x = (s.nget p).left) ↔ sideLeft = true)) :
    (rotateLeft s x).root = (if p = 0 then y else s.root) ∧
    (rotateLeft s x).nodes.length = s.nodes.length ∧
    (rotateLeft s x).size = s.size ∧
    (rotateLeft s x).nextUid = s.nextUid ∧
    (rotateLeft s x).nget x =
      { s.nget x with
          right := b
          parent := y
          size := (s.nget a).size + (s.nget b).size + 1 } ∧
    (rotateLeft s x).nget y =
      { s.nget y with
          left := x
          parent := p
          size := ((s.nget a).size + (s.nget b).size + 1) +
            (s.nget c).size + 1 } ∧
    (b ≠ 0 → (rotateLeft s x).nget b = { s.nget b with parent := x }) ∧
    (p ≠ 0 → (rotateLeft s x).nget p =
      (if sideLeft then { s.nget p with left := y }
       else { s.nget p with right := y })) ∧
    ((rotateLeft s x).nget 0 = s.nget 0) ∧
    (∀ j, j ≠ x → j ≠ y → j ≠ b → j ≠ p →
      (rotateLeft s x).nget j = s.nget j) := by
  have hyx : y ≠ x := Ne.symm hxy
  have hxb : x ≠ b := Ne.symm hbx
  have hyb : y ≠ b := Ne.symm hby
  have hxp : x ≠ p := Ne.symm hpx
  have hyp : y ≠ p := Ne.symm hpy
  have h0x : (0 : Nat) ≠ x := Ne.symm hx0
  have h0y : (0 : Nat) ≠ y := Ne.symm hy0
  obtain ⟨t4, hrw, root4, len4, sz4, nu4, f4x, f4y, f4b, f4p, f40, f4⟩ :
      ∃ t4 : OSTree K,
        rotateLeft s x =
          recomputeSize (recomputeSize
            ((t4.nset y fun n => { n with left := x }).nset x
              fun n => { n with parent := y }) x) y ∧
        t4.root = (if p = 0 then y else s.root) ∧
        t4.nodes.length = s.nodes.length ∧
        t4.size = s.size ∧ t4.nextUid = s.nextUid ∧
        t4.nget x = { s.nget x with right := b } ∧
        t4.nget y = { s.nget y with parent := p } ∧
        (b ≠ 0 → t4.nget b = { s.nget b with parent := x }) ∧
        (p ≠ 0 → t4.nget p =
          (if sideLeft then { s.nget p with left := y }
           else { s.nget p with right := y })) ∧
        t4.nget 0 = s.nget 0 ∧
        (∀ j, j ≠ x → j ≠ y → j ≠ b → j ≠ p → t4.nget j = s.nget j) := by
    set t1 := s.nset x (fun n => { n with right := b }) with ht1
    have L1 : t1.nodes.length = s.nodes.length := by rw [ht1]; simp
    have e1 : ∀ j, j ≠ x → t1.nget j = s.nget j := fun j hj => by
      rw [ht1, nget_nset_ne hj]
    have e1x : t1.nget x = { s.nget x with right := b } := by
      rw [ht1, nget_nset_self hxlen]
    have q1 : (t1.nget y).left = b := by rw [e1 y hyx, hb]
    by_cases hb0 : b = 0
    -- case b = 0: the `if b != 0` reparent step is skipped
    · set t3 := t1.nset y (fun n => { n with parent := p }) with ht3
      have L3 : t3.nodes.length = s.nodes.length := by rw [ht3]; simp [L1]
      have e3 : ∀ j, j ≠ y → t3.nget j = t1.nget j := fun j hj => by
        rw [ht3, nget_nset_ne hj]
      have e3y : t3.nget y = { s.nget y with parent := p } := by
        rw [ht3, nget_nset_self (by rw [L1]; exact hylen), e1 y hyx]
      have q2 : (t1.nget x).parent = p := by rw [e1x]; exact hp
      have q3 : (t3.nget x).parent = p := by rw [e3 x hxy, e1x]; exact hp
      by_cases hp0 : p = 0
      · refine ⟨{ t3 with root := y }, ?_, by simp [hp0], L3, ?_, ?_,
          ?_, e3y, fun h => absurd hb0 h, fun h => absurd hp0 h, ?_, ?_⟩
        · show rotateLeft s x = _
          simp only [rotateLeft]
          rw [hy, hb, ← ht1, q1,
            if_neg (show ¬ (b ≠ 0) from by simp [hb0]), q2, ← ht3, q3,
            if_pos hp0]
        · show t3.size = _; rw [ht3, ht1]; rfl
        · show t3.nextUid = _; rw [ht3, ht1]; rfl
        · show t3.nget x = _; rw [e3 x hxy, e1x]
        · show t3.nget 0 = _; rw [e3 0 h0y, e1 0 h0x]
        · intro j hjx hjy _ _
          show t3.nget j = _
          rw [e3 j hjy, e1 j hjx]
      · have q4 : (t3.nget p).left = (s.nget p).left := by
          rw [e3 p hpy, e1 p hpx]
        have hplen3 : p < t3.nodes.length := by rw [L3]; exact hplen hp0
        have h0p : (0 : Nat) ≠ p := fun h => hp0 h.symm
        by_cases hxl : x = (s.nget p).left
        · have hsl : sideLeft = true := (hside hp0).mp hxl
          refine ⟨t3.nset p fun n => { n with left := y }, ?_, ?_, ?_, ?_,
            ?_, ?_, ?_, fun h => absurd hb0 h, ?_, ?_, ?_⟩
          · show rotateLeft s x = _
            simp only [rotateLeft]
            rw [hy, hb, ← ht1, q1,
              if_neg (show ¬ (b ≠ 0) from by simp [hb0]), q2, ← ht3, q3,
              if_neg hp0, q4, if_pos hxl]
          · rw [root_nset, ht3, root_nset, ht1, root_nset, if_neg hp0]
          · rw [nodes_length_nset, L3]
          · rw [size_nset, ht3, size_nset, ht1, size_nset]
          · rw [nextUid_nset, ht3, nextUid_nset, ht1, nextUid_nset]
          · rw [nget_nset_ne hxp, e3 x hxy, e1x]
          · rw [nget_nset_ne hyp, e3y]
          · intro _
            rw [nget_nset_self hplen3, e3 p hpy, e1 p hpx, if_pos hsl]
          · rw [nget_nset_ne h0p, e3 0 h0y, e1 0 h0x]
          · intro j hjx hjy _ hjp
            rw [nget_nset_ne hjp, e3 j hjy, e1 j hjx]
        · have hsl : sideLeft = false := by
            cases hsound : sideLeft
            · rfl
            · exact absurd ((hside hp0).mpr hsound) hxl
          refine ⟨t3.nset p fun n => { n with right := y }, ?_, ?_, ?_, ?_,
            ?_, ?_, ?_, fun h => absurd hb0 h, ?_, ?_, ?_⟩
          · show rotateLeft s x = _
            simp only [rotateLeft]
            rw [hy, hb, ← ht1, q1,
              if_neg (show ¬ (b ≠ 0) from by simp [hb0]), q2, ← ht3, q3,
              if_neg hp0, q4, if_neg hxl]
          · rw [root_nset, ht3, root_nset, ht1, root_nset, if_neg hp0]
          · rw [nodes_length_nset, L3]
          · rw [size_nset, ht3, size_nset, ht1, size_nset]
          · rw [nextUid_nset, ht3, nextUid_nset, ht1, nextUid_nset]
          · rw [nget_nset_ne hxp, e3 x hxy, e1x]
          · rw [nget_nset_ne hyp, e3y]
          · intro _
            rw [nget_nset_self hplen3, e3 p hpy, e1 p hpx,
              if_neg (by simp [hsl])]
          · rw [nget_nset_ne h0p, e3 0 h0y, e1 0 h0x]
          · intro j hjx hjy _ hjp
            rw [nget_nset_ne hjp, e3 j hjy, e1 j hjx]
    -- case b ≠ 0: the left child of y is reparented to x
    · set t2 := t1.nset b (fun n => { n with parent := x }) with ht2
      have L2 : t2.nodes.length = s.nodes.length := by rw [ht2]; simp [L1]
      have e2 : ∀ j, j ≠ b → t2.nget j = t1.nget j := fun j hj => by
        rw [ht2, nget_nset_ne hj]
      have e2b : t2.nget b = { s.nget b with parent := x } := by
        rw [ht2, nget_nset_self (by rw [L1]; exact hblen hb0), e1 b hbx]
      have h0b : (0 : Nat) ≠ b := fun h => hb0 h.symm
      have q2 : (t2.nget x).parent = p := by rw [e2 x hxb, e1x]; exact hp
      set t3 := t2.nset y (fun n => { n with parent := p }) with ht3
      have L3 : t3.nodes.length = s.nodes.length := by rw [ht3]; simp [L2]
      have e3 : ∀ j, j ≠ y → t3.nget j = t2.nget j := fun j hj => by
        rw [ht3, nget_nset_ne hj]
      have e3y : t3.nget y = { s.nget y with parent := p } := by
        rw [ht3, nget_nset_self (by rw [L2]; exact hylen), e2 y hyb, e1 y hyx]
      have q3 : (t3.nget x).parent = p := by
        rw [e3 x hxy, e2 x hxb, e1x]; exact hp
      by_cases hp0 : p = 0
      · refine ⟨{ t3 with root := y }, ?_, by simp [hp0], L3, ?_, ?_,
          ?_, e3y, ?_, fun h => absurd hp0 h, ?_, ?_⟩
        · show rotateLeft s x = _
          simp only [rotateLeft]
          rw [hy, hb, ← ht1, q1, if_pos hb0, ← ht2, q2, ← ht3, q3,
            if_pos hp0]
        · show t3.size = _; rw [ht3, ht2, ht1]; rfl
        · show t3.nextUid = _; rw [ht3, ht2, ht1]; rfl
        · show t3.nget x = _; rw [e3 x hxy, e2 x hxb, e1x]
        · intro _; show t3.nget b = _; rw [e3 b hby, e2b]
        · show t3.nget 0 = _; rw [e3 0 h0y, e2 0 h0b, e1 0 h0x]
        · intro j hjx hjy hjb _
          show t3.nget j = _
          rw [e3 j hjy, e2 j hjb, e1 j hjx]
      · have hpb' : p ≠ b := hpb.resolve_right hp0
        have q4 : (t3.nget p).left = (s.nget p).left := by
          rw [e3 p hpy, e2 p hpb', e1 p hpx]
        have hplen3 : p < t3.nodes.length := by rw [L3]; exact hplen hp0
        have h0p : (0 : Nat) ≠ p := fun h => hp0 h.symm
        by_cases hxl : x = (s.nget p).left
        · have hsl : sideLeft = true := (hside hp0).mp hxl
          refine ⟨t3.nset p fun n => { n with left := y }, ?_, ?_, ?_, ?_,
            ?_, ?_, ?_, ?_, ?_, ?_, ?_⟩
          · show rotateLeft s x = _
            simp only [rotateLeft]
            rw [hy, hb, ← ht1, q1, if_pos hb0, ← ht2, q2, ← ht3, q3,
              if_neg hp0, q4, if_pos hxl]
          · rw [root_nset, ht3, root_nset, ht2, root_nset, ht1, root_nset,
              if_neg hp0]
          · rw [nodes_length_nset, L3]
          · rw [size_nset, ht3, size_nset, ht2, size_nset, ht1, size_nset]
          · rw [nextUid_nset, ht3, nextUid_nset, ht2, nextUid_nset, ht1,
              nextUid_nset]
          · rw [nget_nset_ne hxp, e3 x hxy, e2 x hxb, e1x]
          · rw [nget_nset_ne hyp, e3y]
          · intro _; rw [nget_nset_ne (Ne.symm hpb'), e3 b hby, e2b]
          · intro _
            rw [nget_nset_self hplen3, e3 p hpy, e2 p hpb', e1 p hpx,
              if_pos hsl]
          · rw [nget_nset_ne h0p, e3 0 h0y, e2 0 h0b, e1 0 h0x]
          · intro j hjx hjy hjb hjp
            rw [nget_nset_ne hjp, e3 j hjy, e2 j hjb, e1 j hjx]
        · have hsl : sideLeft = false := by
            cases hsound : sideLeft
            · rfl
            · exact absurd ((hside hp0).mpr hsound) hxl
          refine ⟨t3.nset p fun n => { n with right := y }, ?_, ?_, ?_, ?_,
            ?_, ?_, ?_, ?_, ?_, ?_, ?_⟩
          · show rotateLeft s x = _
            simp only [rotateLeft]
            rw [hy, hb, ← ht1, q1, if_pos hb0, ← ht2, q2, ← ht3, q3,
              if_neg hp0, q4, if_neg hxl]
          · rw [root_nset, ht3, root_nset, ht2, root_nset, ht1, root_nset,
              if_neg hp0]
          · rw [nodes_length_nset, L3]
          · rw [size_nset, ht3, size_nset, ht2, size_nset, ht1, size_nset]
          · rw [nextUid_nset, ht3, nextUid_nset, ht2, nextUid_nset, ht1,
              nextUid_nset]
          · rw [nget_nset_ne hxp, e3 x hxy, e2 x hxb, e1x]
          · rw [nget_nset_ne hyp, e3y]
          · intro _; rw [nget_nset_ne (Ne.symm hpb'), e3 b hby, e2b]
          · intro _
            rw [nget_nset_self hplen3, e3 p hpy, e2 p hpb', e1 p hpx,
              if_neg (by simp [hsl])]
          · rw [nget_nset_ne h0p, e3 0 h0y, e2 0 h0b, e1 0 h0x]
          · intro j hjx hjy hjb hjp
            rw [nget_nset_ne hjp, e3 j hjy, e2 j hjb, e1 j hjx]
  -- Stage 2: the two size recomputations
  rw [hrw]
  set t5 := t4.nset y (fun n => { n with left := x }) with ht5
  set t6 := t5.nset x (fun n => { n with parent := y }) with ht6
  have L5 : t5.nodes.length = s.nodes.length := by rw [ht5]; simp [len4]
  have L6 : t6.nodes.length = s.nodes.length := by rw [ht6]; simp [L5]
  have e5 : ∀ j, j ≠ y → t5.nget j = t4.nget j := fun j hj => by
    rw [ht5, nget_nset_ne hj]
  have e5y : t5.nget y = { s.nget y with left := x, parent := p } := by
    rw [ht5, nget_nset_self (by rw [len4]; exact hylen), f4y]
  have e6 : ∀ j, j ≠ x → t6.nget j = t5.nget j := fun j hj => by
    rw [ht6, nget_nset_ne hj]
  have e6x : t6.nget x = { s.nget x with right := b, parent := y } := by
    rw [ht6, nget_nset_self (by rw [L5]; exact hxlen), e5 x hxy, f4x]
  have e6y : t6.nget y = { s.nget y with left := x, parent := p } := by
    rw [e6 y hyx, e5y]
  have e60 : t6.nget 0 = s.nget 0 := by
    rw [e6 0 h0x, e5 0 h0y, f40]
  have e6frame : ∀ j, j ≠ x → j ≠ y → j ≠ b → j ≠ p → t6.nget j = s.nget j :=
    fun j hjx hjy hjb hjp => by
      rw [e6 j hjx, e5 j hjy, f4 j hjx hjy hjb hjp]
  have e6a : (t6.nget a).size = (s.nget a).size := by
    by_cases ha0 : a = 0
    · rw [ha0, e60]
    · rw [e6frame a hax hay (hab.resolve_right ha0) (hap.resolve_right ha0)]
  have e6bS : (t6.nget b).size = (s.nget b).size := by
    by_cases hb0 : b = 0
    · rw [hb0, e60]
    · rw [e6 b hbx, e5 b hby, f4b hb0]
  have hx6 : x < t6.nodes.length := by rw [L6]; exact hxlen
  have q5 : (t6.nget x).left = a := by rw [e6x]; exact ha
  have q6 : (t6.nget x).right = b := by rw [e6x]
  set t7 := recomputeSize t6 x with ht7
  have L7 : t7.nodes.length = s.nodes.length := by rw [ht7]; simp [L6]
  have e7 : ∀ j, j ≠ x → t7.nget j = t6.nget j := fun j hj => by
    rw [ht7, nget_recomputeSize_ne hj]
  have e7x : t7.nget x =
      { s.nget x with
          right := b
          parent := y
          size := (s.nget a).size + (s.nget b).size + 1 } := by
    rw [ht7, nget_recomputeSize_self hx6, q5, q6, e6a, e6bS, e6x]
  have e7y : t7.nget y = { s.nget y with left := x, parent := p } := by
    rw [e7 y hyx, e6y]
  have e70 : t7.nget 0 = s.nget 0 := by rw [e7 0 h0x, e60]
  have e7c : (t7.nget c).size = (s.nget c).size := by
    by_cases hc0 : c = 0
    · rw [hc0, e70]
    · rw [e7 c hcx, e6frame c hcx hcy (hcb.resolve_right hc0)
        (hcp.resolve_right hc0)]
  have hy7 : y < t7.nodes.length := by rw [L7]; exact hylen
  have q7 : (t7.nget y).left = x := by rw [e7y]
  have q8 : (t7.nget y).right = c := by rw [e7y]; exact hc
  have q9 : (t7.nget x).size = (s.nget a).size + (s.nget b).size + 1 := by
    rw [e7x]
  refine ⟨?_, ?_, ?_, ?_, ?_, ?_, ?_, ?_, ?_, ?_⟩
  · rw [root_recomputeSize, ht7, root_recomputeSize, ht6, root_nset, ht5,
      root_nset, root4]
  · rw [nodes_length_recomputeSize, L7]
  · rw [size_recomputeSize, ht7, size_recomputeSize, ht6, size_nset, ht5,
      size_nset, sz4]
  · rw [nextUid_recomputeSize, ht7, nextUid_recomputeSize, ht6, nextUid_nset,
      ht5, nextUid_nset, nu4]
  · rw [nget_recomputeSize_ne hxy, e7x]
  · rw [nget_recomputeSize_self hy7, q7, q8, q9, e7c, e7y]
  · intro hb0
    rw [nget_recomputeSize_ne hby, e7 b hbx, e6 b hbx, e5 b hby, f4b hb0]
  · intro hp0
    rw [nget_recomputeSize_ne hpy, e7 p hpx, e6 p hpx, e5 p hpy, f4p hp0]
  · rw [nget_recomputeSize_ne h0y, e70]
  · intro j hjx hjy hjb hjp
    rw [nget_recomputeSize_ne hjy, e7 j hjx, e6frame j hjx hjy hjb hjp]

set_option maxHeartbeats 2000000 in
/-- Flat characterization of `_rotate_left` at `y` with right child
`x`, subtree roots `a` (`y.right`), `b` (`x.right`), `c` (`x.left`) and
parent `p`, all suitably distinct as they are in a well-formed arena. -/
theorem rotateRight_eq (s : OSTree K) (y : Nat)
    (x b p a c : Nat) (sideRight : Bool)
    (hx : (s.nget y).left = x) (hb : (s.nget x).right = b)
    (hp : (s.nget y).parent = p) (ha : (s.nget y).right = a)
    (hc : (s.nget x).left = c)
    (hy0 : y ≠ 0) (hx0 : x ≠ 0) (hyx : y ≠ x)
    (hby : b ≠ y) (hbx : b ≠ x)
    (hpy : p ≠ y) (hpx : p ≠ x) (hpb : p ≠ b ∨ p = 0)
    (hay : a ≠ y) (hax : a ≠ x) (hab : a ≠ b ∨ a = 0) (hap : a ≠ p ∨ a = 0)
    (hcy : c ≠ y) (hcx : c ≠ x) (hcb : c ≠ b ∨ c = 0) (hcp : c ≠ p ∨ c = 0)
    (hylen : y < s.nodes.length) (hxlen : x < s.nodes.length)
    (hblen : b ≠ 0 → b < s.nodes.length) (hplen : p ≠ 0 → p < s.nodes.length)
    (hside : p ≠ 0 → ((y = (s.nget p).right) ↔ sideRight = true)) :
    (rotateRight s y).root = (if p = 0 then x else s.root) ∧
    (rotateRight s y).nodes.length = s.nodes.length ∧
    (rotateRight s y).size = s.size ∧
    (rotateRight s y).nextUid = s.nextUid ∧
    (rotateRight s y).nget y =
      { s.nget y with
          left := b
          parent := x
          size := (s.nget b).size + (s.nget a).size + 1 } ∧
    (rotateRight s y).nget x =
      { s.nget x with
          right := y
          parent := p
          size := (s.nget c).size +
            ((s.nget b).size + (s.nget a).size + 1) + 1 } ∧
    (b ≠ 0 → (rotateRight s y).nget b = { s.nget b with parent := y }) ∧
    (p ≠ 0 → (rotateRight s y).nget p =
      (if sideRight then { s.nget p with right := x }
       else { s.nget p with left := x })) ∧
    ((rotateRight s y).nget 0 = s.nget 0) ∧
    (∀ j, j ≠ y → j ≠ x → j ≠ b → j ≠ p →
      (rotateRight s y).nget j = s.nget j) := by
  have hxy : x ≠ y := Ne.symm hyx
  have hyb : y ≠ b := Ne.symm hby
  have hxb : x ≠ b := Ne.symm hbx
  have hyp : y ≠ p := Ne.symm hpy
  have hxp : x ≠ p := Ne.symm hpx
  have h0y : (0 : Nat) ≠ y := Ne.symm hy0
  have h0x : (0 : Nat) ≠ x := Ne.symm hx0
  obtain ⟨t4, hrw, root4, len4, sz4, nu4, f4x, f4y, f4b, f4p, f40, f4⟩ :
      ∃ t4 : OSTree K,
        rotateRight s y =
          recomputeSize (recomputeSize
            ((t4.nset x fun n => { n with right := y }).nset y
              fun n => { n with parent := x }) y) x ∧
        t4.root = (if p = 0 then x else s.root) ∧
        t4.nodes.length = s.nodes.length ∧
        t4.size = s.size ∧ t4.nextUid = s.nextUid ∧
        t4.nget y = { s.nget y with left := b } ∧
        t4.nget x = { s.nget x with parent := p } ∧
        (b ≠ 0 → t4.nget b = { s.nget b with parent := y }) ∧
        (p ≠ 0 → t4.nget p =
          (if sideRight then { s.nget p with right := x }
           else { s.nget p with left := x })) ∧
        t4.nget 0 = s.nget 0 ∧
        (∀ j, j ≠ y → j ≠ x → j ≠ b → j ≠ p → t4.nget j = s.nget j) := by
    set t1 := s.nset y (fun n => { n with left := b }) with ht1
    have L1 : t1.nodes.length = s.nodes.length := by rw [ht1]; simp
    have e1 : ∀ j, j ≠ y → t1.nget j = s.nget j := fun j hj => by
      rw [ht1, nget_nset_ne hj]
    have e1x : t1.nget y = { s.nget y with left := b } := by
      rw [ht1, nget_nset_self hylen]
    have q1 : (t1.nget x).right = b := by rw [e1 x hxy, hb]
    by_cases hb0 : b = 0
    -- case b = 0: the `if b != 0` reparent step is skipped
    · set t3 := t1.nset x (fun n => { n with parent := p }) with ht3
      have L3 : t3.nodes.length = s.nodes.length := by rw [ht3]; simp [L1]
      have e3 : ∀ j, j ≠ x → t3.nget j = t1.nget j := fun j hj => by
        rw [ht3, nget_nset_ne hj]
      have e3y : t3.nget x = { s.nget x with parent := p } := by
        rw [ht3, nget_nset_self (by rw [L1]; exact hxlen), e1 x hxy]
      have q2 : (t1.nget y).parent = p := by rw [e1x]; exact hp
      have q3 : (t3.nget y).parent = p := by rw [e3 y hyx, e1x]; exact hp
      by_cases hp0 : p = 0
      · refine ⟨{ t3 with root := x }, ?_, by simp [hp0], L3, ?_, ?_,
          ?_, e3y, fun h => absurd hb0 h, fun h => absurd hp0 h, ?_, ?_⟩
        · show rotateRight s y = _
          simp only [rotateRight]
          rw [hx, hb, ← ht1, q1,
            if_neg (show ¬ (b ≠ 0) from by simp [hb0]), q2, ← ht3, q3,
            if_pos hp0]
        · show t3.size = _; rw [ht3, ht1]; rfl
        · show t3.nextUid = _; rw [ht3, ht1]; rfl
        · show t3.nget y = _; rw [e3 y hyx, e1x]
        · show t3.nget 0 = _; rw [e3 0 h0x, e1 0 h0y]
        · intro j hjx hjy _ _
          show t3.nget j = _
          rw [e3 j hjy, e1 j hjx]
      · have q4 : (t3.nget p).right = (s.nget p).right := by
          rw [e3 p hpx, e1 p hpy]
        have hplen3 : p < t3.nodes.length := by rw [L3]; exact hplen hp0
        have h0p : (0 : Nat) ≠ p := fun h => hp0 h.symm
        by_cases hxl : y = (s.nget p).right
        · have hsl : sideRight = true := (hside hp0).mp hxl
          refine ⟨t3.nset p fun n => { n with right := x }, ?_, ?_, ?_, ?_,
            ?_, ?_, ?_, fun h => absurd hb0 h, ?_, ?_, ?_⟩
          · show rotateRight s y = _
            simp only [rotateRight]
            rw [hx, hb, ← ht1, q1,
              if_neg (show ¬ (b ≠ 0) from by simp [hb0]), q2, ← ht3, q3,
              if_neg hp0, q4, if_pos hxl]
          · rw [root_nset, ht3, root_nset, ht1, root_nset, if_neg hp0]
          · rw [nodes_length_nset, L3]
          · rw [size_nset, ht3, size_nset, ht1, size_nset]
          · rw [nextUid_nset, ht3, nextUid_nset, ht1, nextUid_nset]
          · rw [nget_nset_ne hyp, e3 y hyx, e1x]
          · rw [nget_nset_ne hxp, e3y]
          · intro _
            rw [nget_nset_self hplen3, e3 p hpx, e1 p hpy, if_pos hsl]
          · rw [nget_nset_ne h0p, e3 0 h0x, e1 0 h0y]
          · intro j hjx hjy _ hjp
            rw [nget_nset_ne hjp, e3 j hjy, e1 j hjx]
        · have hsl : sideRight = false := by
            cases hsound : sideRight
            · rfl
            · exact absurd ((hside hp0).mpr hsound) hxl
          refine ⟨t3.nset p fun n => { n with left := x }, ?_, ?_, ?_, ?_,
            ?_, ?_, ?_, fun h => absurd hb0 h, ?_, ?_, ?_⟩
          · show rotateRight s y = _
            simp only [rotateRight]
            rw [hx, hb, ← ht1, q1,
              if_neg (show ¬ (b ≠ 0) from by simp [hb0]), q2, ← ht3, q3,
              if_neg hp0, q4, if_neg hxl]
          · rw [root_nset, ht3, root_nset, ht1, root_nset, if_neg hp0]
          · rw [nodes_length_nset, L3]
          · rw [size_nset, ht3, size_nset, ht1, size_nset]
          · rw [nextUid_nset, ht3, nextUid_nset, ht1, nextUid_nset]
          · rw [nget_nset_ne hyp, e3 y hyx, e1x]
          · rw [nget_nset_ne hxp, e3y]
          · intro _
            rw [nget_nset_self hplen3, e3 p hpx, e1 p hpy,
              if_neg (by simp [hsl])]
          · rw [nget_nset_ne h0p, e3 0 h0x, e1 0 h0y]
          · intro j hjx hjy _ hjp
            rw [nget_nset_ne hjp, e3 j hjy, e1 j hjx]
    -- case b ≠ 0: the left child of x is reparented to y
    · set t2 := t1.nset b (fun n => { n with parent := y }) with ht2
      have L2 : t2.nodes.length = s.nodes.length := by rw [ht2]; simp [L1]
      have e2 : ∀ j, j ≠ b → t2.nget j = t1.nget j := fun j hj => by
        rw [ht2, nget_nset_ne hj]
      have e2b : t2.nget b = { s.nget b with parent := y } := by
        rw [ht2, nget_nset_self (by rw [L1]; exact hblen hb0), e1 b hby]
      have h0b : (0 : Nat) ≠ b := fun h => hb0 h.symm
      have q2 : (t2.nget y).parent = p := by rw [e2 y hyb, e1x]; exact hp
      set t3 := t2.nset x (fun n => { n with parent := p }) with ht3
      have L3 : t3.nodes.length = s.nodes.length := by rw [ht3]; simp [L2]
      have e3 : ∀ j, j ≠ x → t3.nget j = t2.nget j := fun j hj => by
        rw [ht3, nget_nset_ne hj]
      have e3y : t3.nget x = { s.nget x with parent := p } := by
        rw [ht3, nget_nset_self (by rw [L2]; exact hxlen), e2 x hxb, e1 x hxy]
      have q3 : (t3.nget y).parent = p := by
        rw [e3 y hyx, e2 y hyb, e1x]; exact hp
      by_cases hp0 : p = 0
      · refine ⟨{ t3 with root := x }, ?_, by simp [hp0], L3, ?_, ?_,
          ?_, e3y, ?_, fun h => absurd hp0 h, ?_, ?_⟩
        · show rotateRight s y = _
          simp only [rotateRight]
          rw [hx, hb, ← ht1, q1, if_pos hb0, ← ht2, q2, ← ht3, q3,
            if_pos hp0]
        · show t3.size = _; rw [ht3, ht2, ht1]; rfl
        · show t3.nextUid = _; rw [ht3, ht2, ht1]; rfl
        · show t3.nget y = _; rw [e3 y hyx, e2 y hyb, e1x]
        · intro _; show t3.nget b = _; rw [e3 b hbx, e2b]
        · show t3.nget 0 = _; rw [e3 0 h0x, e2 0 h0b, e1 0 h0y]
        · intro j hjx hjy hjb _
          show t3.nget j = _
          rw [e3 j hjy, e2 j hjb, e1 j hjx]
      · have hpb' : p ≠ b := hpb.resolve_right hp0
        have q4 : (t3.nget p).right = (s.nget p).right := by
          rw [e3 p hpx, e2 p hpb', e1 p hpy]
        have hplen3 : p < t3.nodes.length := by rw [L3]; exact hplen hp0
        have h0p : (0 : Nat) ≠ p := fun h => hp0 h.symm
        by_cases hxl : y = (s.nget p).right
        · have hsl : sideRight = true := (hside hp0).mp hxl
          refine ⟨t3.nset p fun n => { n with right := x }, ?_, ?_, ?_, ?_,
            ?_, ?_, ?_, ?_, ?_, ?_, ?_⟩
          · show rotateRight s y = _
            simp only [rotateRight]
            rw [hx, hb, ← ht1, q1, if_pos hb0, ← ht2, q2, ← ht3, q3,
              if_neg hp0, q4, if_pos hxl]
          · rw [root_nset, ht3, root_nset, ht2, root_nset, ht1, root_nset,
              if_neg hp0]
          · rw [nodes_length_nset, L3]
          · rw [size_nset, ht3, size_nset, ht2, size_nset, ht1, size_nset]
          · rw [nextUid_nset, ht3, nextUid_nset, ht2, nextUid_nset, ht1,
              nextUid_nset]
          · rw [nget_nset_ne hyp, e3 y hyx, e2 y hyb, e1x]
          · rw [nget_nset_ne hxp, e3y]
          · intro _; rw [nget_nset_ne (Ne.symm hpb'), e3 b hbx, e2b]
          · intro _
            rw [nget_nset_self hplen3, e3 p hpx, e2 p hpb', e1 p hpy,
              if_pos hsl]
          · rw [nget_nset_ne h0p, e3 0 h0x, e2 0 h0b, e1 0 h0y]
          · intro j hjx hjy hjb hjp
            rw [nget_nset_ne hjp, e3 j hjy, e2 j hjb, e1 j hjx]
        · have hsl : sideRight = false := by
            cases hsound : sideRight
            · rfl
            · exact absurd ((hside hp0).mpr hsound) hxl
          refine ⟨t3.nset p fun n => { n with left := x }, ?_, ?_, ?_, ?_,
            ?_, ?_, ?_, ?_, ?_, ?_, ?_⟩
          · show rotateRight s y = _
            simp only [rotateRight]
            rw [hx, hb, ← ht1, q1, if_pos hb0, ← ht2, q2, ← ht3, q3,
              if_neg hp0, q4, if_neg hxl]
          · rw [root_nset, ht3, root_nset, ht2, root_nset, ht1, root_nset,
              if_neg hp0]
          · rw [nodes_length_nset, L3]
          · rw [size_nset, ht3, size_nset, ht2, size_nset, ht1, size_nset]
          · rw [nextUid_nset, ht3, nextUid_nset, ht2, nextUid_nset, ht1,
              nextUid_nset]
          · rw [nget_nset_ne hyp, e3 y hyx, e2 y hyb, e1x]
          · rw [nget_nset_ne hxp, e3y]
          · intro _; rw [nget_nset_ne (Ne.symm hpb'), e3 b hbx, e2b]
          · intro _
            rw [nget_nset_self hplen3, e3 p hpx, e2 p hpb', e1 p hpy,
              if_neg (by simp [hsl])]
          · rw [nget_nset_ne h0p, e3 0 h0x, e2 0 h0b, e1 0 h0y]
          · intro j hjx hjy hjb hjp
            rw [nget_nset_ne hjp, e3 j hjy, e2 j hjb, e1 j hjx]
  -- Stage 2: the two size recomputations
  rw [hrw]
  set t5 := t4.nset x (fun n => { n with right := y }) with ht5
  set t6 := t5.nset y (fun n => { n with parent := x }) with ht6
  have L5 : t5.nodes.length = s.nodes.length := by rw [ht5]; simp [len4]
  have L6 : t6.nodes.length = s.nodes.length := by rw [ht6]; simp [L5]
  have e5 : ∀ j, j ≠ x → t5.nget j = t4.nget j := fun j hj => by
    rw [ht5, nget_nset_ne hj]
  have e5y : t5.nget x = { s.nget x with right := y, parent := p } := by
    rw [ht5, nget_nset_self (by rw [len4]; exact hxlen), f4y]
  have e6 : ∀ j, j ≠ y → t6.nget j = t5.nget j := fun j hj => by
    rw [ht6, nget_nset_ne hj]
  have e6x : t6.nget y = { s.nget y with left := b, parent := x } := by
    rw [ht6, nget_nset_self (by rw [L5]; exact hylen), e5 y hyx, f4x]
  have e6y : t6.nget x = { s.nget x with right := y, parent := p } := by
    rw [e6 x hxy, e5y]
  have e60 : t6.nget 0 = s.nget 0 := by
    rw [e6 0 h0y, e5 0 h0x, f40]
  have e6frame : ∀ j, j ≠ y → j ≠ x → j ≠ b → j ≠ p → t6.nget j = s.nget j :=
    fun j hjx hjy hjb hjp => by
      rw [e6 j hjx, e5 j hjy, f4 j hjx hjy hjb hjp]
  have e6a : (t6.nget a).size = (s.nget a).size := by
    by_cases ha0 : a = 0
    · rw [ha0, e60]
    · rw [e6frame a hay hax (hab.resolve_right ha0) (hap.resolve_right ha0)]
  have e6bS : (t6.nget b).size = (s.nget b).size := by
    by_cases hb0 : b = 0
    · rw [hb0, e60]
    · rw [e6 b hby, e5 b hbx, f4b hb0]
  have hy6 : y < t6.nodes.length := by rw [L6]; exact hylen
  have q5 : (t6.nget y).right = a := by rw [e6x]; exact ha
  have q6 : (t6.nget y).left = b := by rw [e6x]
  set t7 := recomputeSize t6 y with ht7
  have L7 : t7.nodes.length = s.nodes.length := by rw [ht7]; simp [L6]
  have e7 : ∀ j, j ≠ y → t7.nget j = t6.nget j := fun j hj => by
    rw [ht7, nget_recomputeSize_ne hj]
  have e7x : t7.nget y =
      { s.nget y with
          left := b
          parent := x
          size := (s.nget b).size + (s.nget a).size + 1 } := by
    rw [ht7, nget_recomputeSize_self hy6, q5, q6, e6a, e6bS, e6x]
  have e7y : t7.nget x = { s.nget x with right := y, parent := p } := by
    rw [e7 x hxy, e6y]
  have e70 : t7.nget 0 = s.nget 0 := by rw [e7 0 h0y, e60]
  have e7c : (t7.nget c).size = (s.nget c).size := by
    by_cases hc0 : c = 0
    · rw [hc0, e70]
    · rw [e7 c hcy, e6frame c hcy hcx (hcb.resolve_right hc0)
        (hcp.resolve_right hc0)]
  have hx7 : x < t7.nodes.length := by rw [L7]; exact hxlen
  have q7 : (t7.nget x).right = y := by rw [e7y]
  have q8 : (t7.nget x).left = c := by rw [e7y]; exact hc
  have q9 : (t7.nget y).size = (s.nget b).size + (s.nget a).size + 1 := by
    rw [e7x]
  refine ⟨?_, ?_, ?_, ?_, ?_, ?_, ?_, ?_, ?_, ?_⟩
  · rw [root_recomputeSize, ht7, root_recomputeSize, ht6, root_nset, ht5,
      root_nset, root4]
  · rw [nodes_length_recomputeSize, L7]
  · rw [size_recomputeSize, ht7, size_recomputeSize, ht6, size_nset, ht5,
      size_nset, sz4]
  · rw [nextUid_recomputeSize, ht7, nextUid_recomputeSize, ht6, nextUid_nset,
      ht5, nextUid_nset, nu4]
  · rw [nget_recomputeSize_ne hyx, e7x]
  · rw [nget_recomputeSize_self hx7, q7, q8, q9, e7c, e7y]
  · intro hb0
    rw [nget_recomputeSize_ne hbx, e7 b hby, e6 b hby, e5 b hbx, f4b hb0]
  · intro hp0
    rw [nget_recomputeSize_ne hpx, e7 p hpy, e6 p hpy, e5 p hpx, f4p hp0]
  · rw [nget_recomputeSize_ne h0x, e70]
  · intro j hjx hjy hjb hjp
    rw [nget_recomputeSize_ne hjy, e7 j hjx, e6frame j hjx hjy hjb hjp]

end OSTree

/-! ### Zipper contexts over shapes -/

/-- One context frame of a shape zipper: the parent node's index and
contents, plus the sibling subtree; `onLeft = true` means the hole is
the parent's left child. -/
structure Frame (K : Type) where
  onLeft : Bool
  i : Nat
  k : K
  uid : Int
  sib : STree K
  deriving Repr, DecidableEq

/-- A context is a list of frames, innermost first. -/
abbrev Ctx (K : Type) := List (Frame K)

variable {K : Type} [LinearOrder K]

/-- Rebuild the whole shape from a subtree and its context. -/
def plug : STree K → Ctx K → STree K
  | u, [] => u
  | u, f :: rest =>
    plug (if f.onLeft then .node f.i f.k f.uid u f.sib
          else .node f.i f.k f.uid f.sib u) rest

/-- Arena index of the hole's parent (`0` at the top). -/
def holeParent : Ctx K → Nat
  | [] => 0
  | f :: _ => f.i

/-- All indices occurring in a context. -/
def ctxIdx (ctx : Ctx K) : List Nat :=
  ctx.flatMap fun f => f.i :: f.sib.idxList

theorem entries_plug_congr {u u' : STree K} (h : u.entries = u'.entries)
    (ctx : Ctx K) : (plug u ctx).entries = (plug u' ctx).entries := by
  induction ctx generalizing u u' with
  | nil => exact h
  | cons f rest ih =>
    cases hf : f.onLeft <;>
      · simp only [plug, hf]
        exact ih (by simp [STree.entries, h])

theorem idxList_plug_perm (u : STree K) (ctx : Ctx K) :
    (plug u ctx).idxList.Perm (u.idxList ++ ctxIdx ctx) := by
  induction ctx generalizing u with
  | nil => simp [ctxIdx, plug]
  | cons f rest ih =>
    have step : (plug u (f :: rest)).idxList.Perm
        ((if f.onLeft then STree.node f.i f.k f.uid u f.sib
          else STree.node f.i f.k f.uid f.sib u).idxList ++ ctxIdx rest) := by
      cases hf : f.onLeft <;> simp only [plug, hf] <;> exact ih _
    refine step.trans (List.perm_iff_count.mpr fun a => ?_)
    cases hf : f.onLeft <;>
      simp [STree.idxList, ctxIdx, List.count_append, List.count_cons, hf] <;>
        omega

/-- The mutable fields of a frame's parent node that its context
representation constrains (key, uid, parent pointer, sibling pointer). -/
def frameFields (s : OSTree K) (f : Frame K) (p : Nat) : Prop :=
  f.i ≠ 0 ∧ f.i < s.nodes.length ∧
  (s.nget f.i).key = some f.k ∧ (s.nget f.i).uid = f.uid ∧
  (s.nget f.i).parent = p ∧
  (if f.onLeft then (s.nget f.i).right else (s.nget f.i).left) =
    f.sib.rootIdx

/-- The innermost frame's hole-side child pointer is `h`. -/
def HoleOk (s : OSTree K) (ctx : Ctx K) (h : Nat) : Prop :=
  match ctx with
  | [] => True
  | f :: _ =>
    (if f.onLeft then (s.nget f.i).left else (s.nget f.i).right) = h

/-- The arena realises the context `ctx` (the innermost hole-side
child pointer is not constrained; `plug`'s representation adds it). -/
def ReprC (s : OSTree K) : Ctx K → Prop
  | [] => True
  | f :: rest =>
    frameFields s f (holeParent rest) ∧ OSTree.ReprB s f.i f.sib ∧
      HoleOk s rest f.i ∧ ReprC s rest

theorem ReprB_plug_iff (s : OSTree K) (u : STree K) (ctx : Ctx K) :
    OSTree.ReprB s 0 (plug u ctx) ↔
      ReprC s ctx ∧ HoleOk s ctx u.rootIdx ∧
        OSTree.ReprB s (holeParent ctx) u := by
  induction ctx generalizing u with
  | nil => simp [plug, ReprC, HoleOk, holeParent]
  | cons f rest ih =>
    have hplug : plug u (f :: rest) =
        plug (if f.onLeft then STree.node f.i f.k f.uid u f.sib
              else STree.node f.i f.k f.uid f.sib u) rest := rfl
    rw [hplug]
    cases hf : f.onLeft <;>
      · simp only [hf, if_pos, if_neg, Bool.false_ne_true, ite_true,
          ite_false, ih, ReprC, HoleOk, holeParent, frameFields,
          OSTree.ReprB, STree.rootIdx]
        tauto

theorem rootIdx_eq_zero_or_mem (t : STree K) :
    t.rootIdx = 0 ∨ t.rootIdx ∈ t.idxList := by
  cases t with
  | leaf => exact Or.inl rfl
  | node i k uid l r => exact Or.inr (by simp [STree.rootIdx, STree.idxList])

theorem ReprB_idx_facts {s : OSTree K} {p : Nat} {t : STree K}
    (h : OSTree.ReprB s p t) :
    ∀ i ∈ t.idxList, i ≠ 0 ∧ i < s.nodes.length := by
  induction t generalizing p with
  | leaf => intro i hi; simp [STree.idxList] at hi
  | node j k uid l r ihl ihr =>
    obtain ⟨h0, hlt, _, _, _, _, _, hL, hR⟩ := h
    intro i hi
    simp only [STree.idxList, List.mem_cons, List.mem_append] at hi
    rcases hi with rfl | hi | hi
    · exact ⟨h0, hlt⟩
    · exact ihl hL i hi
    · exact ihr hR i hi

theorem rootIdx_plug_congr {u u' : STree K} {ctx : Ctx K}
    (h : u.rootIdx = u'.rootIdx ∨ ctx ≠ []) :
    (plug u ctx).rootIdx = (plug u' ctx).rootIdx := by
  induction ctx generalizing u u' with
  | nil =>
    rcases h with h | h
    · exact h
    · exact absurd rfl h
  | cons f rest ih =>
    cases hf : f.onLeft <;>
      · simp only [plug, hf]
        exact ih (Or.inl rfl)

theorem ReprC_mono_of_agree {s s' : OSTree K} {ctx : Ctx K}
    (hlen : s.nodes.length ≤ s'.nodes.length)
    (hag : ∀ j ∈ ctxIdx ctx, s'.nget j = s.nget j) :
    ReprC s ctx → ReprC s' ctx := by
  induction ctx with
  | nil => intro h; trivial
  | cons f rest ih =>
    rintro ⟨⟨h0, hlt, hk, hu, hp, hs⟩, hsibR, hh, hc⟩
    have ei : s'.nget f.i = s.nget f.i := hag f.i (by simp [ctxIdx])
    refine ⟨⟨h0, lt_of_lt_of_le hlt hlen, ?_, ?_, ?_, ?_⟩, ?_, ?_, ?_⟩
    · rw [ei]; exact hk
    · rw [ei]; exact hu
    · rw [ei]; exact hp
    · rw [ei]; exact hs
    · exact OSTree.ReprB_mono_of_agree hlen
        (fun j hj => hag j (by simp [ctxIdx, hj])) hsibR
    · cases rest with
      | nil => trivial
      | cons g rest' =>
        have eg : s'.nget g.i = s.nget g.i := by
          refine hag g.i ?_
          simp [ctxIdx]
        show (if g.onLeft then (s'.nget g.i).left else (s'.nget g.i).right) =
          f.i
        rw [eg]; exact hh
    · refine ih (fun j hj => hag j ?_) hc
      simp only [ctxIdx, List.flatMap_cons, List.mem_append]
      exact Or.inr (by simpa [ctxIdx] using hj)

/-- The side of the innermost context frame (irrelevant default at the
top). -/
def ctxSide : Ctx K → Bool
  | [] => true
  | f :: _ => f.onLeft

theorem ctxIdx_cons (f : Frame K) (rest : Ctx K) :
    ctxIdx (f :: rest) = (f.i :: f.sib.idxList) ++ ctxIdx rest := by
  simp [ctxIdx]

theorem mem_ctxIdx_cons_of_mem {j : Nat} (f : Frame K) {rest : Ctx K}
    (h : j ∈ ctxIdx rest) : j ∈ ctxIdx (f :: rest) := by
  rw [ctxIdx_cons]
  exact List.mem_append_right _ h

theorem mem_ctxIdx_cons_of_sib {j : Nat} {f : Frame K} (rest : Ctx K)
    (h : j ∈ f.sib.idxList) : j ∈ ctxIdx (f :: rest) := by
  rw [ctxIdx_cons]
  exact List.mem_append_left _ (by simp [h])

theorem ReprC_idx_facts {s : OSTree K} {ctx : Ctx K} (h : ReprC s ctx) :
    ∀ j ∈ ctxIdx ctx, j ≠ 0 ∧ j < s.nodes.length := by
  induction ctx with
  | nil => intro j hj; simp [ctxIdx] at hj
  | cons f rest ih =>
    obtain ⟨⟨h0, hlt, _, _, _, _⟩, hsib, _, hc⟩ := h
    intro j hj
    simp only [ctxIdx, List.flatMap_cons, List.mem_append, List.mem_cons] at hj
    rcases hj with (rfl | hj) | hj
    · exact ⟨h0, hlt⟩
    · exact ReprB_idx_facts hsib j hj
    · exact ih hc j (by simpa [ctxIdx] using hj)

theorem holeParent_facts {s : OSTree K} {ctx : Ctx K} (h : ReprC s ctx) :
    holeParent ctx = 0 ∨ (holeParent ctx ∈ ctxIdx ctx ∧
      holeParent ctx ≠ 0 ∧ holeParent ctx < s.nodes.length) := by
  cases ctx with
  | nil => exact Or.inl rfl
  | cons f rest =>
    obtain ⟨⟨h0, hlt, _⟩, _⟩ := h
    exact Or.inr ⟨by simp [ctxIdx, holeParent], h0, hlt⟩

/-- Re-establish a context representation after writes that touch only
the hole's parent node, and there only its hole-side child pointer. -/
theorem ReprC_update_hole {s s' : OSTree K} {ctx : Ctx K}
    (hlen : s.nodes.length ≤ s'.nodes.length)
    (hndc : (ctxIdx ctx).Nodup)
    (hc : ReprC s ctx)
    (hag : ∀ j ∈ ctxIdx ctx, j ≠ holeParent ctx → s'.nget j = s.nget j)
    (hfr : ∀ f, ctx = f :: ctx.tail →
      (s'.nget f.i).key = (s.nget f.i).key ∧
      (s'.nget f.i).uid = (s.nget f.i).uid ∧
      (s'.nget f.i).parent = (s.nget f.i).parent ∧
      (if f.onLeft then (s'.nget f.i).right else (s'.nget f.i).left) =
        (if f.onLeft then (s.nget f.i).right else (s.nget f.i).left)) :
    ReprC s' ctx := by
  cases ctx with
  | nil => trivial
  | cons f rest =>
    obtain ⟨⟨h0, hlt, hk, hu, hp, hs⟩, hsib, hh, hcrest⟩ := hc
    obtain ⟨ek, eu, ep, es⟩ := hfr f rfl
    have hndc' := hndc
    simp only [ctxIdx, List.flatMap_cons] at hndc'
    rcases List.nodup_append.mp hndc' with ⟨hnd1, hnd2, hdisj⟩
    have hfiNotRest : f.i ∉ ctxIdx rest := hdisj (by simp)
    have hfiNotSib : f.i ∉ f.sib.idxList := (List.nodup_cons.mp hnd1).1
    refine ⟨⟨h0, lt_of_lt_of_le hlt hlen, ?_, ?_, ?_, ?_⟩, ?_, ?_, ?_⟩
    · rw [ek]; exact hk
    · rw [eu]; exact hu
    · rw [ep]; exact hp
    · rw [es]; exact hs
    · refine OSTree.ReprB_mono_of_agree hlen (fun j hj => ?_) hsib
      refine hag j (mem_ctxIdx_cons_of_sib rest hj) fun he => ?_
      rw [show holeParent (f :: rest) = f.i from rfl] at he
      exact hfiNotSib (he ▸ hj)
    · cases hr : rest with
      | nil => trivial
      | cons g rest' =>
        have hgi : g.i ∈ ctxIdx rest := by
          rw [hr, ctxIdx_cons]
          simp
        have egi : s'.nget g.i = s.nget g.i := by
          refine hag g.i (mem_ctxIdx_cons_of_mem f hgi) fun he => ?_
          rw [show holeParent (f :: rest) = f.i from rfl] at he
          exact hfiNotRest (he ▸ hgi)
        show (if g.onLeft then (s'.nget g.i).left else (s'.nget g.i).right) =
          f.i
        rw [egi]
        have := hh
        rw [hr] at this
        exact this
    · refine ReprC_mono_of_agree hlen (fun j hj => ?_) hcrest
      refine hag j (mem_ctxIdx_cons_of_mem f hj) fun he => ?_
      rw [show holeParent (f :: rest) = f.i from rfl] at he
      exact hfiNotRest (he ▸ hj)


set_option maxHeartbeats 4000000 in
/-- Zipper-level specification of `_rotate_left` at `x` (right child
`y`) inside an arbitrary context: representation, root, index
distinctness, sentinel, lengths, colors, keys and uids are preserved,
and the two rotated nodes' sizes are recomputed from stored child
sizes. -/
theorem rotateLeft_zip {s : OSTree K} {ctx : Ctx K} {x y : Nat} {kx ky : K}
    {ux uy : Int} {A B C : STree K}
    (hR : OSTree.ReprB s 0 (plug (.node x kx ux A (.node y ky uy B C)) ctx))
    (hroot : s.root = (plug (.node x kx ux A (.node y ky uy B C)) ctx).rootIdx)
    (hnd : (plug (.node x kx ux A (.node y ky uy B C)) ctx).idxList.Nodup)
    (hnil : OSTree.NilOk s) :
    OSTree.ReprB (OSTree.rotateLeft s x) 0
      (plug (.node y ky uy (.node x kx ux A B) C) ctx) ∧
    (OSTree.rotateLeft s x).root =
      (plug (.node y ky uy (.node x kx ux A B) C) ctx).rootIdx ∧
    (plug (.node y ky uy (.node x kx ux A B) C) ctx).idxList.Nodup ∧
    OSTree.NilOk (OSTree.rotateLeft s x) ∧
    (OSTree.rotateLeft s x).nodes.length = s.nodes.length ∧
    (OSTree.rotateLeft s x).size = s.size ∧
    (OSTree.rotateLeft s x).nextUid = s.nextUid ∧
    (∀ j, ((OSTree.rotateLeft s x).nget j).color = (s.nget j).color) ∧
    (∀ j, ((OSTree.rotateLeft s x).nget j).key = (s.nget j).key) ∧
    (∀ j, ((OSTree.rotateLeft s x).nget j).uid = (s.nget j).uid) ∧
    ((OSTree.rotateLeft s x).nget x).size =
      (s.nget A.rootIdx).size + (s.nget B.rootIdx).size + 1 ∧
    ((OSTree.rotateLeft s x).nget y).size =
      ((s.nget A.rootIdx).size + (s.nget B.rootIdx).size + 1) +
        (s.nget C.rootIdx).size + 1 ∧
    (∀ j, j ≠ x → j ≠ y → ((OSTree.rotateLeft s x).nget j).size =
      (s.nget j).size) := by
  have hRint := hR
  rw [ReprB_plug_iff] at hRint
  obtain ⟨hc, hh, hu⟩ := hRint
  obtain ⟨hx0, hxlen, hkx, hux', hpar, hlx, hrx, hA, hY⟩ := hu
  obtain ⟨hy0, hylen, hky, huy', hpary, hly, hry, hB, hC⟩ := hY
  simp only [STree.rootIdx] at hh hrx
  -- nodup decomposition
  have hperm := idxList_plug_perm
    (STree.node x kx ux A (STree.node y ky uy B C)) ctx
  have hnd2 := hperm.nodup hnd
  simp only [STree.idxList] at hnd2
  rcases List.nodup_cons.mp (List.nodup_append.mp hnd2).1 with ⟨hxmem, hnd3⟩
  have hndCtx := (List.nodup_append.mp hnd2).2.1
  have hdisj := (List.nodup_append.mp hnd2).2.2
  rcases List.nodup_append.mp hnd3 with ⟨hndA, hnd4, hdisjA⟩
  rcases List.nodup_cons.mp hnd4 with ⟨hymem, hnd5⟩
  rcases List.nodup_append.mp hnd5 with ⟨hndB, hndC2, hdisjBC⟩
  simp only [List.mem_cons, List.mem_append, not_or] at hxmem hymem
  have hxy : x ≠ y := fun h => hxmem.2.1 h
  have hxA : x ∉ A.idxList := hxmem.1
  have hxB : x ∉ B.idxList := hxmem.2.2.1
  have hxC : x ∉ C.idxList := hxmem.2.2.2
  have hyB : y ∉ B.idxList := hymem.1
  have hyC : y ∉ C.idxList := hymem.2
  have hyA : y ∉ A.idxList := fun h => hdisjA h (by simp)
  have hxctx : x ∉ ctxIdx ctx := fun h => hdisj (by simp) h
  have hyctx : y ∉ ctxIdx ctx := fun h => hdisj (by simp) h
  have hActx : ∀ j ∈ A.idxList, j ∉ ctxIdx ctx := fun j hj h =>
    hdisj (by simp [hj]) h
  have hBctx : ∀ j ∈ B.idxList, j ∉ ctxIdx ctx := fun j hj h =>
    hdisj (by simp [hj]) h
  have hCctx : ∀ j ∈ C.idxList, j ∉ ctxIdx ctx := fun j hj h =>
    hdisj (by simp [hj]) h
  have hAidx := ReprB_idx_facts hA
  have hBidx := ReprB_idx_facts hB
  have hCidx := ReprB_idx_facts hC
  have hbcases := rootIdx_eq_zero_or_mem B
  have hacases := rootIdx_eq_zero_or_mem A
  have hccases := rootIdx_eq_zero_or_mem C
  have hbx : B.rootIdx ≠ x := by
    rcases hbcases with h | h
    · rw [h]; exact Ne.symm hx0
    · exact fun he => hxB (he ▸ h)
  have hby : B.rootIdx ≠ y := by
    rcases hbcases with h | h
    · rw [h]; exact Ne.symm hy0
    · exact fun he => hyB (he ▸ h)
  have hax : A.rootIdx ≠ x := by
    rcases hacases with h | h
    · rw [h]; exact Ne.symm hx0
    · exact fun he => hxA (he ▸ h)
  have hay : A.rootIdx ≠ y := by
    rcases hacases with h | h
    · rw [h]; exact Ne.symm hy0
    · exact fun he => hyA (he ▸ h)
  have hcx : C.rootIdx ≠ x := by
    rcases hccases with h | h
    · rw [h]; exact Ne.symm hx0
    · exact fun he => hxC (he ▸ h)
  have hcy : C.rootIdx ≠ y := by
    rcases hccases with h | h
    · rw [h]; exact Ne.symm hy0
    · exact fun he => hyC (he ▸ h)
  have hab : A.rootIdx ≠ B.rootIdx ∨ A.rootIdx = 0 := by
    rcases hacases with h | h
    · exact Or.inr h
    · refine Or.inl ?_
      rcases hbcases with h2 | h2
      · rw [h2]; exact (hAidx _ h).1
      · exact fun he => hdisjA h (by simp [he ▸ h2])
  have hcb : C.rootIdx ≠ B.rootIdx ∨ C.rootIdx = 0 := by
    rcases hccases with h | h
    · exact Or.inr h
    · refine Or.inl ?_
      rcases hbcases with h2 | h2
      · rw [h2]; exact (hCidx _ h).1
      · exact fun he => (List.disjoint_right.mp hdisjBC) h (he ▸ h2)
  have hblen : B.rootIdx ≠ 0 → B.rootIdx < s.nodes.length := by
    intro hb0
    rcases hbcases with h | h
    · exact absurd h hb0
    · exact (hBidx _ h).2
  have hpm := holeParent_facts hc
  have hpx : holeParent ctx ≠ x := by
    rcases hpm with h | ⟨hm, _, _⟩
    · rw [h]; exact Ne.symm hx0
    · exact fun he => hxctx (he ▸ hm)
  have hpy : holeParent ctx ≠ y := by
    rcases hpm with h | ⟨hm, _, _⟩
    · rw [h]; exact Ne.symm hy0
    · exact fun he => hyctx (he ▸ hm)
  have hpb : holeParent ctx ≠ B.rootIdx ∨ holeParent ctx = 0 := by
    rcases hpm with h | ⟨hm, hp0, _⟩
    · exact Or.inr h
    · refine Or.inl ?_
      rcases hbcases with h2 | h2
      · rw [h2]; exact hp0
      · exact fun he => hBctx _ h2 (he ▸ hm)
  have hap : A.rootIdx ≠ holeParent ctx ∨ A.rootIdx = 0 := by
    rcases hacases with h | h
    · exact Or.inr h
    · refine Or.inl ?_
      rcases hpm with h2 | ⟨hm, _, _⟩
      · rw [h2]; exact (hAidx _ h).1
      · exact fun he => hActx _ h (he ▸ hm)
  have hcp : C.rootIdx ≠ holeParent ctx ∨ C.rootIdx = 0 := by
    rcases hccases with h | h
    · exact Or.inr h
    · refine Or.inl ?_
      rcases hpm with h2 | ⟨hm, _, _⟩
      · rw [h2]; exact (hCidx _ h).1
      · exact fun he => hCctx _ h (he ▸ hm)
  have hplen : holeParent ctx ≠ 0 → holeParent ctx < s.nodes.length := by
    intro hp0
    rcases hpm with h | ⟨_, _, hlt⟩
    · exact absurd h hp0
    · exact hlt
  have hside : holeParent ctx ≠ 0 →
      ((x = (s.nget (holeParent ctx)).left) ↔ ctxSide ctx = true) := by
    intro hp0
    cases hctx : ctx with
    | nil => exact absurd (hctx ▸ rfl) hp0
    | cons f rest =>
      subst hctx
      obtain ⟨⟨_, _, _, _, _, hsibp⟩, hsibR, _, _⟩ := hc
      have hhf := hh
      show x = (s.nget f.i).left ↔ f.onLeft = true
      cases hf : f.onLeft
      · simp only [hf, if_neg Bool.false_ne_true] at hhf hsibp
        constructor
        · intro hxl
          exfalso
          rw [hsibp] at hxl
          rcases rootIdx_eq_zero_or_mem f.sib with h | h
          · exact hx0 (hxl.trans h)
          · exact hxctx (hxl ▸ mem_ctxIdx_cons_of_sib rest h)
        · intro h; exact absurd h Bool.false_ne_true
      · have hhf2 : (s.nget f.i).left = x := by
          have h2 : (if f.onLeft = true then (s.nget f.i).left
              else (s.nget f.i).right) = x := hhf
          rwa [hf, if_pos rfl] at h2
        simp [hhf2, hf]
  obtain ⟨frt, flen, fsz, fnu, fx, fy, fb, fp, f0, ffr⟩ :=
    OSTree.rotateLeft_eq s x y B.rootIdx (holeParent ctx) A.rootIdx C.rootIdx
      (ctxSide ctx) hrx hly hpar hlx hry hx0 hy0 hxy hbx hby hpx hpy hpb
      hax hay hab hap hcx hcy hcb hcp hxlen hylen hblen hplen hside
  set s' := OSTree.rotateLeft s x with hs'
  obtain ⟨hnil0, hnilsz, hnilc, hnill, hnilr⟩ := hnil
  have h0x : (0 : Nat) ≠ x := Ne.symm hx0
  have h0y : (0 : Nat) ≠ y := Ne.symm hy0
  -- index-level frame: untouched nodes keep their values
  have hkeep : ∀ j, j ≠ x → j ≠ y → j ∉ B.idxList →
      j ∉ ctxIdx ctx → s'.nget j = s.nget j := by
    intro j hjx hjy hjB hjctx
    by_cases hj0 : j = 0
    · rw [hj0]; exact f0
    refine ffr j hjx hjy (fun he => ?_) (fun he => ?_)
    · rcases hbcases with h | h
      · exact hj0 (he.trans h)
      · exact hjB (he ▸ h)
    · rcases hpm with h | ⟨hm, _, _⟩
      · exact hj0 (he.trans h)
      · exact hjctx (he ▸ hm)
  -- agreement inside the three subtrees
  have hagA : ∀ j ∈ A.idxList, s'.nget j = s.nget j := by
    intro j hj
    exact hkeep j (fun h => hxA (h ▸ hj)) (fun h => hyA (h ▸ hj))
      (fun h => hdisjA hj (by simp [h])) (hActx j hj)
  have hagC : ∀ j ∈ C.idxList, s'.nget j = s.nget j := by
    intro j hj
    refine ffr j (fun h => hxC (h ▸ hj)) (fun h => hyC (h ▸ hj))
      (fun he => ?_) (fun he => ?_)
    · rcases hbcases with h | h
      · exact (hCidx j hj).1 (he.trans h)
      · exact List.disjoint_right.mp hdisjBC hj (he ▸ h)
    · rcases hpm with h | ⟨hm, _, _⟩
      · exact (hCidx j hj).1 (he.trans h)
      · exact hCctx j hj (he ▸ hm)
  have hagBsub : ∀ j ∈ B.idxList, j ≠ B.rootIdx → s'.nget j = s.nget j := by
    intro j hj hjb
    refine ffr j (fun h => hxB (h ▸ hj)) (fun h => hyB (h ▸ hj)) hjb
      (fun he => ?_)
    rcases hpm with h | ⟨hm, _, _⟩
    · exact (hBidx j hj).1 (he.trans h)
    · exact hBctx j hj (he ▸ hm)
  -- the per-index field agreements (color, key, uid, size off the pair)
  have htriple : ∀ j, ((s'.nget j).color = (s.nget j).color ∧
      (s'.nget j).key = (s.nget j).key ∧ (s'.nget j).uid = (s.nget j).uid) ∧
      (j ≠ x → j ≠ y → (s'.nget j).size = (s.nget j).size) := by
    intro j
    by_cases hjx : j = x
    · subst hjx
      rw [fx]
      exact ⟨⟨rfl, rfl, rfl⟩, fun h _ => absurd rfl h⟩
    by_cases hjy : j = y
    · subst hjy
      rw [fy]
      exact ⟨⟨rfl, rfl, rfl⟩, fun _ h => absurd rfl h⟩
    by_cases hjb : j = B.rootIdx
    · subst hjb
      by_cases hb0 : B.rootIdx = 0
      · rw [hb0, f0]
        exact ⟨⟨rfl, rfl, rfl⟩, fun _ _ => rfl⟩
      · rw [fb hb0]
        exact ⟨⟨rfl, rfl, rfl⟩, fun _ _ => rfl⟩
    by_cases hjp : j = holeParent ctx
    · subst hjp
      by_cases hp0 : holeParent ctx = 0
      · rw [hp0, f0]
        exact ⟨⟨rfl, rfl, rfl⟩, fun _ _ => rfl⟩
      · rw [fp hp0]
        cases hcs : ctxSide ctx
        · rw [if_neg (by simp)]
          exact ⟨⟨rfl, rfl, rfl⟩, fun _ _ => rfl⟩
        · rw [if_pos rfl]
          exact ⟨⟨rfl, rfl, rfl⟩, fun _ _ => rfl⟩
    · rw [ffr j hjx hjy hjb hjp]
      exact ⟨⟨rfl, rfl, rfl⟩, fun _ _ => rfl⟩
  refine ⟨?_, ?_, ?_, ?_, flen, fsz, fnu,
    fun j => ((htriple j).1).1, fun j => ((htriple j).1).2.1,
    fun j => ((htriple j).1).2.2, by rw [fx], by rw [fy],
    fun j hjx hjy => (htriple j).2 hjx hjy⟩
  -- representation
  · rw [ReprB_plug_iff]
    refine ⟨?_, ?_, ?_⟩
    · -- context
      refine ReprC_update_hole (le_of_eq flen.symm) hndCtx hc
        (fun j hj hjp => ?_) (fun f hf => ?_)
      · have hj0 : j ≠ 0 := (ReprC_idx_facts hc j hj).1
        refine ffr j (fun h => hxctx (h ▸ hj)) (fun h => hyctx (h ▸ hj))
          (fun he => ?_) hjp
        rcases hbcases with h | h
        · exact hj0 (he.trans h)
        · exact hBctx _ h (he ▸ hj)
      · have hfi0 : f.i ≠ 0 := by
          rw [hf] at hc
          exact hc.1.1
        have hpeq : holeParent ctx = f.i := by rw [hf]; rfl
        have hfp := fp (by rw [hpeq]; exact hfi0)
        rw [hpeq] at hfp
        have hside2 : ctxSide ctx = f.onLeft := by rw [hf]; rfl
        cases ho : f.onLeft
        · rw [hside2, if_neg (by simp [ho])] at hfp
          exact ⟨by rw [hfp], by rw [hfp], by rw [hfp], by simp [hfp]⟩
        · rw [hside2, if_pos ho] at hfp
          exact ⟨by rw [hfp], by rw [hfp], by rw [hfp], by simp [hfp]⟩
    · -- hole pointer
      cases hctx : ctx with
      | nil => trivial
      | cons f rest2 =>
        have hfi0 : f.i ≠ 0 := by
          rw [hctx] at hc
          exact hc.1.1
        have hpeq : holeParent ctx = f.i := by rw [hctx]; rfl
        have hfp := fp (by rw [hpeq]; exact hfi0)
        rw [hpeq] at hfp
        have hside2 : ctxSide ctx = f.onLeft := by rw [hctx]; rfl
        show (if f.onLeft then (s'.nget f.i).left else (s'.nget f.i).right) =
          (STree.node y ky uy (STree.node x kx ux A B) C).rootIdx
        simp only [STree.rootIdx]
        cases ho : f.onLeft
        · rw [hside2, if_neg (by simp [ho])] at hfp
          rw [if_neg (by simp), hfp]
        · rw [hside2, if_pos ho] at hfp
          rw [if_pos rfl, hfp]
    · -- the rotated subtree
      show OSTree.ReprB s' (holeParent ctx)
        (STree.node y ky uy (STree.node x kx ux A B) C)
      refine ⟨hy0, by rw [flen]; exact hylen, ?_, ?_, ?_, ?_, ?_, ?_, ?_⟩
      · rw [fy]; exact hky
      · rw [fy]; exact huy'
      · rw [fy]
      · rw [fy]
        rfl
      · rw [fy]; exact hry
      · -- inner node x with children A, B
        refine ⟨hx0, by rw [flen]; exact hxlen, ?_, ?_, ?_, ?_, ?_, ?_, ?_⟩
        · rw [fx]; exact hkx
        · rw [fx]; exact hux'
        · rw [fx]
        · rw [fx]; exact hlx
        · rw [fx]
        · exact OSTree.ReprB_mono_of_agree (le_of_eq flen.symm) hagA hA
        · -- subtree B, reparented at its root
          cases hBt : B with
          | leaf => trivial
          | node bb kb ubb Bl Br =>
            rw [hBt] at hB hndB
            obtain ⟨hb0', hblen', hkb, hub, _, hlb, hrb, hBl, hBr⟩ := hB
            have hnb : (bb ∉ Bl.idxList ∧ bb ∉ Br.idxList) ∧
                (Bl.idxList ++ Br.idxList).Nodup := by
              simpa [STree.idxList] using hndB
            have hbroot : B.rootIdx = bb := by rw [hBt]; rfl
            have hfb := fb (by rw [hbroot]; exact hb0')
            rw [hbroot] at hfb
            refine ⟨hb0', by rw [flen]; exact hblen', ?_, ?_, ?_, ?_, ?_,
              ?_, ?_⟩
            · rw [hfb]; exact hkb
            · rw [hfb]; exact hub
            · rw [hfb]
            · rw [hfb]; exact hlb
            · rw [hfb]; exact hrb
            · refine OSTree.ReprB_mono_of_agree (le_of_eq flen.symm)
                (fun j hj => ?_) hBl
              have hjB : j ∈ B.idxList := by
                rw [hBt]
                simp [STree.idxList, hj]
              refine hagBsub j hjB (fun he => ?_)
              rw [hbroot] at he
              exact hnb.1.1 (he ▸ hj)
            · refine OSTree.ReprB_mono_of_agree (le_of_eq flen.symm)
                (fun j hj => ?_) hBr
              have hjB : j ∈ B.idxList := by
                rw [hBt]
                simp [STree.idxList, hj]
              refine hagBsub j hjB (fun he => ?_)
              rw [hbroot] at he
              exact hnb.1.2 (he ▸ hj)
      · exact OSTree.ReprB_mono_of_agree (le_of_eq flen.symm) hagC hC
  -- root pointer
  · cases hctx : ctx with
    | nil =>
      subst hctx
      have hp0 : holeParent ([] : Ctx K) = 0 := rfl
      rw [frt, if_pos hp0]
      simp [plug, STree.rootIdx]
    | cons f rest2 =>
      have hfi0 : f.i ≠ 0 := by
        rw [hctx] at hc
        exact hc.1.1
      rw [frt, if_neg (by rw [hctx]; exact hfi0), hroot, hctx]
      exact rootIdx_plug_congr (Or.inr (by simp))
  -- nodup of the new shape
  · have hpermU : (STree.node y ky uy (STree.node x kx ux A B) C).idxList.Perm
        (STree.node x kx ux A (STree.node y ky uy B C)).idxList := by
      refine List.perm_iff_count.mpr fun a => ?_
      simp [STree.idxList, List.count_append, List.count_cons]
      omega
    have h1 := idxList_plug_perm
      (STree.node y ky uy (STree.node x kx ux A B) C) ctx
    have h2 := idxList_plug_perm
      (STree.node x kx ux A (STree.node y ky uy B C)) ctx
    exact ((h1.trans ((hpermU.append_right _))).trans h2.symm).symm.nodup hnd
  -- sentinel
  · exact ⟨by rw [f0]; exact hnil0, by rw [f0]; exact hnilsz,
      by rw [f0]; exact hnilc, by rw [f0]; exact hnill,
      by rw [f0]; exact hnilr⟩

set_option maxHeartbeats 4000000 in
/-- Zipper-level specification of `_rotate_right` at `y` (left child
`x`) inside an arbitrary context; mirror image of `rotateLeft_zip`. -/
theorem rotateRight_zip {s : OSTree K} {ctx : Ctx K} {x y : Nat} {kx ky : K}
    {ux uy : Int} {A B C : STree K}
    (hR : OSTree.ReprB s 0 (plug (.node y ky uy (.node x kx ux A B) C) ctx))
    (hroot : s.root = (plug (.node y ky uy (.node x kx ux A B) C) ctx).rootIdx)
    (hnd : (plug (.node y ky uy (.node x kx ux A B) C) ctx).idxList.Nodup)
    (hnil : OSTree.NilOk s) :
    OSTree.ReprB (OSTree.rotateRight s y) 0
      (plug (.node x kx ux A (.node y ky uy B C)) ctx) ∧
    (OSTree.rotateRight s y).root =
      (plug (.node x kx ux A (.node y ky uy B C)) ctx).rootIdx ∧
    (plug (.node x kx ux A (.node y ky uy B C)) ctx).idxList.Nodup ∧
    OSTree.NilOk (OSTree.rotateRight s y) ∧
    (OSTree.rotateRight s y).nodes.length = s.nodes.length ∧
    (OSTree.rotateRight s y).size = s.size ∧
    (OSTree.rotateRight s y).nextUid = s.nextUid ∧
    (∀ j, ((OSTree.rotateRight s y).nget j).color = (s.nget j).color) ∧
    (∀ j, ((OSTree.rotateRight s y).nget j).key = (s.nget j).key) ∧
    (∀ j, ((OSTree.rotateRight s y).nget j).uid = (s.nget j).uid) ∧
    ((OSTree.rotateRight s y).nget y).size =
      (s.nget B.rootIdx).size + (s.nget C.rootIdx).size + 1 ∧
    ((OSTree.rotateRight s y).nget x).size =
      (s.nget A.rootIdx).size +
        ((s.nget B.rootIdx).size + (s.nget C.rootIdx).size + 1) + 1 ∧
    (∀ j, j ≠ x → j ≠ y → ((OSTree.rotateRight s y).nget j).size =
      (s.nget j).size) := by
  have hRint := hR
  rw [ReprB_plug_iff] at hRint
  obtain ⟨hc, hh, hu⟩ := hRint
  obtain ⟨hy0, hylen, hky, huy', hpary, hly, hry, hX, hC⟩ := hu
  obtain ⟨hx0, hxlen, hkx, hux', hparx, hlx, hrx, hA, hB⟩ := hX
  simp only [STree.rootIdx] at hh hly
  -- nodup decomposition
  have hperm := idxList_plug_perm
    (STree.node y ky uy (STree.node x kx ux A B) C) ctx
  have hnd2 := hperm.nodup hnd
  simp only [STree.idxList] at hnd2
  rcases List.nodup_cons.mp (List.nodup_append.mp hnd2).1 with ⟨hymem, hnd3⟩
  have hndCtx := (List.nodup_append.mp hnd2).2.1
  have hdisj := (List.nodup_append.mp hnd2).2.2
  rcases List.nodup_append.mp hnd3 with ⟨hndXAB, hndC2, hdisjXC⟩
  rcases List.nodup_cons.mp hndXAB with ⟨hxmem, hnd5⟩
  rcases List.nodup_append.mp hnd5 with ⟨hndA, hndB, hdisjAB⟩
  simp only [List.mem_cons, List.mem_append, not_or] at hymem hxmem
  have hyx : y ≠ x := by tauto
  have hxy : x ≠ y := Ne.symm hyx
  have hyA : y ∉ A.idxList := by tauto
  have hyB : y ∉ B.idxList := by tauto
  have hyC : y ∉ C.idxList := by tauto
  have hxA : x ∉ A.idxList := by tauto
  have hxB : x ∉ B.idxList := by tauto
  have hxC : x ∉ C.idxList := fun h => hdisjXC (by simp) h
  have hyctx : y ∉ ctxIdx ctx := fun h => hdisj (by simp) h
  have hxctx : x ∉ ctxIdx ctx := fun h => hdisj (by simp) h
  have hActx : ∀ j ∈ A.idxList, j ∉ ctxIdx ctx := fun j hj h =>
    hdisj (by simp [hj]) h
  have hBctx : ∀ j ∈ B.idxList, j ∉ ctxIdx ctx := fun j hj h =>
    hdisj (by simp [hj]) h
  have hCctx : ∀ j ∈ C.idxList, j ∉ ctxIdx ctx := fun j hj h =>
    hdisj (by simp [hj]) h
  have hAidx := ReprB_idx_facts hA
  have hBidx := ReprB_idx_facts hB
  have hCidx := ReprB_idx_facts hC
  have hbcases := rootIdx_eq_zero_or_mem B
  have hacases := rootIdx_eq_zero_or_mem A
  have hccases := rootIdx_eq_zero_or_mem C
  have hbx : B.rootIdx ≠ x := by
    rcases hbcases with h | h
    · rw [h]; exact Ne.symm hx0
    · exact fun he => hxB (he ▸ h)
  have hby : B.rootIdx ≠ y := by
    rcases hbcases with h | h
    · rw [h]; exact Ne.symm hy0
    · exact fun he => hyB (he ▸ h)
  have hax : A.rootIdx ≠ x := by
    rcases hacases with h | h
    · rw [h]; exact Ne.symm hx0
    · exact fun he => hxA (he ▸ h)
  have hay : A.rootIdx ≠ y := by
    rcases hacases with h | h
    · rw [h]; exact Ne.symm hy0
    · exact fun he => hyA (he ▸ h)
  have hcx : C.rootIdx ≠ x := by
    rcases hccases with h | h
    · rw [h]; exact Ne.symm hx0
    · exact fun he => hxC (he ▸ h)
  have hcy : C.rootIdx ≠ y := by
    rcases hccases with h | h
    · rw [h]; exact Ne.symm hy0
    · exact fun he => hyC (he ▸ h)
  have hab : A.rootIdx ≠ B.rootIdx ∨ A.rootIdx = 0 := by
    rcases hacases with h | h
    · exact Or.inr h
    · refine Or.inl ?_
      rcases hbcases with h2 | h2
      · rw [h2]; exact (hAidx _ h).1
      · exact fun he => hdisjAB h (he ▸ h2)
  have hcb : C.rootIdx ≠ B.rootIdx ∨ C.rootIdx = 0 := by
    rcases hccases with h | h
    · exact Or.inr h
    · refine Or.inl ?_
      rcases hbcases with h2 | h2
      · rw [h2]; exact (hCidx _ h).1
      · exact fun he => hdisjXC (by simp [h2] : B.rootIdx ∈ _) (he ▸ h)
  have hblen : B.rootIdx ≠ 0 → B.rootIdx < s.nodes.length := by
    intro hb0
    rcases hbcases with h | h
    · exact absurd h hb0
    · exact (hBidx _ h).2
  have hpm := holeParent_facts hc
  have hpx : holeParent ctx ≠ x := by
    rcases hpm with h | ⟨hm, _, _⟩
    · rw [h]; exact Ne.symm hx0
    · exact fun he => hxctx (he ▸ hm)
  have hpy : holeParent ctx ≠ y := by
    rcases hpm with h | ⟨hm, _, _⟩
    · rw [h]; exact Ne.symm hy0
    · exact fun he => hyctx (he ▸ hm)
  have hpb : holeParent ctx ≠ B.rootIdx ∨ holeParent ctx = 0 := by
    rcases hpm with h | ⟨hm, hp0, _⟩
    · exact Or.inr h
    · refine Or.inl ?_
      rcases hbcases with h2 | h2
      · rw [h2]; exact hp0
      · exact fun he => hBctx _ h2 (he ▸ hm)
  have hap : A.rootIdx ≠ holeParent ctx ∨ A.rootIdx = 0 := by
    rcases hacases with h | h
    · exact Or.inr h
    · refine Or.inl ?_
      rcases hpm with h2 | ⟨hm, _, _⟩
      · rw [h2]; exact (hAidx _ h).1
      · exact fun he => hActx _ h (he ▸ hm)
  have hcp : C.rootIdx ≠ holeParent ctx ∨ C.rootIdx = 0 := by
    rcases hccases with h | h
    · exact Or.inr h
    · refine Or.inl ?_
      rcases hpm with h2 | ⟨hm, _, _⟩
      · rw [h2]; exact (hCidx _ h).1
      · exact fun he => hCctx _ h (he ▸ hm)
  have hplen : holeParent ctx ≠ 0 → holeParent ctx < s.nodes.length := by
    intro hp0
    rcases hpm with h | ⟨_, _, hlt⟩
    · exact absurd h hp0
    · exact hlt
  have hside : holeParent ctx ≠ 0 →
      ((y = (s.nget (holeParent ctx)).right) ↔ (!ctxSide ctx) = true) := by
    intro hp0
    cases hctx : ctx with
    | nil => exact absurd (hctx ▸ rfl) hp0
    | cons f rest =>
      subst hctx
      obtain ⟨⟨_, _, _, _, _, hsibp⟩, hsibR, _, _⟩ := hc
      have hhf := hh
      show y = (s.nget f.i).right ↔ (!f.onLeft) = true
      cases hf : f.onLeft
      · have hhf2 : (s.nget f.i).right = y := by
          have h2 : (if f.onLeft = true then (s.nget f.i).left
              else (s.nget f.i).right) = y := hhf
          rwa [hf, if_neg (by simp)] at h2
        simp [hhf2, hf]
      · have hsibp2 : (s.nget f.i).right = f.sib.rootIdx := by
          have h2 := hsibp
          rwa [hf, if_pos rfl] at h2
        constructor
        · intro hyl
          exfalso
          rw [hsibp2] at hyl
          rcases rootIdx_eq_zero_or_mem f.sib with h | h
          · exact hy0 (hyl.trans h)
          · exact hyctx (hyl ▸ mem_ctxIdx_cons_of_sib rest h)
        · intro h
          simp [hf] at h
  obtain ⟨frt, flen, fsz, fnu, fy, fx, fb, fp, f0, ffr⟩ :=
    OSTree.rotateRight_eq s y x B.rootIdx (holeParent ctx) C.rootIdx A.rootIdx
      (!ctxSide ctx) hly hrx hpary hry hlx hy0 hx0 hyx hby hbx hpy hpx hpb
      hcy hcx hcb hcp hay hax hab hap hylen hxlen hblen hplen hside
  set s' := OSTree.rotateRight s y with hs'
  obtain ⟨hnil0, hnilsz, hnilc, hnill, hnilr⟩ := hnil
  have h0x : (0 : Nat) ≠ x := Ne.symm hx0
  have h0y : (0 : Nat) ≠ y := Ne.symm hy0
  -- index-level frame: untouched nodes keep their values
  have hkeep : ∀ j, j ≠ x → j ≠ y → j ∉ B.idxList →
      j ∉ ctxIdx ctx → s'.nget j = s.nget j := by
    intro j hjx hjy hjB hjctx
    by_cases hj0 : j = 0
    · rw [hj0]; exact f0
    refine ffr j hjy hjx (fun he => ?_) (fun he => ?_)
    · rcases hbcases with h | h
      · exact hj0 (he.trans h)
      · exact hjB (he ▸ h)
    · rcases hpm with h | ⟨hm, _, _⟩
      · exact hj0 (he.trans h)
      · exact hjctx (he ▸ hm)
  have hagA : ∀ j ∈ A.idxList, s'.nget j = s.nget j := by
    intro j hj
    exact hkeep j (fun h => hxA (h ▸ hj)) (fun h => hyA (h ▸ hj))
      (fun h => hdisjAB hj h) (hActx j hj)
  have hagC : ∀ j ∈ C.idxList, s'.nget j = s.nget j := by
    intro j hj
    exact hkeep j (fun h => hxC (h ▸ hj)) (fun h => hyC (h ▸ hj))
      (fun h => hdisjXC (by simp [h] : j ∈ _) hj) (hCctx j hj)
  have hagBsub : ∀ j ∈ B.idxList, j ≠ B.rootIdx → s'.nget j = s.nget j := by
    intro j hj hjb
    refine ffr j (fun h => hyB (h ▸ hj)) (fun h => hxB (h ▸ hj)) hjb
      (fun he => ?_)
    rcases hpm with h | ⟨hm, _, _⟩
    · exact (hBidx j hj).1 (he.trans h)
    · exact hBctx j hj (he ▸ hm)
  have htriple : ∀ j, ((s'.nget j).color = (s.nget j).color ∧
      (s'.nget j).key = (s.nget j).key ∧ (s'.nget j).uid = (s.nget j).uid) ∧
      (j ≠ x → j ≠ y → (s'.nget j).size = (s.nget j).size) := by
    intro j
    by_cases hjy : j = y
    · subst hjy
      rw [fy]
      exact ⟨⟨rfl, rfl, rfl⟩, fun _ h => absurd rfl h⟩
    by_cases hjx : j = x
    · subst hjx
      rw [fx]
      exact ⟨⟨rfl, rfl, rfl⟩, fun h _ => absurd rfl h⟩
    by_cases hjb : j = B.rootIdx
    · subst hjb
      by_cases hb0 : B.rootIdx = 0
      · rw [hb0, f0]
        exact ⟨⟨rfl, rfl, rfl⟩, fun _ _ => rfl⟩
      · rw [fb hb0]
        exact ⟨⟨rfl, rfl, rfl⟩, fun _ _ => rfl⟩
    by_cases hjp : j = holeParent ctx
    · subst hjp
      by_cases hp0 : holeParent ctx = 0
      · rw [hp0, f0]
        exact ⟨⟨rfl, rfl, rfl⟩, fun _ _ => rfl⟩
      · rw [fp hp0]
        cases hcs : ctxSide ctx
        · rw [if_pos (by simp)]
          exact ⟨⟨rfl, rfl, rfl⟩, fun _ _ => rfl⟩
        · rw [if_neg (by simp)]
          exact ⟨⟨rfl, rfl, rfl⟩, fun _ _ => rfl⟩
    · rw [ffr j hjy hjx hjb hjp]
      exact ⟨⟨rfl, rfl, rfl⟩, fun _ _ => rfl⟩
  refine ⟨?_, ?_, ?_, ?_, flen, fsz, fnu,
    fun j => ((htriple j).1).1, fun j => ((htriple j).1).2.1,
    fun j => ((htriple j).1).2.2, by rw [fy], by rw [fx],
    fun j hjx hjy => (htriple j).2 hjx hjy⟩
  -- representation
  · rw [ReprB_plug_iff]
    refine ⟨?_, ?_, ?_⟩
    · refine ReprC_update_hole (le_of_eq flen.symm) hndCtx hc
        (fun j hj hjp => ?_) (fun f hf => ?_)
      · have hj0 : j ≠ 0 := (ReprC_idx_facts hc j hj).1
        refine ffr j (fun h => hyctx (h ▸ hj)) (fun h => hxctx (h ▸ hj))
          (fun he => ?_) hjp
        rcases hbcases with h | h
        · exact hj0 (he.trans h)
        · exact hBctx _ h (he ▸ hj)
      · have hfi0 : f.i ≠ 0 := by
          rw [hf] at hc
          exact hc.1.1
        have hpeq : holeParent ctx = f.i := by rw [hf]; rfl
        have hfp := fp (by rw [hpeq]; exact hfi0)
        rw [hpeq] at hfp
        have hside2 : ctxSide ctx = f.onLeft := by rw [hf]; rfl
        cases ho : f.onLeft
        · rw [hside2, ho, if_pos (by simp)] at hfp
          exact ⟨by rw [hfp], by rw [hfp], by rw [hfp], by simp [hfp]⟩
        · rw [hside2, ho, if_neg (by simp)] at hfp
          exact ⟨by rw [hfp], by rw [hfp], by rw [hfp], by simp [hfp]⟩
    · cases hctx : ctx with
      | nil => trivial
      | cons f rest2 =>
        have hfi0 : f.i ≠ 0 := by
          rw [hctx] at hc
          exact hc.1.1
        have hpeq : holeParent ctx = f.i := by rw [hctx]; rfl
        have hfp := fp (by rw [hpeq]; exact hfi0)
        rw [hpeq] at hfp
        have hside2 : ctxSide ctx = f.onLeft := by rw [hctx]; rfl
        show (if f.onLeft then (s'.nget f.i).left else (s'.nget f.i).right) =
          (STree.node x kx ux A (STree.node y ky uy B C)).rootIdx
        simp only [STree.rootIdx]
        cases ho : f.onLeft
        · rw [hside2, ho, if_pos (by simp)] at hfp
          rw [if_neg (by simp), hfp]
        · rw [hside2, ho, if_neg (by simp)] at hfp
          rw [if_pos rfl, hfp]
    · show OSTree.ReprB s' (holeParent ctx)
        (STree.node x kx ux A (STree.node y ky uy B C))
      refine ⟨hx0, by rw [flen]; exact hxlen, ?_, ?_, ?_, ?_, ?_, ?_, ?_⟩
      · rw [fx]; exact hkx
      · rw [fx]; exact hux'
      · rw [fx]
      · rw [fx]; exact hlx
      · rw [fx]
        rfl
      · exact OSTree.ReprB_mono_of_agree (le_of_eq flen.symm) hagA hA
      · refine ⟨hy0, by rw [flen]; exact hylen, ?_, ?_, ?_, ?_, ?_, ?_, ?_⟩
        · rw [fy]; exact hky
        · rw [fy]; exact huy'
        · rw [fy]
        · rw [fy]
        · rw [fy]; exact hry
        · cases hBt : B with
          | leaf => trivial
          | node bb kb ubb Bl Br =>
            rw [hBt] at hB hndB
            obtain ⟨hb0', hblen', hkb, hub, _, hlb, hrb, hBl, hBr⟩ := hB
            have hnb : (bb ∉ Bl.idxList ∧ bb ∉ Br.idxList) ∧
                (Bl.idxList ++ Br.idxList).Nodup := by
              simpa [STree.idxList] using hndB
            have hbroot : B.rootIdx = bb := by rw [hBt]; rfl
            have hfb := fb (by rw [hbroot]; exact hb0')
            rw [hbroot] at hfb
            refine ⟨hb0', by rw [flen]; exact hblen', ?_, ?_, ?_, ?_, ?_,
              ?_, ?_⟩
            · rw [hfb]; exact hkb
            · rw [hfb]; exact hub
            · rw [hfb]
            · rw [hfb]; exact hlb
            · rw [hfb]; exact hrb
            · refine OSTree.ReprB_mono_of_agree (le_of_eq flen.symm)
                (fun j hj => ?_) hBl
              have hjB : j ∈ B.idxList := by
                rw [hBt]
                simp [STree.idxList, hj]
              refine hagBsub j hjB (fun he => ?_)
              rw [hbroot] at he
              exact hnb.1.1 (he ▸ hj)
            · refine OSTree.ReprB_mono_of_agree (le_of_eq flen.symm)
                (fun j hj => ?_) hBr
              have hjB : j ∈ B.idxList := by
                rw [hBt]
                simp [STree.idxList, hj]
              refine hagBsub j hjB (fun he => ?_)
              rw [hbroot] at he
              exact hnb.1.2 (he ▸ hj)
        · exact OSTree.ReprB_mono_of_agree (le_of_eq flen.symm) hagC hC
  · cases hctx : ctx with
    | nil =>
      subst hctx
      have hp0 : holeParent ([] : Ctx K) = 0 := rfl
      rw [frt, if_pos hp0]
      simp [plug, STree.rootIdx]
    | cons f rest2 =>
      have hfi0 : f.i ≠ 0 := by
        rw [hctx] at hc
        exact hc.1.1
      rw [frt, if_neg (by rw [hctx]; exact hfi0), hroot, hctx]
      exact rootIdx_plug_congr (Or.inr (by simp))
  · have hpermU : (STree.node x kx ux A (STree.node y ky uy B C)).idxList.Perm
        (STree.node y ky uy (STree.node x kx ux A B) C).idxList := by
      refine List.perm_iff_count.mpr fun a => ?_
      simp [STree.idxList, List.count_append, List.count_cons]
      omega
    have h1 := idxList_plug_perm
      (STree.node x kx ux A (STree.node y ky uy B C)) ctx
    have h2 := idxList_plug_perm
      (STree.node y ky uy (STree.node x kx ux A B) C) ctx
    exact ((h1.trans ((hpermU.append_right _))).trans h2.symm).symm.nodup hnd
  · exact ⟨by rw [f0]; exact hnil0, by rw [f0]; exact hnilsz,
      by rw [f0]; exact hnilc, by rw [f0]; exact hnill,
      by rw [f0]; exact hnilr⟩

/-! ### Logical insertion: descent, shape, entries -/

/-- Node agreement on all fields except `size` and `color`. -/
def eqFields (n m : RBNode K) : Prop :=
  n.key = m.key ∧ n.uid = m.uid ∧ n.parent = m.parent ∧
    n.left = m.left ∧ n.right = m.right

theorem ReprB_mono_of_fields {s s' : OSTree K} {p : Nat} {t : STree K}
    (hlen : s.nodes.length ≤ s'.nodes.length)
    (hag : ∀ i ∈ t.idxList, eqFields (s'.nget i) (s.nget i)) :
    OSTree.ReprB s p t → OSTree.ReprB s' p t := by
  induction t generalizing p with
  | leaf => intro h; trivial
  | node i k uid l r ihl ihr =>
    intro h
    obtain ⟨h0, hlt, hk, hu, hp, hl, hr, hL, hR⟩ := h
    obtain ⟨ek, eu, ep, el, er⟩ := hag i (by simp [STree.idxList])
    refine ⟨h0, lt_of_lt_of_le hlt hlen, ?_, ?_, ?_, ?_, ?_, ?_, ?_⟩
    · rw [ek]; exact hk
    · rw [eu]; exact hu
    · rw [ep]; exact hp
    · rw [el]; exact hl
    · rw [er]; exact hr
    · exact ihl (fun j hj => hag j (by simp [STree.idxList, hj])) hL
    · exact ihr (fun j hj => hag j (by simp [STree.idxList, hj])) hR

theorem ReprC_mono_of_fields {s s' : OSTree K} {ctx : Ctx K}
    (hlen : s.nodes.length ≤ s'.nodes.length)
    (hag : ∀ j ∈ ctxIdx ctx, eqFields (s'.nget j) (s.nget j)) :
    ReprC s ctx → ReprC s' ctx := by
  induction ctx with
  | nil => intro h; trivial
  | cons f rest ih =>
    rintro ⟨⟨h0, hlt, hk, hu, hp, hs⟩, hsibR, hh, hc⟩
    obtain ⟨ek, eu, ep, el, er⟩ := hag f.i (by simp [ctxIdx])
    refine ⟨⟨h0, lt_of_lt_of_le hlt hlen, ?_, ?_, ?_, ?_⟩, ?_, ?_, ?_⟩
    · rw [ek]; exact hk
    · rw [eu]; exact hu
    · rw [ep]; exact hp
    · cases hf : f.onLeft
      · rw [hf] at hs
        rw [if_neg (by simp)] at hs ⊢
        rw [el]
        exact hs
      · rw [hf] at hs
        rw [if_pos rfl] at hs ⊢
        rw [er]
        exact hs
    · exact ReprB_mono_of_fields hlen
        (fun j hj => hag j (mem_ctxIdx_cons_of_sib rest hj)) hsibR
    · cases hr : rest with
      | nil => trivial
      | cons g rest' =>
        obtain ⟨egk, egu, egp, egl, egr⟩ := hag g.i (by
          refine mem_ctxIdx_cons_of_mem f ?_
          rw [hr, ctxIdx_cons]
          simp)
        rw [hr] at hh
        have hh2 : (if g.onLeft then (s.nget g.i).left
            else (s.nget g.i).right) = f.i := hh
        show (if g.onLeft then (s'.nget g.i).left else (s'.nget g.i).right) =
          f.i
        cases hg : g.onLeft
        · rw [hg] at hh2
          rw [if_neg (by simp)] at hh2 ⊢
          rw [egr]
          exact hh2
        · rw [hg] at hh2
          rw [if_pos rfl] at hh2 ⊢
          rw [egl]
          exact hh2
    · exact ih (fun j hj => hag j (mem_ctxIdx_cons_of_mem f hj)) hc

theorem root_size_eq {s : OSTree K} {T : STree K} (hS : OSTree.SizeOk s T)
    (hnil : OSTree.NilOk s) : (s.nget T.rootIdx).size = T.count := by
  cases T with
  | leaf => exact hnil.2.1
  | node i k uid l r => exact hS.1

theorem nget_append_lt {s : OSTree K} {nn : RBNode K} {j : Nat}
    (h : j < s.nodes.length) :
    ({ s with nodes := s.nodes ++ [nn] } : OSTree K).nget j = s.nget j := by
  simp only [OSTree.nget, List.getD_eq_getElem?_getD]
  rw [List.getElem?_append_left h]

theorem nget_append_self {s : OSTree K} {nn : RBNode K} :
    ({ s with nodes := s.nodes ++ [nn] } : OSTree K).nget s.nodes.length =
      nn := by
  simp [OSTree.nget, List.getD_eq_getElem?_getD, List.getElem?_concat_length]

/-- The logical insertion of `(k, uid)` at fresh arena index `z`,
mirroring the descent of `insert`. -/
def insTree (k : K) (uid : Int) (z : Nat) : STree K → STree K
  | .leaf => .node z k uid .leaf .leaf
  | .node i k2 u2 l r =>
    if toLex (k, uid) < toLex (k2, u2) then
      .node i k2 u2 (insTree k uid z l) r
    else
      .node i k2 u2 l (insTree k uid z r)

/-- The arena index at which the descent of `insert` attaches the new
node (`p` at an empty subtree whose parent is `p`). -/
def insParent (k : K) (uid : Int) (p : Nat) : STree K → Nat
  | .leaf => p
  | .node i k2 u2 l r =>
    if toLex (k, uid) < toLex (k2, u2) then insParent k uid i l
    else insParent k uid i r

/-- The zipper context of the insertion hole. -/
def insCtx (k : K) (uid : Int) : STree K → Ctx K
  | .leaf => []
  | .node i k2 u2 l r =>
    if toLex (k, uid) < toLex (k2, u2) then
      insCtx k uid l ++ [⟨true, i, k2, u2, r⟩]
    else
      insCtx k uid r ++ [⟨false, i, k2, u2, l⟩]

theorem plug_append (u : STree K) (c1 c2 : Ctx K) :
    plug u (c1 ++ c2) = plug (plug u c1) c2 := by
  induction c1 generalizing u with
  | nil => rfl
  | cons f rest ih =>
    simp only [List.cons_append, plug]
    exact ih _

theorem insTree_eq_plug (k : K) (uid : Int) (z : Nat) (T : STree K) :
    insTree k uid z T = plug (.node z k uid .leaf .leaf) (insCtx k uid T) := by
  induction T with
  | leaf => rfl
  | node i k2 u2 l r ihl ihr =>
    by_cases hlt : toLex (k, uid) < toLex (k2, u2)
    · rw [insTree, if_pos hlt, insCtx, if_pos hlt, plug_append, ← ihl]
      simp [plug]
    · rw [insTree, if_neg hlt, insCtx, if_neg hlt, plug_append, ← ihr]
      simp [plug]

theorem holeParent_insCtx (k : K) (uid : Int) (T : STree K) (rest : Ctx K) :
    holeParent (insCtx k uid T ++ rest) =
      insParent k uid (holeParent rest) T := by
  induction T generalizing rest with
  | leaf => rfl
  | node i k2 u2 l r ihl ihr =>
    by_cases hlt : toLex (k, uid) < toLex (k2, u2)
    · rw [insCtx, if_pos hlt, insParent, if_pos hlt, List.append_assoc]
      exact ihl _
    · rw [insCtx, if_neg hlt, insParent, if_neg hlt, List.append_assoc]
      exact ihr _

theorem ltNode_eq (k : K) (uid : Int) {s : OSTree K} {i : Nat} {k2 : K}
    {u2 : Int} (hk : (s.nget i).key = some k2) (hu : (s.nget i).uid = u2) :
    OSTree.ltNode k uid (s.nget i) =
      decide (toLex (k, uid) < toLex (k2, u2)) := by
  unfold OSTree.ltNode
  rw [hk, hu]
  simp [Prod.Lex.lt_iff]

theorem insertDescend_spec {s : OSTree K} (k : K) (uid : Int) {T : STree K}
    {p : Nat} (hR : OSTree.ReprB s p T) :
    ∀ fuel, T.count < fuel →
      OSTree.insertDescend s k uid fuel p T.rootIdx = insParent k uid p T := by
  induction T generalizing p with
  | leaf =>
    intro fuel hf
    match fuel, hf with
    | n + 1, _ => rfl
  | node i k2 u2 l r ihl ihr =>
    intro fuel hf
    obtain ⟨h0, hlt, hk, hu, hp, hl, hr, hL, hR⟩ := hR
    match fuel, hf with
    | n + 1, hf =>
      have hroot : (STree.node i k2 u2 l r).rootIdx = i := rfl
      rw [hroot]
      have hstep : OSTree.insertDescend s k uid (n + 1) p i =
          if OSTree.ltNode k uid (s.nget i) then
            OSTree.insertDescend s k uid n i (s.nget i).left
          else
            OSTree.insertDescend s k uid n i (s.nget i).right := by
        simp only [OSTree.insertDescend]
        rw [if_neg h0]
      rw [hstep, ltNode_eq k uid hk hu]
      by_cases hcmp : toLex (k, uid) < toLex (k2, u2)
      · rw [if_pos (by simp [hcmp]), hl, insParent, if_pos hcmp]
        exact ihl hL n (by simp only [STree.count] at hf; omega)
      · rw [if_neg (by simp [hcmp]), hr, insParent, if_neg hcmp]
        exact ihr hR n (by simp only [STree.count] at hf; omega)

theorem entries_insTree_perm (k : K) (uid : Int) (z : Nat) (T : STree K) :
    (insTree k uid z T).entries.Perm (toLex (k, uid) :: T.entries) := by
  induction T with
  | leaf => simp [insTree, STree.entries]
  | node i k2 u2 l r ihl ihr =>
    refine List.perm_iff_count.mpr fun a => ?_
    by_cases hlt : toLex (k, uid) < toLex (k2, u2)
    · rw [insTree, if_pos hlt]
      have hcl := List.perm_iff_count.mp ihl a
      simp only [STree.entries, List.count_append, List.count_cons] at hcl ⊢
      omega
    · rw [insTree, if_neg hlt]
      have hcr := List.perm_iff_count.mp ihr a
      simp only [STree.entries, List.count_append, List.count_cons] at hcr ⊢
      omega

theorem idxList_insTree_perm (k : K) (uid : Int) (z : Nat) (T : STree K) :
    (insTree k uid z T).idxList.Perm (z :: T.idxList) := by
  induction T with
  | leaf => simp [insTree, STree.idxList]
  | node i k2 u2 l r ihl ihr =>
    refine List.perm_iff_count.mpr fun a => ?_
    by_cases hlt : toLex (k, uid) < toLex (k2, u2)
    · rw [insTree, if_pos hlt]
      have := List.perm_iff_count.mp ihl a
      simp only [STree.idxList, List.count_append, List.count_cons] at this ⊢
      omega
    · rw [insTree, if_neg hlt]
      have := List.perm_iff_count.mp ihr a
      simp only [STree.idxList, List.count_append, List.count_cons] at this ⊢
      omega

theorem entries_insTree_sorted (k : K) (uid : Int) (z : Nat) {T : STree K}
    (hs : T.entries.Pairwise (· ≤ ·)) :
    (insTree k uid z T).entries.Pairwise (· ≤ ·) := by
  have hmemle : ∀ (T : STree K), T.entries.Pairwise (· ≤ ·) →
      ∀ e ∈ (insTree k uid z T).entries,
        e = toLex (k, uid) ∨ e ∈ T.entries := by
    intro T _ e he
    have := (entries_insTree_perm k uid z T).mem_iff.mp he
    simpa using this
  induction T with
  | leaf => simp [insTree, STree.entries]
  | node i k2 u2 l r ihl ihr =>
    rw [STree.entries, List.append_assoc] at hs
    rw [List.pairwise_append] at hs
    obtain ⟨hsl, hsmr, hcross⟩ := hs
    rw [List.singleton_append] at hsmr hcross
    rw [List.pairwise_cons] at hsmr
    obtain ⟨hmid, hsr⟩ := hsmr
    by_cases hlt : toLex (k, uid) < toLex (k2, u2)
    · rw [insTree, if_pos hlt]
      show List.Pairwise _ (_ ++ [_] ++ _)
      rw [List.append_assoc, List.pairwise_append]
      refine ⟨ihl hsl, List.pairwise_cons.mpr ⟨hmid, hsr⟩, ?_⟩
      intro a ha b hb
      rcases hmemle l hsl a ha with rfl | ha'
      · rcases List.mem_cons.mp hb with rfl | hb'
        · exact le_of_lt hlt
        · exact le_trans (le_of_lt hlt) (hmid b hb')
      · exact hcross a ha' b hb
    · rw [insTree, if_neg hlt]
      show List.Pairwise _ (_ ++ [_] ++ _)
      rw [List.append_assoc, List.pairwise_append]
      have hge : toLex (k2, u2) ≤ toLex (k, uid) := le_of_not_lt hlt
      refine ⟨hsl, List.pairwise_cons.mpr ⟨?_, ihr hsr⟩, ?_⟩
      · intro b hb
        rcases hmemle r hsr b hb with rfl | hb'
        · exact hge
        · exact hmid b hb'
      · intro a ha b hb
        rcases List.mem_cons.mp hb with rfl | hb'
        · exact hcross a ha _ (by simp)
        rcases hmemle r hsr b hb' with rfl | hb''
        · exact le_trans (hcross a ha _ (by simp)) hge
        · exact hcross a ha b (by simp [hb''])

/-! ### The upward size-repair walk -/

theorem eqFields_refl (n : RBNode K) : eqFields n n :=
  ⟨rfl, rfl, rfl, rfl, rfl⟩

theorem eqFields_trans {a b c : RBNode K} (h1 : eqFields a b)
    (h2 : eqFields b c) : eqFields a c :=
  ⟨h1.1.trans h2.1, h1.2.1.trans h2.2.1, h1.2.2.1.trans h2.2.2.1,
   h1.2.2.2.1.trans h2.2.2.2.1, h1.2.2.2.2.trans h2.2.2.2.2⟩

theorem eqFields_recomputeSize (s : OSTree K) (i j : Nat) :
    eqFields ((OSTree.recomputeSize s i).nget j) (s.nget j) := by
  rw [OSTree.nget_recomputeSize]
  by_cases h : j = i ∧ i < s.nodes.length
  · rw [if_pos h]
    obtain ⟨rfl, _⟩ := h
    exact ⟨rfl, rfl, rfl, rfl, rfl⟩
  · rw [if_neg h]
    exact eqFields_refl _

theorem color_recomputeSize (s : OSTree K) (i j : Nat) :
    ((OSTree.recomputeSize s i).nget j).color = (s.nget j).color := by
  rw [OSTree.nget_recomputeSize]
  by_cases h : j = i ∧ i < s.nodes.length
  · rw [if_pos h]
    obtain ⟨rfl, _⟩ := h
    rfl
  · rw [if_neg h]

theorem HoleOk_congr {s s' : OSTree K} {ctx : Ctx K} {h : Nat}
    (hag : ∀ j, eqFields (s'.nget j) (s.nget j)) :
    HoleOk s ctx h → HoleOk s' ctx h := by
  cases ctx with
  | nil => intro _; trivial
  | cons f rest =>
    intro hh
    have hh2 : (if f.onLeft then (s.nget f.i).left else (s.nget f.i).right)
        = h := hh
    show (if f.onLeft then (s'.nget f.i).left else (s'.nget f.i).right) = h
    obtain ⟨_, _, _, el, er⟩ := hag f.i
    cases hf : f.onLeft
    · rw [hf] at hh2
      rw [if_neg (by simp)] at hh2 ⊢
      rw [er]
      exact hh2
    · rw [hf] at hh2
      rw [if_pos rfl] at hh2 ⊢
      rw [el]
      exact hh2

theorem NilOk_of_agree {s s' : OSTree K}
    (hag : s'.nget 0 = s.nget 0) (h : OSTree.NilOk s) : OSTree.NilOk s' := by
  obtain ⟨h1, h2, h3, h4, h5⟩ := h
  exact ⟨hag ▸ h1, hag ▸ h2, hag ▸ h3, hag ▸ h4, hag ▸ h5⟩

/-- The subtree obtained by refilling a frame's hole with `u`. -/
def refill (f : Frame K) (u : STree K) : STree K :=
  if f.onLeft then .node f.i f.k f.uid u f.sib
  else .node f.i f.k f.uid f.sib u

theorem plug_cons (u : STree K) (f : Frame K) (rest : Ctx K) :
    plug u (f :: rest) = plug (refill f u) rest := by
  simp only [plug, refill]

theorem rootIdx_refill (f : Frame K) (u : STree K) :
    (refill f u).rootIdx = f.i := by
  unfold refill
  cases f.onLeft <;> rfl

theorem count_refill (f : Frame K) (u : STree K) :
    (refill f u).count = u.count + f.sib.count + 1 := by
  unfold refill
  cases f.onLeft <;> simp [STree.count] <;> omega

theorem mem_idxList_refill {j : Nat} (f : Frame K) (u : STree K) :
    j ∈ (refill f u).idxList ↔
      j = f.i ∨ j ∈ u.idxList ∨ j ∈ f.sib.idxList := by
  unfold refill
  cases f.onLeft <;> simp [STree.idxList] <;> tauto

theorem updateSizesUpward_zip {s : OSTree K} {u : STree K} {ctx : Ctx K}
    (hC : ReprC s ctx) (hH : HoleOk s ctx u.rootIdx)
    (hnd : (ctxIdx ctx).Nodup)
    (hdisj : ∀ j ∈ u.idxList, j ∉ ctxIdx ctx)
    (hnil : OSTree.NilOk s)
    (hSu : OSTree.SizeOk s u)
    (hSsib : ∀ f ∈ ctx, OSTree.SizeOk s f.sib) :
    ∀ fuel, ctx.length < fuel →
    (∀ j, eqFields ((OSTree.updateSizesUpward s fuel (holeParent ctx)).nget j)
        (s.nget j)) ∧
    (∀ j, ((OSTree.updateSizesUpward s fuel (holeParent ctx)).nget j).color =
        (s.nget j).color) ∧
    (∀ j, j ∉ ctx.map Frame.i →
        (OSTree.updateSizesUpward s fuel (holeParent ctx)).nget j = s.nget j) ∧
    (OSTree.updateSizesUpward s fuel (holeParent ctx)).root = s.root ∧
    (OSTree.updateSizesUpward s fuel (holeParent ctx)).nodes.length =
      s.nodes.length ∧
    (OSTree.updateSizesUpward s fuel (holeParent ctx)).size = s.size ∧
    (OSTree.updateSizesUpward s fuel (holeParent ctx)).nextUid = s.nextUid ∧
    OSTree.SizeOk (OSTree.updateSizesUpward s fuel (holeParent ctx))
      (plug u ctx) := by
  induction ctx generalizing s u with
  | nil =>
    intro fuel hf
    match fuel, hf with
    | n + 1, _ =>
      have hstep : OSTree.updateSizesUpward s (n + 1)
          (holeParent ([] : Ctx K)) = s := by
        simp [OSTree.updateSizesUpward, holeParent]
      rw [hstep]
      exact ⟨fun j => eqFields_refl _, fun j => rfl, fun j _ => rfl, rfl, rfl,
        rfl, rfl, hSu⟩
  | cons f rest ih =>
    intro fuel hf
    obtain ⟨⟨h0, hlt, hk, hu, hp, hsd⟩, hsibR, hhr, hcrest⟩ := hC
    match fuel, hf with
    | n + 1, hf =>
      have hhole : (if f.onLeft then (s.nget f.i).left else (s.nget f.i).right)
          = u.rootIdx := hH
      set s₁ := OSTree.recomputeSize s f.i with hs₁
      have hlen1 : s₁.nodes.length = s.nodes.length := by
        simp [hs₁]
      -- nodup decomposition of the context indices
      have hnd' := hnd
      rw [ctxIdx_cons] at hnd'
      rcases List.nodup_append.mp hnd' with ⟨hnd1, hnd2, hdisj12⟩
      have hfiNotSib : f.i ∉ f.sib.idxList := (List.nodup_cons.mp hnd1).1
      have hfiNotRest : f.i ∉ ctxIdx rest := hdisj12 (by simp)
      have hfiNotU : f.i ∉ u.idxList := fun hj =>
        hdisj f.i hj (by rw [ctxIdx_cons]; simp)
      -- the recomputed size at the frame node is the refilled count
      have hszf : (s₁.nget f.i).size = u.count + f.sib.count + 1 := by
        rw [hs₁, OSTree.nget_recomputeSize_self hlt]
        show (s.nget (s.nget f.i).left).size +
          (s.nget (s.nget f.i).right).size + 1 = _
        have husz : (s.nget u.rootIdx).size = u.count :=
          root_size_eq hSu hnil
        have hsibsz : (s.nget f.sib.rootIdx).size = f.sib.count :=
          root_size_eq (hSsib f (by simp)) hnil
        cases hfL : f.onLeft
        · rw [hfL] at hhole hsd
          rw [if_neg (by simp)] at hhole
          rw [if_neg (by simp)] at hsd
          rw [hsd, hhole, husz, hsibsz]
          omega
        · rw [hfL] at hhole hsd
          rw [if_pos rfl] at hhole hsd
          rw [hsd, hhole, husz, hsibsz]
      -- step equation of the walk
      have hstep : OSTree.updateSizesUpward s (n + 1)
          (holeParent (f :: rest)) =
          OSTree.updateSizesUpward s₁ n (holeParent rest) := by
        show OSTree.updateSizesUpward s (n + 1) f.i = _
        have hpar : (s₁.nget f.i).parent = holeParent rest := by
          rw [(eqFields_recomputeSize s f.i f.i).2.2.1]
          exact hp
        simp only [OSTree.updateSizesUpward]
        rw [if_neg h0, ← hs₁, hpar]
      -- size correctness of the refilled subtree in the recomputed state
      have hSu' : OSTree.SizeOk s₁ (refill f u) := by
        have hU : OSTree.SizeOk s₁ u := by
          refine OSTree.SizeOk_mono_of_agree (fun j hj => ?_) hSu
          rw [hs₁, OSTree.nget_recomputeSize_ne
            (fun he => hfiNotU (by rw [← he]; exact hj))]
        have hSib : OSTree.SizeOk s₁ f.sib := by
          refine OSTree.SizeOk_mono_of_agree (fun j hj => ?_)
            (hSsib f (by simp))
          rw [hs₁, OSTree.nget_recomputeSize_ne
            (fun he => hfiNotSib (by rw [← he]; exact hj))]
        unfold refill
        cases f.onLeft
        · refine ⟨?_, hSib, hU⟩
          show (s₁.nget f.i).size = f.sib.count + u.count + 1
          rw [hszf]
          omega
        · refine ⟨?_, hU, hSib⟩
          show (s₁.nget f.i).size = u.count + f.sib.count + 1
          exact hszf
      -- the inductive call on the rest of the context
      have hone : ∀ j, eqFields (s₁.nget j) (s.nget j) := fun j => by
        rw [hs₁]; exact eqFields_recomputeSize s f.i j
      have hcall := @ih s₁ (refill f u)
        (ReprC_mono_of_fields (le_of_eq hlen1.symm)
          (fun j _ => hone j) hcrest)
        (by rw [rootIdx_refill]; exact HoleOk_congr hone hhr)
        hnd2
        (fun j hj hjr => by
          rcases (mem_idxList_refill f u).mp hj with rfl | hj | hj
          · exact hfiNotRest hjr
          · exact hdisj j hj (mem_ctxIdx_cons_of_mem f hjr)
          · exact absurd hjr (List.disjoint_left.mp hdisj12 (by simp [hj])))
        (NilOk_of_agree (by
          rw [hs₁, OSTree.nget_recomputeSize_ne (Ne.symm h0)]) hnil)
        hSu'
        (fun g hg => by
          refine OSTree.SizeOk_mono_of_agree (fun j hj => ?_) (hSsib g (by simp [hg]))
          have hjr : j ∈ ctxIdx rest := by
            rw [show ctxIdx rest = rest.flatMap (fun f => f.i :: f.sib.idxList)
              from rfl]
            exact List.mem_flatMap.mpr ⟨g, hg, by simp [hj]⟩
          rw [hs₁, OSTree.nget_recomputeSize_ne
            (fun he => hfiNotRest (by rw [← he]; exact hjr))])
        n (by simpa using hf)
      obtain ⟨c1, c2, c3, c4, c5, c6, c7, c8⟩ := hcall
      rw [hstep]
      refine ⟨fun j => eqFields_trans (c1 j) (hone j),
        fun j => (c2 j).trans (by rw [hs₁]; exact color_recomputeSize s f.i j),
        fun j hj => ?_, c4.trans (by rw [hs₁]; simp), c5.trans hlen1,
        c6.trans (by rw [hs₁]; simp), c7.trans (by rw [hs₁]; simp), ?_⟩
      · simp only [List.map_cons, List.mem_cons] at hj
        push_neg at hj
        rw [c3 j (fun hm => hj.2 hm), hs₁,
          OSTree.nget_recomputeSize_ne hj.1]
      · rw [plug_cons]
        exact c8

/-! ### Red-black color invariants -/

/-- Red nodes have black children (the sentinel is black). -/
def RedOk (s : OSTree K) : STree K → Prop
  | .leaf => True
  | .node i _ _ l r =>
    ((s.nget i).color = RED → (s.nget l.rootIdx).color = BLACK ∧
      (s.nget r.rootIdx).color = BLACK) ∧ RedOk s l ∧ RedOk s r

/-- Uniform black height `n` of a subtree shape. -/
def Bh (s : OSTree K) : STree K → Nat → Prop
  | .leaf, n => n = 0
  | .node i _ _ l r, n =>
    ∃ m, Bh s l m ∧ Bh s r m ∧
      n = m + (if (s.nget i).color = BLACK then 1 else 0)

/-- Red condition along a context whose hole-child arena index is `h`. -/
def RedCtx (s : OSTree K) : Ctx K → Nat → Prop
  | [], _ => True
  | f :: rest, h =>
    RedOk s f.sib ∧
    ((s.nget f.i).color = RED → (s.nget h).color = BLACK ∧
      (s.nget f.sib.rootIdx).color = BLACK) ∧
    RedCtx s rest f.i

/-- Red condition along a context with the innermost hole-child
requirement dropped (the insert fixup's loop invariant). -/
def RedCtxA (s : OSTree K) : Ctx K → Prop
  | [] => True
  | f :: rest =>
    RedOk s f.sib ∧
    ((s.nget f.i).color = RED → (s.nget f.sib.rootIdx).color = BLACK) ∧
    RedCtx s rest f.i

/-- Black-height transformation of a context: hole filled at height `m`
gives total height `n`. -/
def BhCtx (s : OSTree K) : Ctx K → Nat → Nat → Prop
  | [], m, n => m = n
  | f :: rest, m, n =>
    Bh s f.sib m ∧
    BhCtx s rest (m + (if (s.nget f.i).color = BLACK then 1 else 0)) n

theorem RedOk_refill (s : OSTree K) (f : Frame K) (u : STree K) :
    RedOk s (refill f u) ↔
      (((s.nget f.i).color = RED → (s.nget u.rootIdx).color = BLACK ∧
        (s.nget f.sib.rootIdx).color = BLACK) ∧ RedOk s u ∧
        RedOk s f.sib) := by
  unfold refill
  cases f.onLeft <;> simp [RedOk] <;> tauto

theorem RedOk_plug_iff (s : OSTree K) (u : STree K) (ctx : Ctx K) :
    RedOk s (plug u ctx) ↔ RedOk s u ∧ RedCtx s ctx u.rootIdx := by
  induction ctx generalizing u with
  | nil => simp [plug, RedCtx]
  | cons f rest ih =>
    rw [plug_cons, ih, RedOk_refill]
    have : (refill f u).rootIdx = f.i := rootIdx_refill f u
    rw [this]
    show _ ↔ _ ∧ (RedOk s f.sib ∧ _ ∧ RedCtx s rest f.i)
    tauto

theorem Bh_refill (s : OSTree K) (f : Frame K) (u : STree K) (n : Nat) :
    Bh s (refill f u) n ↔
      ∃ m, Bh s u m ∧ Bh s f.sib m ∧
        n = m + (if (s.nget f.i).color = BLACK then 1 else 0) := by
  unfold refill
  cases f.onLeft <;> simp [Bh] <;> tauto

theorem Bh_plug_iff (s : OSTree K) (u : STree K) (ctx : Ctx K) (n : Nat) :
    Bh s (plug u ctx) n ↔ ∃ m, Bh s u m ∧ BhCtx s ctx m n := by
  induction ctx generalizing u n with
  | nil =>
    simp only [plug, BhCtx]
    constructor
    · intro h
      exact ⟨n, h, rfl⟩
    · rintro ⟨m, hm, rfl⟩
      exact hm
  | cons f rest ih =>
    rw [plug_cons, ih]
    show _ ↔ ∃ m, Bh s u m ∧ (Bh s f.sib m ∧ BhCtx s rest _ n)
    constructor
    · rintro ⟨m', hbu, hctx⟩
      rw [Bh_refill] at hbu
      obtain ⟨m, hu, hsib, rfl⟩ := hbu
      exact ⟨m, hu, hsib, hctx⟩
    · rintro ⟨m, hu, hsib, hctx⟩
      exact ⟨m + (if (s.nget f.i).color = BLACK then 1 else 0),
        (Bh_refill s f u _).mpr ⟨m, hu, hsib, rfl⟩, hctx⟩

theorem RedOk_mono {s s' : OSTree K} {t : STree K}
    (hag : ∀ j, j = 0 ∨ j ∈ t.idxList →
      (s'.nget j).color = (s.nget j).color) :
    RedOk s t → RedOk s' t := by
  induction t with
  | leaf => intro _; trivial
  | node i k uid l r ihl ihr =>
    rintro ⟨hred, hL, hR⟩
    refine ⟨?_, ?_, ?_⟩
    · intro hr
      rw [hag i (Or.inr (by simp [STree.idxList]))] at hr
      obtain ⟨hl2, hr2⟩ := hred hr
      constructor
      · rcases rootIdx_eq_zero_or_mem l with h | h
        · rw [hag l.rootIdx (Or.inl h)]
          exact hl2
        · rw [hag l.rootIdx (Or.inr (by simp [STree.idxList, h]))]
          exact hl2
      · rcases rootIdx_eq_zero_or_mem r with h | h
        · rw [hag r.rootIdx (Or.inl h)]
          exact hr2
        · rw [hag r.rootIdx (Or.inr (by simp [STree.idxList, h]))]
          exact hr2
    · exact ihl (fun j hj => hag j (by
        rcases hj with hj | hj
        · exact Or.inl hj
        · exact Or.inr (by simp [STree.idxList, hj]))) hL
    · exact ihr (fun j hj => hag j (by
        rcases hj with hj | hj
        · exact Or.inl hj
        · exact Or.inr (by simp [STree.idxList, hj]))) hR

theorem Bh_mono {s s' : OSTree K} {t : STree K} {n : Nat}
    (hag : ∀ j ∈ t.idxList, (s'.nget j).color = (s.nget j).color) :
    Bh s t n → Bh s' t n := by
  induction t generalizing n with
  | leaf => intro h; exact h
  | node i k uid l r ihl ihr =>
    rintro ⟨m, hl, hr, rfl⟩
    refine ⟨m, ihl (fun j hj => hag j (by simp [STree.idxList, hj])) hl,
      ihr (fun j hj => hag j (by simp [STree.idxList, hj])) hr, ?_⟩
    rw [hag i (by simp [STree.idxList])]

theorem RedCtx_mono {s s' : OSTree K} {ctx : Ctx K} {h : Nat}
    (hag : ∀ j, j = 0 ∨ j = h ∨ j ∈ ctxIdx ctx →
      (s'.nget j).color = (s.nget j).color) :
    RedCtx s ctx h → RedCtx s' ctx h := by
  induction ctx generalizing h with
  | nil => intro _; trivial
  | cons f rest ih =>
    rintro ⟨hsib, hred, hrest⟩
    refine ⟨?_, ?_, ?_⟩
    · refine RedOk_mono (fun j hj => hag j ?_) hsib
      rcases hj with hj | hj
      · exact Or.inl hj
      · exact Or.inr (Or.inr (mem_ctxIdx_cons_of_sib rest hj))
    · intro hr
      rw [hag f.i (Or.inr (Or.inr (by rw [ctxIdx_cons]; simp)))] at hr
      obtain ⟨h1, h2⟩ := hred hr
      constructor
      · rw [hag h (Or.inr (Or.inl rfl))]
        exact h1
      · rcases rootIdx_eq_zero_or_mem f.sib with hz | hz
        · rw [hag f.sib.rootIdx (Or.inl hz)]
          exact h2
        · rw [hag f.sib.rootIdx
            (Or.inr (Or.inr (mem_ctxIdx_cons_of_sib rest hz)))]
          exact h2
    · refine ih (fun j hj => hag j ?_) hrest
      rcases hj with hj | hj | hj
      · exact Or.inl hj
      · exact Or.inr (Or.inr (by rw [hj, ctxIdx_cons]; simp))
      · exact Or.inr (Or.inr (mem_ctxIdx_cons_of_mem f hj))

theorem BhCtx_mono {s s' : OSTree K} {ctx : Ctx K} {m n : Nat}
    (hag : ∀ j ∈ ctxIdx ctx, (s'.nget j).color = (s.nget j).color) :
    BhCtx s ctx m n → BhCtx s' ctx m n := by
  induction ctx generalizing m with
  | nil => intro h; exact h
  | cons f rest ih =>
    rintro ⟨hsib, hrest⟩
    refine ⟨Bh_mono (fun j hj => hag j (mem_ctxIdx_cons_of_sib rest hj)) hsib,
      ?_⟩
    rw [hag f.i (by rw [ctxIdx_cons]; simp)]
    exact ih (fun j hj => hag j (mem_ctxIdx_cons_of_mem f hj)) hrest

theorem RedCtx_toA {s : OSTree K} {ctx : Ctx K} {h : Nat} :
    RedCtx s ctx h → RedCtxA s ctx := by
  cases ctx with
  | nil => intro _; trivial
  | cons f rest =>
    rintro ⟨hsib, hred, hrest⟩
    exact ⟨hsib, fun hr => (hred hr).2, hrest⟩

theorem RedCtxA_toCtx {s : OSTree K} {ctx : Ctx K} {h : Nat}
    (hbl : (s.nget h).color = BLACK) :
    RedCtxA s ctx → RedCtx s ctx h := by
  cases ctx with
  | nil => intro _; trivial
  | cons f rest =>
    rintro ⟨hsib, hred, hrest⟩
    exact ⟨hsib, fun hr => ⟨hbl, hred hr⟩, hrest⟩

/-- Re-coloring nodes black preserves the red condition. -/
theorem RedOk_blacken {s s' : OSTree K} {t : STree K}
    (hag : ∀ j, j = 0 ∨ j ∈ t.idxList →
      ((s'.nget j).color = (s.nget j).color ∨ (s'.nget j).color = BLACK)) :
    RedOk s t → RedOk s' t := by
  induction t with
  | leaf => intro _; trivial
  | node a k uid l r ihl ihr =>
    rintro ⟨hred, hL, hR⟩
    refine ⟨?_, ?_, ?_⟩
    · intro hr
      have hared : (s.nget a).color = RED := by
        rcases hag a (Or.inr (by simp [STree.idxList])) with h | h
        · rw [← h]
          exact hr
        · rw [h] at hr
          cases hr
      obtain ⟨h1, h2⟩ := hred hared
      have hchild : ∀ c : STree K, c.rootIdx = 0 ∨ c.rootIdx ∈ l.idxList ∨
          c.rootIdx ∈ r.idxList → (s.nget c.rootIdx).color = BLACK →
          (s'.nget c.rootIdx).color = BLACK := by
        intro c hc hb
        rcases hag c.rootIdx (by
          rcases hc with hc | hc | hc
          · exact Or.inl hc
          · exact Or.inr (by simp [STree.idxList, hc])
          · exact Or.inr (by simp [STree.idxList, hc])) with h | h
        · rw [h]
          exact hb
        · exact h
      constructor
      · refine hchild l ?_ h1
        rcases rootIdx_eq_zero_or_mem l with h | h
        · exact Or.inl h
        · exact Or.inr (Or.inl h)
      · refine hchild r ?_ h2
        rcases rootIdx_eq_zero_or_mem r with h | h
        · exact Or.inl h
        · exact Or.inr (Or.inr h)
    · exact ihl (fun j hj => hag j (by
        rcases hj with hj | hj
        · exact Or.inl hj
        · exact Or.inr (by simp [STree.idxList, hj]))) hL
    · exact ihr (fun j hj => hag j (by
        rcases hj with hj | hj
        · exact Or.inl hj
        · exact Or.inr (by simp [STree.idxList, hj]))) hR

/-! ### Insert fixup: exit and recoloring steps -/

/-- Goal bundle of the insert fixup: the final state realises some
shape with all red-black invariants, the given entry list, and
unchanged root bookkeeping. -/
def FixDone (s s' : OSTree K) (E : List (K ×ₗ Int)) : Prop :=
  ∃ U : STree K, OSTree.ReprB s' 0 U ∧ s'.root = U.rootIdx ∧
    U.idxList.Nodup ∧ OSTree.NilOk s' ∧ OSTree.SizeOk s' U ∧
    RedOk s' U ∧ (∃ n, Bh s' U n) ∧
    (s'.nget s'.root).color = BLACK ∧ U.entries = E ∧
    s'.nodes.length = s.nodes.length ∧ s'.size = s.size ∧
    s'.nextUid = s.nextUid

theorem insertFixup_exit {s : OSTree K} {z : Nat}
    (h : ¬ (s.nget (s.nget z).parent).color = RED) (fuel : Nat) :
    OSTree.insertFixup s fuel z =
      s.nset s.root fun n => { n with color := BLACK } := by
  cases fuel with
  | zero => rfl
  | succ n =>
    show (if (s.nget (s.nget z).parent).color = RED then _ else _) = _
    rw [if_neg h]

theorem blackenRoot_spec {s : OSTree K} {U : STree K}
    (hR : OSTree.ReprB s 0 U) (hroot : s.root = U.rootIdx)
    (hnd : U.idxList.Nodup) (hnil : OSTree.NilOk s)
    (hS : OSTree.SizeOk s U) (hRed : RedOk s U) (hBh : ∃ n, Bh s U n)
    (hne : U ≠ .leaf) :
    FixDone s (s.nset s.root fun n => { n with color := BLACK }) U.entries := by
  obtain ⟨n, hb⟩ := hBh
  cases U with
  | leaf => exact absurd rfl hne
  | node rt k uid l r =>
    obtain ⟨h0, hlt, hk, hu, hp, hl, hr, hL, hR2⟩ := hR
    have hroot' : s.root = rt := hroot
    set s' := s.nset s.root fun n => { n with color := BLACK } with hs'
    have hng : ∀ j, s'.nget j =
        if j = rt then { s.nget rt with color := BLACK } else s.nget j := by
      intro j
      rw [hs', OSTree.nget_nset, hroot']
      by_cases hj : j = rt
      · rw [if_pos ⟨hj, hlt⟩, if_pos hj]
      · rw [if_neg (by tauto), if_neg hj]
    have hfields : ∀ j, eqFields (s'.nget j) (s.nget j) := by
      intro j
      rw [hng j]
      by_cases hj : j = rt
      · rw [if_pos hj]
        subst hj
        exact ⟨rfl, rfl, rfl, rfl, rfl⟩
      · rw [if_neg hj]
        exact eqFields_refl _
    have hsizes : ∀ j, (s'.nget j).size = (s.nget j).size := by
      intro j
      rw [hng j]
      by_cases hj : j = rt
      · rw [if_pos hj]
        subst hj
        rfl
      · rw [if_neg hj]
    have hcolors : ∀ j, (s'.nget j).color = (s.nget j).color ∨
        (j = rt ∧ (s'.nget j).color = BLACK) := by
      intro j
      rw [hng j]
      by_cases hj : j = rt
      · rw [if_pos hj]
        exact Or.inr ⟨hj, rfl⟩
      · rw [if_neg hj]
        exact Or.inl rfl
    have hcolne : ∀ j, j ≠ rt → (s'.nget j).color = (s.nget j).color := by
      intro j hj
      rw [hng j, if_neg hj]
    have hlen : s'.nodes.length = s.nodes.length := by
      rw [hs']
      simp
    have hnd2 := hnd
    simp only [STree.idxList] at hnd2
    rcases List.nodup_cons.mp hnd2 with ⟨hrtmem, hndlr⟩
    simp only [List.mem_append, not_or] at hrtmem
    refine ⟨.node rt k uid l r,
      ReprB_mono_of_fields (le_of_eq hlen.symm) (fun j _ => hfields j)
        ⟨h0, hlt, hk, hu, hp, hl, hr, hL, hR2⟩,
      by rw [hs']; exact hroot, hnd, ?_, ?_, ?_, ?_, ?_, rfl, hlen,
      by rw [hs']; rfl, by rw [hs']; rfl⟩
    · refine NilOk_of_agree ?_ hnil
      rw [hng 0, if_neg (Ne.symm h0)]
    · exact OSTree.SizeOk_mono_of_agree (fun j _ => hsizes j) hS
    · exact RedOk_blacken (fun j _ => (hcolors j).imp id And.right) hRed
    · obtain ⟨m, hbl, hbr, _⟩ := hb
      refine ⟨m + 1, m, Bh_mono (fun j hj => hcolne j fun he =>
        hrtmem.1 (he ▸ hj)) hbl,
        Bh_mono (fun j hj => hcolne j fun he => hrtmem.2 (he ▸ hj)) hbr, ?_⟩
      rw [hng rt, if_pos rfl]
      simp [BLACK]
    · rw [show s'.root = s.root from by rw [hs']; rfl, hroot', hng rt, if_pos rfl]

/-- Entries are preserved by the two rotation shape changes. -/
theorem entries_rotate (x y : Nat) (kx ky : K) (ux uy : Int)
    (A B C : STree K) :
    (STree.node y ky uy (STree.node x kx ux A B) C).entries =
      (STree.node x kx ux A (STree.node y ky uy B C)).entries := by
  simp [STree.entries]

/-! ### Size decomposition along a context -/

/-- Sizes along a context are correct for a hole subtree of `c`
elements. -/
def SizeCtx (s : OSTree K) : Ctx K → Nat → Prop
  | [], _ => True
  | f :: rest, c =>
    (s.nget f.i).size = c + f.sib.count + 1 ∧ OSTree.SizeOk s f.sib ∧
      SizeCtx s rest (c + f.sib.count + 1)

theorem SizeOk_refill (s : OSTree K) (f : Frame K) (u : STree K) :
    OSTree.SizeOk s (refill f u) ↔
      ((s.nget f.i).size = u.count + f.sib.count + 1 ∧
        OSTree.SizeOk s u ∧ OSTree.SizeOk s f.sib) := by
  unfold refill
  cases f.onLeft
  · show ((s.nget f.i).size = f.sib.count + u.count + 1 ∧ _ ∧ _) ↔ _
    constructor
    · rintro ⟨h1, h2, h3⟩
      exact ⟨by omega, h3, h2⟩
    · rintro ⟨h1, h2, h3⟩
      exact ⟨by omega, h3, h2⟩
  · show ((s.nget f.i).size = u.count + f.sib.count + 1 ∧ _ ∧ _) ↔ _
    tauto

theorem SizeOk_plug_iff (s : OSTree K) (u : STree K) (ctx : Ctx K) :
    OSTree.SizeOk s (plug u ctx) ↔
      OSTree.SizeOk s u ∧ SizeCtx s ctx u.count := by
  induction ctx generalizing u with
  | nil => simp [plug, SizeCtx]
  | cons f rest ih =>
    rw [plug_cons, ih, SizeOk_refill, count_refill]
    show _ ↔ _ ∧ (_ ∧ _ ∧ SizeCtx s rest (u.count + f.sib.count + 1))
    tauto

theorem SizeCtx_mono {s s' : OSTree K} {ctx : Ctx K} {c : Nat}
    (hag : ∀ j ∈ ctxIdx ctx, (s'.nget j).size = (s.nget j).size) :
    SizeCtx s ctx c → SizeCtx s' ctx c := by
  induction ctx generalizing c with
  | nil => intro _; trivial
  | cons f rest ih =>
    rintro ⟨h1, h2, h3⟩
    refine ⟨?_, ?_, ?_⟩
    · rw [hag f.i (by rw [ctxIdx_cons]; simp)]
      exact h1
    · exact OSTree.SizeOk_mono_of_agree
        (fun j hj => hag j (mem_ctxIdx_cons_of_sib rest hj)) h2
    · exact ih (fun j hj => hag j (mem_ctxIdx_cons_of_mem f hj)) h3

theorem RedCtxA_mono {s s' : OSTree K} {ctx : Ctx K}
    (hag : ∀ j, j = 0 ∨ j ∈ ctxIdx ctx →
      (s'.nget j).color = (s.nget j).color) :
    RedCtxA s ctx → RedCtxA s' ctx := by
  cases ctx with
  | nil => intro _; trivial
  | cons f rest =>
    rintro ⟨hsib, hred, hrest⟩
    refine ⟨?_, ?_, ?_⟩
    · refine RedOk_mono (fun j hj => hag j ?_) hsib
      rcases hj with hj | hj
      · exact Or.inl hj
      · exact Or.inr (mem_ctxIdx_cons_of_sib rest hj)
    · intro hr
      rw [hag f.i (Or.inr (by rw [ctxIdx_cons]; simp))] at hr
      rcases rootIdx_eq_zero_or_mem f.sib with hz | hz
      · rw [hag f.sib.rootIdx (Or.inl hz)]
        exact hred hr
      · rw [hag f.sib.rootIdx (Or.inr (mem_ctxIdx_cons_of_sib rest hz))]
        exact hred hr
    · refine RedCtx_mono (fun j hj => hag j ?_) hrest
      rcases hj with hj | hj | hj
      · exact Or.inl hj
      · exact Or.inr (by rw [hj, ctxIdx_cons]; simp)
      · exact Or.inr (mem_ctxIdx_cons_of_mem f hj)

theorem plug_node_ne_leaf (i : Nat) (k : K) (uid : Int) (l r : STree K)
    (ctx : Ctx K) : plug (.node i k uid l r) ctx ≠ .leaf := by
  induction ctx generalizing i k uid l r with
  | nil => intro h; cases h
  | cons f rest ih =>
    rw [plug_cons]
    unfold refill
    cases f.onLeft <;> exact ih _ _ _ _ _

set_option maxHeartbeats 4000000 in
/-- Case 2/3 of the insert fixup, left side (`z`'s grandparent holds
its parent on the left, the uncle is black): after the
black/red recoloring and the right-rotation at the grandparent, the
fixup terminates with all invariants restored. -/
theorem insertFixup_case3L {s₁ : OSTree K} {Z₁ : STree K} {f₁ g : Frame K}
    {rest' : Ctx K}
    (hf₁L : f₁.onLeft = true) (hgL : g.onLeft = true)
    (hR : OSTree.ReprB s₁ 0 (plug Z₁ (f₁ :: g :: rest')))
    (hroot : s₁.root = (plug Z₁ (f₁ :: g :: rest')).rootIdx)
    (hnd : (plug Z₁ (f₁ :: g :: rest')).idxList.Nodup)
    (hnil : OSTree.NilOk s₁)
    (hS : OSTree.SizeOk s₁ (plug Z₁ (f₁ :: g :: rest')))
    (hzr : (s₁.nget Z₁.rootIdx).color = RED)
    (hf₁r : (s₁.nget f₁.i).color = RED)
    (hgb : (s₁.nget g.i).color = BLACK)
    (hyb : (s₁.nget g.sib.rootIdx).color = BLACK)
    (hfsb : (s₁.nget f₁.sib.rootIdx).color = BLACK)
    (hRedZ : RedOk s₁ Z₁) (hRedfs : RedOk s₁ f₁.sib)
    (hRedgs : RedOk s₁ g.sib)
    (hRedCtx : RedCtx s₁ rest' g.i)
    (hBh : ∃ n, Bh s₁ (plug Z₁ (f₁ :: g :: rest')) n) :
    ∀ fuel,
      FixDone s₁
        (OSTree.insertFixup
          (OSTree.rotateRight
            ((s₁.nset f₁.i fun n => { n with color := BLACK }).nset g.i
              fun n => { n with color := RED })
            g.i)
          fuel Z₁.rootIdx)
        ((plug Z₁ (f₁ :: g :: rest')).entries) := by
  intro fuel
  have hplugeq : plug Z₁ (f₁ :: g :: rest') =
      plug (STree.node g.i g.k g.uid
        (STree.node f₁.i f₁.k f₁.uid Z₁ f₁.sib) g.sib) rest' := by
    rw [plug_cons, plug_cons]
    have h1 : refill f₁ Z₁ = STree.node f₁.i f₁.k f₁.uid Z₁ f₁.sib := by
      simp [refill, hf₁L]
    have h2 : refill g (refill f₁ Z₁) = STree.node g.i g.k g.uid
        (refill f₁ Z₁) g.sib := by
      simp [refill, hgL]
    rw [h2, h1]
  rw [hplugeq] at hR hroot hnd hS hBh
  -- structural decomposition
  have hRint := hR
  rw [ReprB_plug_iff] at hRint
  obtain ⟨hc', hh', hu'⟩ := hRint
  obtain ⟨hg0, hglen, hgk, hgu, hgp, hgl, hgr, hFnode, hGsib⟩ := hu'
  obtain ⟨hf0, hflen, hfk, hfu, hfp, hfl, hfr, hZ₁R, hFsib⟩ := hFnode
  -- nodup decomposition
  have hndP := (idxList_plug_perm _ rest').nodup hnd
  simp only [STree.idxList] at hndP
  rcases List.nodup_append.mp hndP with ⟨hndU, hndCtx, hdisjU⟩
  rcases List.nodup_cons.mp hndU with ⟨hgmem, hndU2⟩
  rcases List.nodup_append.mp hndU2 with ⟨hndF, hndGs, hdisjFGs⟩
  rcases List.nodup_cons.mp hndF with ⟨hfmem, hndF2⟩
  rcases List.nodup_append.mp hndF2 with ⟨hndZ, hndFs, hdisjZFs⟩
  simp only [List.mem_cons, List.mem_append, not_or] at hgmem hfmem
  have hgf : g.i ≠ f₁.i := by tauto
  have hfg : f₁.i ≠ g.i := Ne.symm hgf
  have hgZ : g.i ∉ Z₁.idxList := by tauto
  have hgFs : g.i ∉ f₁.sib.idxList := by tauto
  have hgGs : g.i ∉ g.sib.idxList := by tauto
  have hfZ : f₁.i ∉ Z₁.idxList := hfmem.1
  have hfFs : f₁.i ∉ f₁.sib.idxList := hfmem.2
  have hfGs : f₁.i ∉ g.sib.idxList := fun h => hdisjFGs (by simp) h
  have hgctx : g.i ∉ ctxIdx rest' := fun h => hdisjU (by simp) h
  have hfctx : f₁.i ∉ ctxIdx rest' := fun h => hdisjU (by simp) h
  have hZctx : ∀ j ∈ Z₁.idxList, j ∉ ctxIdx rest' := fun j hj h =>
    hdisjU (by simp [hj]) h
  have hFsctx : ∀ j ∈ f₁.sib.idxList, j ∉ ctxIdx rest' := fun j hj h =>
    hdisjU (by simp [hj]) h
  have hGsctx : ∀ j ∈ g.sib.idxList, j ∉ ctxIdx rest' := fun j hj h =>
    hdisjU (by simp [hj]) h
  -- the recoloring characterization
  set s₂ := s₁.nset f₁.i (fun n => { n with color := BLACK }) with hs₂
  set s₃ := s₂.nset g.i (fun n => { n with color := RED }) with hs₃
  have hlen₂ : s₂.nodes.length = s₁.nodes.length := by rw [hs₂]; simp
  have hlen₃ : s₃.nodes.length = s₁.nodes.length := by rw [hs₃]; simp [hlen₂]
  have hng₃ : ∀ j, s₃.nget j =
      if j = g.i then { s₁.nget g.i with color := RED }
      else if j = f₁.i then { s₁.nget f₁.i with color := BLACK }
      else s₁.nget j := by
    intro j
    rw [hs₃, OSTree.nget_nset]
    by_cases hjg : j = g.i
    · rw [if_pos ⟨hjg, by rw [hlen₂]; exact hglen⟩, if_pos hjg]
      have : s₂.nget g.i = s₁.nget g.i := by
        rw [hs₂, OSTree.nget_nset, if_neg (by tauto)]
      rw [this]
    · rw [if_neg (by tauto), if_neg hjg, hs₂, OSTree.nget_nset]
      by_cases hjf : j = f₁.i
      · rw [if_pos ⟨hjf, hflen⟩, if_pos hjf]
      · rw [if_neg (by tauto), if_neg hjf]
  have hfields₃ : ∀ j, eqFields (s₃.nget j) (s₁.nget j) := by
    intro j
    rw [hng₃ j]
    by_cases hjg : j = g.i
    · rw [if_pos hjg]
      subst hjg
      exact ⟨rfl, rfl, rfl, rfl, rfl⟩
    · rw [if_neg hjg]
      by_cases hjf : j = f₁.i
      · rw [if_pos hjf]
        subst hjf
        exact ⟨rfl, rfl, rfl, rfl, rfl⟩
      · rw [if_neg hjf]
        exact eqFields_refl _
  have hsizes₃ : ∀ j, (s₃.nget j).size = (s₁.nget j).size := by
    intro j
    rw [hng₃ j]
    by_cases hjg : j = g.i
    · rw [if_pos hjg]
      subst hjg
      rfl
    · rw [if_neg hjg]
      by_cases hjf : j = f₁.i
      · rw [if_pos hjf]
        subst hjf
        rfl
      · rw [if_neg hjf]
  have hcolors₃ : ∀ j, j ≠ f₁.i → j ≠ g.i →
      (s₃.nget j).color = (s₁.nget j).color := by
    intro j h1 h2
    rw [hng₃ j, if_neg h2, if_neg h1]
  have hcf₃ : (s₃.nget f₁.i).color = BLACK := by
    rw [hng₃, if_neg hfg, if_pos rfl]
  have hcg₃ : (s₃.nget g.i).color = RED := by
    rw [hng₃, if_pos rfl]
  -- the invariants at the recolored state
  have hR₃ : OSTree.ReprB s₃ 0 (plug (STree.node g.i g.k g.uid
      (STree.node f₁.i f₁.k f₁.uid Z₁ f₁.sib) g.sib) rest') :=
    ReprB_mono_of_fields (le_of_eq hlen₃.symm) (fun j _ => hfields₃ j) hR
  have hroot₃ : s₃.root = (plug (STree.node g.i g.k g.uid
      (STree.node f₁.i f₁.k f₁.uid Z₁ f₁.sib) g.sib) rest').rootIdx := by
    rw [hs₃, hs₂]
    simp only [OSTree.root_nset]
    exact hroot
  have hnil₃ : OSTree.NilOk s₃ := by
    refine NilOk_of_agree ?_ hnil
    rw [hng₃, if_neg (Ne.symm hg0), if_neg (Ne.symm hf0)]
  -- the rotation
  have hzip := @rotateRight_zip K _ s₃ rest' f₁.i g.i f₁.k g.k f₁.uid g.uid
    Z₁ f₁.sib g.sib hR₃ hroot₃ hnd hnil₃
  obtain ⟨z1, z2, z3, z4, z5, z6, z7, z8, z9, z10, z11, z12, z13⟩ := hzip
  set s₄ := OSTree.rotateRight s₃ g.i with hs₄
  -- colors in the rotated state
  have hcol₄ : ∀ j, j ≠ f₁.i → j ≠ g.i →
      (s₄.nget j).color = (s₁.nget j).color := fun j h1 h2 =>
    (z8 j).trans (hcolors₃ j h1 h2)
  have hcf₄ : (s₄.nget f₁.i).color = BLACK := (z8 f₁.i).trans hcf₃
  have hcg₄ : (s₄.nget g.i).color = RED := (z8 g.i).trans hcg₃
  have hcol0 : (s₄.nget 0).color = BLACK := by
    rw [hcol₄ 0 (Ne.symm hf0) (Ne.symm hg0)]
    exact hnil.2.2.1
  -- Z₁ is a real node
  have hZne : Z₁ ≠ .leaf := by
    intro h
    rw [h] at hzr
    rw [show (STree.leaf : STree K).rootIdx = 0 from rfl] at hzr
    rw [hnil.2.2.1] at hzr
    cases hzr
  -- sizes in s₃ at subtree roots
  have hsz₃ : ∀ j, (s₃.nget j).size = (s₁.nget j).size := hsizes₃
  -- decompose the original sizes
  rw [SizeOk_plug_iff] at hS
  obtain ⟨hSu, hSctx⟩ := hS
  obtain ⟨hgsz, hSf, hSgs⟩ := hSu
  obtain ⟨hfsz, hSZ, hSfs⟩ := hSf
  -- root sizes in s₃
  have hZrsz : (s₃.nget Z₁.rootIdx).size = Z₁.count := by
    rw [hsz₃]
    exact root_size_eq hSZ hnil
  have hFsrsz : (s₃.nget f₁.sib.rootIdx).size = f₁.sib.count := by
    rw [hsz₃]
    exact root_size_eq hSfs hnil
  have hGsrsz : (s₃.nget g.sib.rootIdx).size = g.sib.count := by
    rw [hsz₃]
    exact root_size_eq hSgs hnil
  -- the exit of the fixup call
  have hzparent : (s₄.nget Z₁.rootIdx).parent = f₁.i := by
    have hR₄int := z1
    rw [ReprB_plug_iff] at hR₄int
    obtain ⟨_, _, hu₄⟩ := hR₄int
    obtain ⟨_, _, _, _, _, _, _, hZ₄, _⟩ := hu₄
    cases hZt : Z₁ with
    | leaf => exact absurd hZt hZne
    | node zz zk zu Zl Zr2 =>
      rw [hZt] at hZ₄
      exact hZ₄.2.2.2.2.1
  have hexit : OSTree.insertFixup s₄ fuel Z₁.rootIdx =
      s₄.nset s₄.root fun n => { n with color := BLACK } := by
    refine insertFixup_exit ?_ fuel
    rw [hzparent, hcf₄]
    simp [BLACK, RED]
  rw [hexit]
  -- invariants of the rotated state, for the final blackening
  have hSok₄ : OSTree.SizeOk s₄ (plug (STree.node f₁.i f₁.k f₁.uid Z₁
      (STree.node g.i g.k g.uid f₁.sib g.sib)) rest') := by
    rw [SizeOk_plug_iff]
    constructor
    · refine ⟨?_, ?_, ?_, ?_, ?_⟩
      · show (s₄.nget f₁.i).size =
          Z₁.count + (f₁.sib.count + g.sib.count + 1) + 1
        rw [z12, hZrsz, hFsrsz, hGsrsz]
      · refine OSTree.SizeOk_mono_of_agree (fun j hj => ?_) hSZ
        rw [z13 j (fun h => hfZ (h ▸ hj)) (fun h => hgZ (h ▸ hj)), hsz₃]
      · show (s₄.nget g.i).size = f₁.sib.count + g.sib.count + 1
        rw [z11, hFsrsz, hGsrsz]
      · refine OSTree.SizeOk_mono_of_agree (fun j hj => ?_) hSfs
        rw [z13 j (fun h => hfFs (h ▸ hj)) (fun h => hgFs (h ▸ hj)), hsz₃]
      · refine OSTree.SizeOk_mono_of_agree (fun j hj => ?_) hSgs
        rw [z13 j (fun h => hfGs (h ▸ hj)) (fun h => hgGs (h ▸ hj)), hsz₃]
    · have hcnt : (STree.node f₁.i f₁.k f₁.uid Z₁
          (STree.node g.i g.k g.uid f₁.sib g.sib)).count =
          (STree.node g.i g.k g.uid
            (STree.node f₁.i f₁.k f₁.uid Z₁ f₁.sib) g.sib).count := by
        show Z₁.count + (f₁.sib.count + g.sib.count + 1) + 1 =
          Z₁.count + f₁.sib.count + 1 + g.sib.count + 1
        omega
      rw [hcnt]
      refine SizeCtx_mono (fun j hj => ?_) hSctx
      rw [z13 j (fun h => hfctx (h ▸ hj)) (fun h => hgctx (h ▸ hj)), hsz₃]
  have hRed₄ : RedOk s₄ (plug (STree.node f₁.i f₁.k f₁.uid Z₁
      (STree.node g.i g.k g.uid f₁.sib g.sib)) rest') := by
    rw [RedOk_plug_iff]
    constructor
    · refine ⟨?_, ?_, ?_, ?_, ?_⟩
      · intro hr
        rw [hcf₄] at hr
        cases hr
      · refine RedOk_mono (fun j hj => ?_) hRedZ
        rcases hj with rfl | hj
        · exact hcol0.trans hnil.2.2.1.symm
        · exact hcol₄ j (fun h => hfZ (h ▸ hj)) (fun h => hgZ (h ▸ hj))
      · intro _
        constructor
        · show (s₄.nget f₁.sib.rootIdx).color = BLACK
          rcases rootIdx_eq_zero_or_mem f₁.sib with h | h
          · rw [h]
            exact hcol0
          · rw [hcol₄ _ (fun he => hfFs (he ▸ h))
              (fun he => hgFs (he ▸ h))]
            exact hfsb
        · show (s₄.nget g.sib.rootIdx).color = BLACK
          rcases rootIdx_eq_zero_or_mem g.sib with h | h
          · rw [h]
            exact hcol0
          · rw [hcol₄ _ (fun he => hfGs (he ▸ h))
              (fun he => hgGs (he ▸ h))]
            exact hyb
      · refine RedOk_mono (fun j hj => ?_) hRedfs
        rcases hj with rfl | hj
        · exact hcol0.trans hnil.2.2.1.symm
        · exact hcol₄ j (fun h => hfFs (h ▸ hj)) (fun h => hgFs (h ▸ hj))
      · refine RedOk_mono (fun j hj => ?_) hRedgs
        rcases hj with rfl | hj
        · exact hcol0.trans hnil.2.2.1.symm
        · exact hcol₄ j (fun h => hfGs (h ▸ hj)) (fun h => hgGs (h ▸ hj))
    · refine RedCtxA_toCtx hcf₄ ?_
      refine RedCtxA_mono (fun j hj => ?_) (RedCtx_toA hRedCtx)
      rcases hj with rfl | hj
      · exact hcol0.trans hnil.2.2.1.symm
      · exact hcol₄ j (fun h => hfctx (h ▸ hj)) (fun h => hgctx (h ▸ hj))
  have hBh₄ : ∃ n, Bh s₄ (plug (STree.node f₁.i f₁.k f₁.uid Z₁
      (STree.node g.i g.k g.uid f₁.sib g.sib)) rest') n := by
    obtain ⟨n, hbh⟩ := hBh
    rw [Bh_plug_iff] at hbh
    obtain ⟨m', hbu, hbctx⟩ := hbh
    obtain ⟨mf, hbF, hbGs, hm'⟩ := hbu
    obtain ⟨mz, hbZ, hbFs, hmf⟩ := hbF
    rw [hgb] at hm'
    rw [hf₁r] at hmf
    simp [BLACK, RED] at hm' hmf
    subst hmf
    refine ⟨n, ?_⟩
    rw [Bh_plug_iff]
    refine ⟨m', ⟨mf, ?_, ⟨mf, ?_, ?_, ?_⟩, ?_⟩, ?_⟩
    · refine Bh_mono (fun j hj => ?_) hbZ
      exact hcol₄ j (fun h => hfZ (h ▸ hj)) (fun h => hgZ (h ▸ hj))
    · refine Bh_mono (fun j hj => ?_) hbFs
      exact hcol₄ j (fun h => hfFs (h ▸ hj)) (fun h => hgFs (h ▸ hj))
    · refine Bh_mono (fun j hj => ?_) hbGs
      exact hcol₄ j (fun h => hfGs (h ▸ hj)) (fun h => hgGs (h ▸ hj))
    · rw [hcg₄]
      simp [BLACK, RED]
    · rw [hcf₄]
      simp [BLACK, RED]
      omega
    · refine BhCtx_mono (fun j hj => ?_) hbctx
      exact hcol₄ j (fun h => hfctx (h ▸ hj)) (fun h => hgctx (h ▸ hj))
  -- final blackening
  have hdone := blackenRoot_spec z1 z2 z3 z4 hSok₄ hRed₄ hBh₄
    (plug_node_ne_leaf _ _ _ _ _ _)
  obtain ⟨U, d1, d2, d3, d4, d5, d6, d7, d8, d9, d10, d11, d12⟩ := hdone
  refine ⟨U, d1, d2, d3, d4, d5, d6, d7, d8, ?_, ?_, ?_, ?_⟩
  · rw [d9, hplugeq]
    exact entries_plug_congr
      (entries_rotate f₁.i g.i f₁.k g.k f₁.uid g.uid Z₁ f₁.sib g.sib).symm
      rest'
  · rw [d10, z5, hlen₃]
  · rw [d11, z6, hs₃, hs₂]
    rfl
  · rw [d12, z7, hs₃, hs₂]
    rfl

set_option maxHeartbeats 4000000 in
/-- Case 2/3 of the insert fixup, right side (`z`'s grandparent holds
its parent on the right, the uncle is black): after the recoloring and
the left-rotation at the grandparent, the fixup terminates with all
invariants restored. -/
theorem insertFixup_case3R {s₁ : OSTree K} {Z₁ : STree K} {f₁ g : Frame K}
    {rest' : Ctx K}
    (hf₁L : f₁.onLeft = false) (hgL : g.onLeft = false)
    (hR : OSTree.ReprB s₁ 0 (plug Z₁ (f₁ :: g :: rest')))
    (hroot : s₁.root = (plug Z₁ (f₁ :: g :: rest')).rootIdx)
    (hnd : (plug Z₁ (f₁ :: g :: rest')).idxList.Nodup)
    (hnil : OSTree.NilOk s₁)
    (hS : OSTree.SizeOk s₁ (plug Z₁ (f₁ :: g :: rest')))
    (hzr : (s₁.nget Z₁.rootIdx).color = RED)
    (hf₁r : (s₁.nget f₁.i).color = RED)
    (hgb : (s₁.nget g.i).color = BLACK)
    (hyb : (s₁.nget g.sib.rootIdx).color = BLACK)
    (hfsb : (s₁.nget f₁.sib.rootIdx).color = BLACK)
    (hRedZ : RedOk s₁ Z₁) (hRedfs : RedOk s₁ f₁.sib)
    (hRedgs : RedOk s₁ g.sib)
    (hRedCtx : RedCtx s₁ rest' g.i)
    (hBh : ∃ n, Bh s₁ (plug Z₁ (f₁ :: g :: rest')) n) :
    ∀ fuel,
      FixDone s₁
        (OSTree.insertFixup
          (OSTree.rotateLeft
            ((s₁.nset f₁.i fun n => { n with color := BLACK }).nset g.i
              fun n => { n with color := RED })
            g.i)
          fuel Z₁.rootIdx)
        ((plug Z₁ (f₁ :: g :: rest')).entries) := by
  intro fuel
  have hplugeq : plug Z₁ (f₁ :: g :: rest') =
      plug (STree.node g.i g.k g.uid g.sib
        (STree.node f₁.i f₁.k f₁.uid f₁.sib Z₁)) rest' := by
    rw [plug_cons, plug_cons]
    have h1 : refill f₁ Z₁ = STree.node f₁.i f₁.k f₁.uid f₁.sib Z₁ := by
      simp [refill, hf₁L]
    have h2 : refill g (refill f₁ Z₁) = STree.node g.i g.k g.uid g.sib
        (refill f₁ Z₁) := by
      simp [refill, hgL]
    rw [h2, h1]
  rw [hplugeq] at hR hroot hnd hS hBh
  -- structural decomposition
  have hRint := hR
  rw [ReprB_plug_iff] at hRint
  obtain ⟨hc', hh', hu'⟩ := hRint
  obtain ⟨hg0, hglen, hgk, hgu, hgp, hgl, hgr, hGsib, hFnode⟩ := hu'
  obtain ⟨hf0, hflen, hfk, hfu, hfp, hfl, hfr, hFsib, hZ₁R⟩ := hFnode
  -- nodup decomposition
  have hndP := (idxList_plug_perm _ rest').nodup hnd
  simp only [STree.idxList] at hndP
  rcases List.nodup_append.mp hndP with ⟨hndU, hndCtx, hdisjU⟩
  rcases List.nodup_cons.mp hndU with ⟨hgmem, hndU2⟩
  rcases List.nodup_append.mp hndU2 with ⟨hndGs, hndF, hdisjGsF⟩
  rcases List.nodup_cons.mp hndF with ⟨hfmem, hndF2⟩
  rcases List.nodup_append.mp hndF2 with ⟨hndFs, hndZ, hdisjFsZ⟩
  simp only [List.mem_cons, List.mem_append, not_or] at hgmem hfmem
  have hgf : g.i ≠ f₁.i := by tauto
  have hfg : f₁.i ≠ g.i := Ne.symm hgf
  have hgZ : g.i ∉ Z₁.idxList := by tauto
  have hgFs : g.i ∉ f₁.sib.idxList := by tauto
  have hgGs : g.i ∉ g.sib.idxList := by tauto
  have hfZ : f₁.i ∉ Z₁.idxList := by tauto
  have hfFs : f₁.i ∉ f₁.sib.idxList := by tauto
  have hfGs : f₁.i ∉ g.sib.idxList := fun h => hdisjGsF h (by simp)
  have hgctx : g.i ∉ ctxIdx rest' := fun h => hdisjU (by simp) h
  have hfctx : f₁.i ∉ ctxIdx rest' := fun h => hdisjU (by simp) h
  have hZctx : ∀ j ∈ Z₁.idxList, j ∉ ctxIdx rest' := fun j hj h =>
    hdisjU (by simp [hj]) h
  have hFsctx : ∀ j ∈ f₁.sib.idxList, j ∉ ctxIdx rest' := fun j hj h =>
    hdisjU (by simp [hj]) h
  have hGsctx : ∀ j ∈ g.sib.idxList, j ∉ ctxIdx rest' := fun j hj h =>
    hdisjU (by simp [hj]) h
  -- the recoloring characterization
  set s₂ := s₁.nset f₁.i (fun n => { n with color := BLACK }) with hs₂
  set s₃ := s₂.nset g.i (fun n => { n with color := RED }) with hs₃
  have hlen₂ : s₂.nodes.length = s₁.nodes.length := by rw [hs₂]; simp
  have hlen₃ : s₃.nodes.length = s₁.nodes.length := by rw [hs₃]; simp [hlen₂]
  have hng₃ : ∀ j, s₃.nget j =
      if j = g.i then { s₁.nget g.i with color := RED }
      else if j = f₁.i then { s₁.nget f₁.i with color := BLACK }
      else s₁.nget j := by
    intro j
    rw [hs₃, OSTree.nget_nset]
    by_cases hjg : j = g.i
    · rw [if_pos ⟨hjg, by rw [hlen₂]; exact hglen⟩, if_pos hjg]
      have : s₂.nget g.i = s₁.nget g.i := by
        rw [hs₂, OSTree.nget_nset, if_neg (by tauto)]
      rw [this]
    · rw [if_neg (by tauto), if_neg hjg, hs₂, OSTree.nget_nset]
      by_cases hjf : j = f₁.i
      · rw [if_pos ⟨hjf, hflen⟩, if_pos hjf]
      · rw [if_neg (by tauto), if_neg hjf]
  have hfields₃ : ∀ j, eqFields (s₃.nget j) (s₁.nget j) := by
    intro j
    rw [hng₃ j]
    by_cases hjg : j = g.i
    · rw [if_pos hjg]
      subst hjg
      exact ⟨rfl, rfl, rfl, rfl, rfl⟩
    · rw [if_neg hjg]
      by_cases hjf : j = f₁.i
      · rw [if_pos hjf]
        subst hjf
        exact ⟨rfl, rfl, rfl, rfl, rfl⟩
      · rw [if_neg hjf]
        exact eqFields_refl _
  have hsizes₃ : ∀ j, (s₃.nget j).size = (s₁.nget j).size := by
    intro j
    rw [hng₃ j]
    by_cases hjg : j = g.i
    · rw [if_pos hjg]
      subst hjg
      rfl
    · rw [if_neg hjg]
      by_cases hjf : j = f₁.i
      · rw [if_pos hjf]
        subst hjf
        rfl
      · rw [if_neg hjf]
  have hcolors₃ : ∀ j, j ≠ f₁.i → j ≠ g.i →
      (s₃.nget j).color = (s₁.nget j).color := by
    intro j h1 h2
    rw [hng₃ j, if_neg h2, if_neg h1]
  have hcf₃ : (s₃.nget f₁.i).color = BLACK := by
    rw [hng₃, if_neg hfg, if_pos rfl]
  have hcg₃ : (s₃.nget g.i).color = RED := by
    rw [hng₃, if_pos rfl]
  -- the invariants at the recolored state
  have hR₃ : OSTree.ReprB s₃ 0 (plug (STree.node g.i g.k g.uid g.sib
      (STree.node f₁.i f₁.k f₁.uid f₁.sib Z₁)) rest') :=
    ReprB_mono_of_fields (le_of_eq hlen₃.symm) (fun j _ => hfields₃ j) hR
  have hroot₃ : s₃.root = (plug (STree.node g.i g.k g.uid g.sib
      (STree.node f₁.i f₁.k f₁.uid f₁.sib Z₁)) rest').rootIdx := by
    rw [hs₃, hs₂]
    simp only [OSTree.root_nset]
    exact hroot
  have hnil₃ : OSTree.NilOk s₃ := by
    refine NilOk_of_agree ?_ hnil
    rw [hng₃, if_neg (Ne.symm hg0), if_neg (Ne.symm hf0)]
  -- the rotation
  have hzip := @rotateLeft_zip K _ s₃ rest' g.i f₁.i g.k f₁.k g.uid f₁.uid
    g.sib f₁.sib Z₁ hR₃ hroot₃ hnd hnil₃
  obtain ⟨z1, z2, z3, z4, z5, z6, z7, z8, z9, z10, z11, z12, z13⟩ := hzip
  set s₄ := OSTree.rotateLeft s₃ g.i with hs₄
  -- colors in the rotated state
  have hcol₄ : ∀ j, j ≠ f₁.i → j ≠ g.i →
      (s₄.nget j).color = (s₁.nget j).color := fun j h1 h2 =>
    (z8 j).trans (hcolors₃ j h1 h2)
  have hcf₄ : (s₄.nget f₁.i).color = BLACK := (z8 f₁.i).trans hcf₃
  have hcg₄ : (s₄.nget g.i).color = RED := (z8 g.i).trans hcg₃
  have hcol0 : (s₄.nget 0).color = BLACK := by
    rw [hcol₄ 0 (Ne.symm hf0) (Ne.symm hg0)]
    exact hnil.2.2.1
  -- Z₁ is a real node
  have hZne : Z₁ ≠ .leaf := by
    intro h
    rw [h] at hzr
    rw [show (STree.leaf : STree K).rootIdx = 0 from rfl] at hzr
    rw [hnil.2.2.1] at hzr
    cases hzr
  have hsz₃ : ∀ j, (s₃.nget j).size = (s₁.nget j).size := hsizes₃
  -- decompose the original sizes
  rw [SizeOk_plug_iff] at hS
  obtain ⟨hSu, hSctx⟩ := hS
  obtain ⟨hgsz, hSgs, hSf⟩ := hSu
  obtain ⟨hfsz, hSfs, hSZ⟩ := hSf
  -- root sizes in s₃
  have hZrsz : (s₃.nget Z₁.rootIdx).size = Z₁.count := by
    rw [hsz₃]
    exact root_size_eq hSZ hnil
  have hFsrsz : (s₃.nget f₁.sib.rootIdx).size = f₁.sib.count := by
    rw [hsz₃]
    exact root_size_eq hSfs hnil
  have hGsrsz : (s₃.nget g.sib.rootIdx).size = g.sib.count := by
    rw [hsz₃]
    exact root_size_eq hSgs hnil
  -- the exit of the fixup call
  have hzparent : (s₄.nget Z₁.rootIdx).parent = f₁.i := by
    have hR₄int := z1
    rw [ReprB_plug_iff] at hR₄int
    obtain ⟨_, _, hu₄⟩ := hR₄int
    obtain ⟨_, _, _, _, _, _, _, _, hZ₄⟩ := hu₄
    cases hZt : Z₁ with
    | leaf => exact absurd hZt hZne
    | node zz zk zu Zl Zr2 =>
      rw [hZt] at hZ₄
      exact hZ₄.2.2.2.2.1
  have hexit : OSTree.insertFixup s₄ fuel Z₁.rootIdx =
      s₄.nset s₄.root fun n => { n with color := BLACK } := by
    refine insertFixup_exit ?_ fuel
    rw [hzparent, hcf₄]
    simp [BLACK, RED]
  rw [hexit]
  -- invariants of the rotated state, for the final blackening
  have hSok₄ : OSTree.SizeOk s₄ (plug (STree.node f₁.i f₁.k f₁.uid
      (STree.node g.i g.k g.uid g.sib f₁.sib) Z₁) rest') := by
    rw [SizeOk_plug_iff]
    constructor
    · refine ⟨?_, ⟨?_, ?_, ?_⟩, ?_⟩
      · show (s₄.nget f₁.i).size =
          (g.sib.count + f₁.sib.count + 1) + Z₁.count + 1
        rw [z12, hZrsz, hFsrsz, hGsrsz]
      · show (s₄.nget g.i).size = g.sib.count + f₁.sib.count + 1
        rw [z11, hFsrsz, hGsrsz]
      · refine OSTree.SizeOk_mono_of_agree (fun j hj => ?_) hSgs
        rw [z13 j (fun h => hgGs (h ▸ hj)) (fun h => hfGs (h ▸ hj)), hsz₃]
      · refine OSTree.SizeOk_mono_of_agree (fun j hj => ?_) hSfs
        rw [z13 j (fun h => hgFs (h ▸ hj)) (fun h => hfFs (h ▸ hj)), hsz₃]
      · refine OSTree.SizeOk_mono_of_agree (fun j hj => ?_) hSZ
        rw [z13 j (fun h => hgZ (h ▸ hj)) (fun h => hfZ (h ▸ hj)), hsz₃]
    · have hcnt : (STree.node f₁.i f₁.k f₁.uid
          (STree.node g.i g.k g.uid g.sib f₁.sib) Z₁).count =
          (STree.node g.i g.k g.uid g.sib
            (STree.node f₁.i f₁.k f₁.uid f₁.sib Z₁)).count := by
        show (g.sib.count + f₁.sib.count + 1) + Z₁.count + 1 =
          g.sib.count + (f₁.sib.count + Z₁.count + 1) + 1
        omega
      rw [hcnt]
      refine SizeCtx_mono (fun j hj => ?_) hSctx
      rw [z13 j (fun h => hgctx (h ▸ hj)) (fun h => hfctx (h ▸ hj)), hsz₃]
  have hRed₄ : RedOk s₄ (plug (STree.node f₁.i f₁.k f₁.uid
      (STree.node g.i g.k g.uid g.sib f₁.sib) Z₁) rest') := by
    rw [RedOk_plug_iff]
    constructor
    · refine ⟨?_, ⟨?_, ?_, ?_⟩, ?_⟩
      · intro hr
        rw [hcf₄] at hr
        cases hr
      · intro _
        constructor
        · show (s₄.nget g.sib.rootIdx).color = BLACK
          rcases rootIdx_eq_zero_or_mem g.sib with h | h
          · rw [h]
            exact hcol0
          · rw [hcol₄ _ (fun he => hfGs (he ▸ h))
              (fun he => hgGs (he ▸ h))]
            exact hyb
        · show (s₄.nget f₁.sib.rootIdx).color = BLACK
          rcases rootIdx_eq_zero_or_mem f₁.sib with h | h
          · rw [h]
            exact hcol0
          · rw [hcol₄ _ (fun he => hfFs (he ▸ h))
              (fun he => hgFs (he ▸ h))]
            exact hfsb
      · refine RedOk_mono (fun j hj => ?_) hRedgs
        rcases hj with rfl | hj
        · exact hcol0.trans hnil.2.2.1.symm
        · exact hcol₄ j (fun h => hfGs (h ▸ hj)) (fun h => hgGs (h ▸ hj))
      · refine RedOk_mono (fun j hj => ?_) hRedfs
        rcases hj with rfl | hj
        · exact hcol0.trans hnil.2.2.1.symm
        · exact hcol₄ j (fun h => hfFs (h ▸ hj)) (fun h => hgFs (h ▸ hj))
      · refine RedOk_mono (fun j hj => ?_) hRedZ
        rcases hj with rfl | hj
        · exact hcol0.trans hnil.2.2.1.symm
        · exact hcol₄ j (fun h => hfZ (h ▸ hj)) (fun h => hgZ (h ▸ hj))
    · refine RedCtxA_toCtx hcf₄ ?_
      refine RedCtxA_mono (fun j hj => ?_) (RedCtx_toA hRedCtx)
      rcases hj with rfl | hj
      · exact hcol0.trans hnil.2.2.1.symm
      · exact hcol₄ j (fun h => hfctx (h ▸ hj)) (fun h => hgctx (h ▸ hj))
  have hBh₄ : ∃ n, Bh s₄ (plug (STree.node f₁.i f₁.k f₁.uid
      (STree.node g.i g.k g.uid g.sib f₁.sib) Z₁) rest') n := by
    obtain ⟨n, hbh⟩ := hBh
    rw [Bh_plug_iff] at hbh
    obtain ⟨m', hbu, hbctx⟩ := hbh
    obtain ⟨mg, hbGs, hbF, hm'⟩ := hbu
    obtain ⟨mz, hbFs, hbZ, hmf⟩ := hbF
    rw [hgb] at hm'
    rw [hf₁r] at hmf
    simp [BLACK, RED] at hm' hmf
    subst hmf
    refine ⟨n, ?_⟩
    rw [Bh_plug_iff]
    refine ⟨m', ⟨mg, ⟨mg, ?_, ?_, ?_⟩, ?_, ?_⟩, ?_⟩
    · refine Bh_mono (fun j hj => ?_) hbGs
      exact hcol₄ j (fun h => hfGs (h ▸ hj)) (fun h => hgGs (h ▸ hj))
    · refine Bh_mono (fun j hj => ?_) hbFs
      exact hcol₄ j (fun h => hfFs (h ▸ hj)) (fun h => hgFs (h ▸ hj))
    · rw [hcg₄]
      simp [BLACK, RED]
    · refine Bh_mono (fun j hj => ?_) hbZ
      exact hcol₄ j (fun h => hfZ (h ▸ hj)) (fun h => hgZ (h ▸ hj))
    · rw [hcf₄]
      simp [BLACK, RED]
      omega
    · refine BhCtx_mono (fun j hj => ?_) hbctx
      exact hcol₄ j (fun h => hfctx (h ▸ hj)) (fun h => hgctx (h ▸ hj))
  -- final blackening
  have hdone := blackenRoot_spec z1 z2 z3 z4 hSok₄ hRed₄ hBh₄
    (plug_node_ne_leaf _ _ _ _ _ _)
  obtain ⟨U, d1, d2, d3, d4, d5, d6, d7, d8, d9, d10, d11, d12⟩ := hdone
  refine ⟨U, d1, d2, d3, d4, d5, d6, d7, d8, ?_, ?_, ?_, ?_⟩
  · rw [d9, hplugeq]
    exact entries_plug_congr
      (entries_rotate g.i f₁.i g.k f₁.k g.uid f₁.uid g.sib f₁.sib Z₁) rest'
  · rw [d10, z5, hlen₃]
  · rw [d11, z6, hs₃, hs₂]
    rfl
  · rw [d12, z7, hs₃, hs₂]
    rfl

theorem refill_ne_leaf (f : Frame K) (u : STree K) : refill f u ≠ .leaf := by
  unfold refill
  cases f.onLeft <;> intro h <;> cases h

theorem plug_rootIdx_mem (u : STree K) (f : Frame K) (rest : Ctx K)
    (h : rest ≠ []) : (plug u (f :: rest)).rootIdx ∈ ctxIdx rest := by
  induction rest generalizing u f with
  | nil => exact absurd rfl h
  | cons g rest' ih =>
    by_cases hre : rest' = []
    · subst hre
      rw [plug_cons]
      show (plug (refill f u) [g]).rootIdx ∈ _
      rw [show plug (refill f u) [g] = refill g (refill f u) from rfl,
        rootIdx_refill, ctxIdx_cons]
      simp
    · rw [plug_cons]
      exact mem_ctxIdx_cons_of_mem g (ih (refill f u) g hre)

set_option maxHeartbeats 4000000 in
/-- Case 1 of the insert fixup (red uncle): the parent and uncle are
recolored black, the grandparent red, and the loop invariant moves two
levels up.  Stated side-generically over the frames `f` and `g`. -/
theorem insertFixup_case1 {s : OSTree K} {Z : STree K} {f g : Frame K}
    {rest' : Ctx K}
    (hR : OSTree.ReprB s 0 (plug Z (f :: g :: rest')))
    (hroot : s.root = (plug Z (f :: g :: rest')).rootIdx)
    (hnd : (plug Z (f :: g :: rest')).idxList.Nodup)
    (hnil : OSTree.NilOk s)
    (hS : OSTree.SizeOk s (plug Z (f :: g :: rest')))
    (hzr : (s.nget Z.rootIdx).color = RED)
    (hfr : (s.nget f.i).color = RED)
    (hgb : (s.nget g.i).color = BLACK)
    (hyc : (s.nget g.sib.rootIdx).color = RED)
    (hRedZ : RedOk s Z)
    (hCtxA : RedCtxA s (f :: g :: rest'))
    (hBh : ∃ n, Bh s (plug Z (f :: g :: rest')) n) :
    let s₃ := ((s.nset f.i fun n => { n with color := BLACK }).nset
        g.sib.rootIdx fun n => { n with color := BLACK }).nset g.i
        fun n => { n with color := RED }
    let Z' := refill g (refill f Z)
    Z' ≠ .leaf ∧ Z'.rootIdx = g.i ∧
    OSTree.ReprB s₃ 0 (plug Z' rest') ∧
    s₃.root = (plug Z' rest').rootIdx ∧
    (plug Z' rest').idxList.Nodup ∧
    OSTree.NilOk s₃ ∧
    OSTree.SizeOk s₃ (plug Z' rest') ∧
    RedOk s₃ Z' ∧
    RedCtxA s₃ rest' ∧
    (∃ n, Bh s₃ (plug Z' rest') n) ∧
    (s₃.nget g.i).color = RED ∧
    (plug Z' rest').entries = (plug Z (f :: g :: rest')).entries ∧
    s₃.nodes.length = s.nodes.length ∧ s₃.size = s.size ∧
    s₃.nextUid = s.nextUid ∧ s₃.root = s.root ∧
    (rest' ≠ [] → (s.nget s.root).color = BLACK →
      (s₃.nget s₃.root).color = BLACK) := by
  intro s₃ Z'
  obtain ⟨hsibF, hcondF, hCtxRest⟩ := hCtxA
  obtain ⟨hsibG, hcondG, hCtxRest'⟩ := hCtxRest
  -- plug equality
  have hplugeq : plug Z (f :: g :: rest') = plug Z' rest' := by
    show plug Z (f :: g :: rest') = plug (refill g (refill f Z)) rest'
    rw [plug_cons, plug_cons]
  -- structural decomposition at the two innermost frames
  have hRint := hR
  rw [ReprB_plug_iff] at hRint
  obtain ⟨hc, hh, hu⟩ := hRint
  obtain ⟨⟨hf0, hflen, _, _, hfp, _⟩, hFsibR, hhG, hcG⟩ := hc
  obtain ⟨⟨hg0, hglen, _, _, hgp, _⟩, hGsibR, hhR', hcR'⟩ := hcG
  -- index distinctness
  have hndP := (idxList_plug_perm Z (f :: g :: rest')).nodup hnd
  rw [ctxIdx_cons, ctxIdx_cons] at hndP
  rcases List.nodup_append.mp hndP with ⟨hndZ, hndC, hdisjZC⟩
  rcases List.nodup_append.mp hndC with ⟨hndF, hndC2, hdisjF⟩
  rcases List.nodup_append.mp hndC2 with ⟨hndG, hndR, hdisjG⟩
  rcases List.nodup_cons.mp hndF with ⟨hfsib, hndFs⟩
  rcases List.nodup_cons.mp hndG with ⟨hgsib, hndGs⟩
  have hfZ : f.i ∉ Z.idxList := fun h => hdisjZC h (by simp)
  have hgZ : g.i ∉ Z.idxList := fun h => hdisjZC h (by simp)
  have hfg : f.i ≠ g.i := fun h =>
    hdisjF (show f.i ∈ f.i :: f.sib.idxList by simp) (by simp [h])
  have hgf : g.i ≠ f.i := Ne.symm hfg
  have hfGs : f.i ∉ g.sib.idxList := fun h =>
    hdisjF (show f.i ∈ f.i :: f.sib.idxList by simp) (by simp [h])
  have hgFs : g.i ∉ f.sib.idxList := fun h =>
    hdisjF (show g.i ∈ f.i :: f.sib.idxList by simp [h]) (by simp)
  have hfctx : f.i ∉ ctxIdx rest' := fun h =>
    hdisjF (show f.i ∈ f.i :: f.sib.idxList by simp) (by simp [h])
  have hgctx : g.i ∉ ctxIdx rest' := fun h =>
    hdisjG (show g.i ∈ g.i :: g.sib.idxList by simp) (by simp [h])
  have hGsZ : ∀ j ∈ g.sib.idxList, j ∉ Z.idxList := fun j hj h =>
    hdisjZC h (by simp [hj])
  have hGsFs : ∀ j ∈ g.sib.idxList, j ∉ f.sib.idxList := fun j hj h =>
    hdisjF (show j ∈ f.i :: f.sib.idxList by simp [h]) (by simp [hj])
  have hGsctx : ∀ j ∈ g.sib.idxList, j ∉ ctxIdx rest' := fun j hj h =>
    hdisjG (show j ∈ g.i :: g.sib.idxList by simp [hj]) (by simp [h])
  -- the uncle's arena index
  set y := g.sib.rootIdx with hy
  have hy0 : y ≠ 0 := by
    intro h
    rw [h] at hyc
    rw [hnil.2.2.1] at hyc
    cases hyc
  have hyGs : y ∈ g.sib.idxList := by
    rcases rootIdx_eq_zero_or_mem g.sib with h | h
    · exact absurd h hy0
    · exact h
  have hylen : y < s.nodes.length := (ReprB_idx_facts hGsibR y hyGs).2
  have hyf : y ≠ f.i := fun h => hfGs (h ▸ hyGs)
  have hyg : y ≠ g.i := fun h => hgsib (h ▸ hyGs)
  have hyZ : y ∉ Z.idxList := fun h => hGsZ y hyGs h
  have hyFs : y ∉ f.sib.idxList := hGsFs y hyGs
  have hyctx : y ∉ ctxIdx rest' := hGsctx y hyGs
  -- characterize the recolored state
  have hng₃ : ∀ j, s₃.nget j =
      if j = g.i then { s.nget g.i with color := RED }
      else if j = y then { s.nget y with color := BLACK }
      else if j = f.i then { s.nget f.i with color := BLACK }
      else s.nget j := by
    intro j
    show (((s.nset f.i _).nset y _).nset g.i _).nget j = _
    rw [OSTree.nget_nset]
    by_cases hjg : j = g.i
    · rw [if_pos ⟨hjg, by simpa using hglen⟩, if_pos hjg]
      have h1 : (s.nset f.i fun n => { n with color := BLACK }).nget g.i =
          s.nget g.i := by
        rw [OSTree.nget_nset, if_neg (by tauto)]
      have h2 : ((s.nset f.i fun n => { n with color := BLACK }).nset y
          fun n => { n with color := BLACK }).nget g.i = s.nget g.i := by
        rw [OSTree.nget_nset, if_neg (by tauto), h1]
      rw [h2]
    · rw [if_neg (by tauto), if_neg hjg, OSTree.nget_nset]
      by_cases hjy : j = y
      · rw [if_pos ⟨hjy, by simpa using hylen⟩, if_pos hjy]
        have h1 : (s.nset f.i fun n => { n with color := BLACK }).nget y =
            s.nget y := by
          rw [OSTree.nget_nset, if_neg (by tauto)]
        rw [h1]
      · rw [if_neg (by tauto), if_neg hjy, OSTree.nget_nset]
        by_cases hjf : j = f.i
        · rw [if_pos ⟨hjf, hflen⟩, if_pos hjf]
        · rw [if_neg (by tauto), if_neg hjf]
  have hfields₃ : ∀ j, eqFields (s₃.nget j) (s.nget j) := by
    intro j
    rw [hng₃ j]
    by_cases h1 : j = g.i
    · rw [if_pos h1]; subst h1; exact ⟨rfl, rfl, rfl, rfl, rfl⟩
    rw [if_neg h1]
    by_cases h2 : j = y
    · rw [if_pos h2]; subst h2; exact ⟨rfl, rfl, rfl, rfl, rfl⟩
    rw [if_neg h2]
    by_cases h3 : j = f.i
    · rw [if_pos h3]; subst h3; exact ⟨rfl, rfl, rfl, rfl, rfl⟩
    · rw [if_neg h3]; exact eqFields_refl _
  have hsizes₃ : ∀ j, (s₃.nget j).size = (s.nget j).size := by
    intro j
    rw [hng₃ j]
    by_cases h1 : j = g.i
    · rw [if_pos h1]; subst h1; rfl
    rw [if_neg h1]
    by_cases h2 : j = y
    · rw [if_pos h2]; subst h2; rfl
    rw [if_neg h2]
    by_cases h3 : j = f.i
    · rw [if_pos h3]; subst h3; rfl
    · rw [if_neg h3]
  have hcol₃ : ∀ j, j ≠ g.i → j ≠ y → j ≠ f.i →
      (s₃.nget j).color = (s.nget j).color := by
    intro j h1 h2 h3
    rw [hng₃ j, if_neg h1, if_neg h2, if_neg h3]
  have hcg₃ : (s₃.nget g.i).color = RED := by
    rw [hng₃, if_pos rfl]
  have hcy₃ : (s₃.nget y).color = BLACK := by
    rw [hng₃, if_neg hyg, if_pos rfl]
  have hcf₃ : (s₃.nget f.i).color = BLACK := by
    rw [hng₃, if_neg hfg, if_neg (Ne.symm hyf), if_pos rfl]
  have hlen₃ : s₃.nodes.length = s.nodes.length := by
    show (((s.nset _ _).nset _ _).nset _ _).nodes.length = _
    simp
  -- conclusions
  have hZ'ne : Z' ≠ .leaf := refill_ne_leaf g (refill f Z)
  have hZ'root : Z'.rootIdx = g.i := rootIdx_refill g (refill f Z)
  have hmemZ' : ∀ j, j ∈ Z'.idxList ↔
      (j = g.i ∨ (j = f.i ∨ j ∈ Z.idxList ∨ j ∈ f.sib.idxList) ∨
        j ∈ g.sib.idxList) := by
    intro j
    show j ∈ (refill g (refill f Z)).idxList ↔ _
    rw [mem_idxList_refill, mem_idxList_refill]
  have hsz₃eq : s₃.size = s.size := rfl
  have hnu₃eq : s₃.nextUid = s.nextUid := rfl
  have hroot₃eq : s₃.root = s.root := rfl
  refine ⟨hZ'ne, hZ'root, ?_, ?_, ?_, ?_, ?_, ?_, ?_, ?_, hcg₃, ?_, hlen₃,
    hsz₃eq, hnu₃eq, hroot₃eq, ?_⟩
  · exact ReprB_mono_of_fields (le_of_eq hlen₃.symm) (fun j _ => hfields₃ j)
      (hplugeq ▸ hR)
  · rw [hroot₃eq, hroot, hplugeq]
  · rw [← hplugeq]
    exact hnd
  · refine NilOk_of_agree ?_ hnil
    rw [hng₃, if_neg (Ne.symm hg0), if_neg (Ne.symm hy0),
      if_neg (Ne.symm hf0)]
  · refine OSTree.SizeOk_mono_of_agree (fun j _ => hsizes₃ j) (hplugeq ▸ hS)
  · -- red invariant of the moved subtree
    rw [RedOk_refill]
    refine ⟨?_, ?_, ?_⟩
    · intro _
      rw [rootIdx_refill]
      exact ⟨hcf₃, hcy₃⟩
    · rw [RedOk_refill]
      refine ⟨?_, ?_, ?_⟩
      · intro hred
        rw [hcf₃] at hred
        cases hred
      · refine RedOk_mono (fun j hj => ?_) hRedZ
        rcases hj with rfl | hj
        · rw [hcol₃ 0 (Ne.symm hg0) (Ne.symm hy0) (Ne.symm hf0)]
        · exact hcol₃ j (fun h => hgZ (h ▸ hj)) (fun h => hyZ (h ▸ hj))
            (fun h => hfZ (h ▸ hj))
      · refine RedOk_mono (fun j hj => ?_) hsibF
        rcases hj with rfl | hj
        · rw [hcol₃ 0 (Ne.symm hg0) (Ne.symm hy0) (Ne.symm hf0)]
        · exact hcol₃ j (fun h => hgFs (h ▸ hj)) (fun h => hyFs (h ▸ hj))
            (fun h => hfsib (h ▸ hj))
    · refine RedOk_blacken (fun j hj => ?_) hsibG
      by_cases hjy : j = y
      · exact Or.inr (hjy ▸ hcy₃)
      by_cases hjf : j = f.i
      · exact Or.inr (hjf ▸ hcf₃)
      · have hjg : j ≠ g.i := by
          rcases hj with rfl | hj
          · exact Ne.symm hg0
          · exact fun h => hgsib (h ▸ hj)
        exact Or.inl (hcol₃ j hjg hjy hjf)
  · -- red invariant of the remaining context
    refine RedCtxA_mono (fun j hj => ?_) (RedCtx_toA hCtxRest')
    rcases hj with rfl | hj
    · rw [hcol₃ 0 (Ne.symm hg0) (Ne.symm hy0) (Ne.symm hf0)]
    · exact hcol₃ j (fun h => hgctx (h ▸ hj)) (fun h => hyctx (h ▸ hj))
        (fun h => hfctx (h ▸ hj))
  · -- black height
    obtain ⟨n, hbh⟩ := hBh
    rw [Bh_plug_iff] at hbh
    obtain ⟨m, hbZ, hbc⟩ := hbh
    obtain ⟨hbFs, hbc⟩ := hbc
    rw [hfr] at hbc
    simp only [RED, BLACK, Bool.true_eq_false, if_false, Nat.add_zero] at hbc
    obtain ⟨hbGs, hbc⟩ := hbc
    rw [hgb] at hbc
    simp only [BLACK, if_true] at hbc
    refine ⟨n, ?_⟩
    rw [Bh_plug_iff]
    refine ⟨m + 1, ?_, ?_⟩
    · rw [Bh_refill]
      refine ⟨m + 1, ?_, ?_, ?_⟩
      · rw [Bh_refill]
        refine ⟨m, ?_, ?_, ?_⟩
        · refine Bh_mono (fun j hj => ?_) hbZ
          exact hcol₃ j (fun h => hgZ (h ▸ hj)) (fun h => hyZ (h ▸ hj))
            (fun h => hfZ (h ▸ hj))
        · refine Bh_mono (fun j hj => ?_) hbFs
          exact hcol₃ j (fun h => hgFs (h ▸ hj)) (fun h => hyFs (h ▸ hj))
            (fun h => hfsib (h ▸ hj))
        · rw [hcf₃]
          simp [BLACK]
      · -- the uncle subtree gains one black at its root
        cases hGt : g.sib with
        | leaf =>
          exfalso
          rw [hGt] at hy
          exact hy0 hy
        | node yy yk yu gl gr =>
          have hyeq : y = yy := by rw [hy, hGt]; rfl
          rw [hGt] at hbGs
          obtain ⟨mm, hbl, hbr, hmm⟩ := hbGs
          rw [← hyeq] at hmm ⊢
          rw [hyc] at hmm
          simp only [RED, BLACK, Bool.true_eq_false, if_false,
            Nat.add_zero] at hmm
          subst hmm
          rw [hGt] at hndGs
          have hymem : (yy ∉ gl.idxList ∧ yy ∉ gr.idxList) ∧
              (gl.idxList ++ gr.idxList).Nodup := by
            simpa [STree.idxList] using hndGs
          refine ⟨m, ?_, ?_, ?_⟩
          · refine Bh_mono (fun j hj => ?_) hbl
            have hjGs : j ∈ g.sib.idxList := by
              rw [hGt]
              simp [STree.idxList, ← hyeq, hj]
            exact hcol₃ j (fun h => hgsib (h ▸ hjGs))
              (fun h => hymem.1.1 ((h.trans hyeq) ▸ hj)) (fun h => hfGs (h ▸ hjGs))
          · refine Bh_mono (fun j hj => ?_) hbr
            have hjGs : j ∈ g.sib.idxList := by
              rw [hGt]
              simp [STree.idxList, ← hyeq, hj]
            exact hcol₃ j (fun h => hgsib (h ▸ hjGs))
              (fun h => hymem.1.2 ((h.trans hyeq) ▸ hj)) (fun h => hfGs (h ▸ hjGs))
          · rw [hcy₃]
            simp [BLACK]
      · rw [hcg₃]
        simp [RED, BLACK]
    · refine BhCtx_mono (fun j hj => ?_) hbc
      exact hcol₃ j (fun h => hgctx (h ▸ hj)) (fun h => hyctx (h ▸ hj))
        (fun h => hfctx (h ▸ hj))
  · rw [hplugeq]
  · intro hne hblack
    have hrootne : s.root ≠ g.i ∧ s.root ≠ y ∧ s.root ≠ f.i := by
      have hmem : (plug Z (f :: g :: rest')).rootIdx ∈ ctxIdx rest' := by
        rw [plug_cons]
        exact plug_rootIdx_mem (refill f Z) g rest' hne
      rw [hroot]
      exact ⟨fun h => hgctx (h ▸ hmem), fun h => hyctx (h ▸ hmem),
        fun h => hfctx (h ▸ hmem)⟩
    rw [hroot₃eq, hcol₃ s.root hrootne.1 hrootne.2.1 hrootne.2.2]
    exact hblack

set_option maxHeartbeats 4000000 in
/-- Case 2 of the insert fixup, left side: `z` is the right child of
its parent, so the parent is first rotated left, reducing to case 3. -/
theorem insertFixup_innerL {s : OSTree K} {z : Nat} {zk : K} {zu : Int}
    {Zl Zr : STree K} {f g : Frame K} {rest' : Ctx K}
    (hfo : f.onLeft = false) (hgo : g.onLeft = true)
    (hR : OSTree.ReprB s 0 (plug (.node z zk zu Zl Zr) (f :: g :: rest')))
    (hroot : s.root = (plug (.node z zk zu Zl Zr) (f :: g :: rest')).rootIdx)
    (hnd : (plug (.node z zk zu Zl Zr) (f :: g :: rest')).idxList.Nodup)
    (hnil : OSTree.NilOk s)
    (hS : OSTree.SizeOk s (plug (.node z zk zu Zl Zr) (f :: g :: rest')))
    (hzred : (s.nget z).color = RED)
    (hfr : (s.nget f.i).color = RED)
    (hgb : (s.nget g.i).color = BLACK)
    (hyb : (s.nget g.sib.rootIdx).color = BLACK)
    (hRedZ : RedOk s (.node z zk zu Zl Zr))
    (hCtxA : RedCtxA s (f :: g :: rest'))
    (hBh : ∃ n, Bh s (plug (.node z zk zu Zl Zr) (f :: g :: rest')) n) :
    ∀ fuel,
      FixDone s
        (OSTree.insertFixup
          (OSTree.rotateRight
            ((((OSTree.rotateLeft s f.i).nset
                  (((OSTree.rotateLeft s f.i).nget f.i).parent)
                  fun n => { n with color := BLACK }).nset
                (((OSTree.rotateLeft s f.i).nget
                  (((OSTree.rotateLeft s f.i).nget f.i).parent)).parent)
                fun n => { n with color := RED }))
            (((OSTree.rotateLeft s f.i).nget
              (((OSTree.rotateLeft s f.i).nget f.i).parent)).parent))
          fuel f.i)
        ((plug (.node z zk zu Zl Zr) (f :: g :: rest')).entries) := by
  intro fuel
  obtain ⟨hsibF, hcondF, hCtxRest⟩ := hCtxA
  obtain ⟨hsibG, hcondG, hCtxRest'⟩ := hCtxRest
  have hzc := hRedZ.1 hzred
  obtain ⟨_, hZlR, hZrR⟩ := hRedZ
  -- re-anchor the tree at the subtree rooted in `f`
  have hpe : plug (STree.node z zk zu Zl Zr) (f :: g :: rest') =
      plug (STree.node f.i f.k f.uid f.sib (STree.node z zk zu Zl Zr))
        (g :: rest') := by
    rw [plug_cons]
    have h1 : refill f (STree.node z zk zu Zl Zr) =
        STree.node f.i f.k f.uid f.sib (STree.node z zk zu Zl Zr) := by
      simp [refill, hfo]
    rw [h1]
  rw [hpe] at hR hroot hnd hS hBh
  -- the inner left rotation
  have hzip := @rotateLeft_zip K _ s (g :: rest') f.i z f.k zk f.uid zu
    f.sib Zl Zr hR hroot hnd hnil
  obtain ⟨z1, z2, z3, z4, z5, z6, z7, z8, z9, z10, z11, z12, z13⟩ := hzip
  set s₁ := OSTree.rotateLeft s f.i with hs₁
  -- the parent pointers of the rotated state, to fold the raw goal
  have hpdec := z1
  rw [ReprB_plug_iff] at hpdec
  obtain ⟨_, _, hu₄⟩ := hpdec
  have hp2 : (s₁.nget z).parent = g.i := hu₄.2.2.2.2.1
  have hp1 : (s₁.nget f.i).parent = z := hu₄.2.2.2.2.2.2.2.1.2.2.2.2.1
  rw [hp1, hp2]
  -- names for the normalized shape
  set f₁ : Frame K := ⟨true, z, zk, zu, Zr⟩ with hf₁
  set Z₁ : STree K := STree.node f.i f.k f.uid f.sib Zl with hZ₁
  have hpe₂ : plug Z₁ (f₁ :: g :: rest') =
      plug (STree.node z zk zu Z₁ Zr) (g :: rest') := by
    rw [plug_cons]
    have h1 : refill f₁ Z₁ = STree.node z zk zu Z₁ Zr := by
      simp [refill, hf₁]
    rw [h1]
  -- original index facts
  have hRdec := hR
  rw [ReprB_plug_iff] at hRdec
  obtain ⟨hc, hh, hu⟩ := hRdec
  obtain ⟨hf0, hflen, _, _, _, _, _, hFsibR, hZR⟩ := hu
  obtain ⟨hz0, hzlen, _, _, _, _, _, hZlrep, hZrrep⟩ := hZR
  have hndP := (idxList_plug_perm _ (g :: rest')).nodup hnd
  simp only [STree.idxList] at hndP
  rcases List.nodup_append.mp hndP with ⟨hndU, hndCtx, hdisjU⟩
  rcases List.nodup_cons.mp hndU with ⟨hfmem, hndU2⟩
  rcases List.nodup_append.mp hndU2 with ⟨hndFs, hndZn, hdisjFsZ⟩
  rcases List.nodup_cons.mp (by
    simpa using hndZn : (z :: (Zl.idxList ++ Zr.idxList)).Nodup) with
    ⟨hzmem, hndZlr⟩
  rw [ctxIdx_cons] at hdisjU
  have hfz : f.i ≠ z := fun h => hfmem (by simp [h])
  have hfZl : f.i ∉ Zl.idxList := fun h => hfmem (by simp [h])
  have hfZr : f.i ∉ Zr.idxList := fun h => hfmem (by simp [h])
  have hfFs : f.i ∉ f.sib.idxList := fun h => hfmem (by simp [h])
  have hzZl : z ∉ Zl.idxList := fun h => hzmem (by simp [h])
  have hzZr : z ∉ Zr.idxList := fun h => hzmem (by simp [h])
  have hzFs : z ∉ f.sib.idxList := fun h =>
    hdisjFsZ h (by simp)
  have hfg : f.i ≠ g.i := fun h =>
    hdisjU (show f.i ∈ _ by simp) (by simp [h])
  have hzg : z ≠ g.i := fun h =>
    hdisjU (show z ∈ _ by simp) (by simp [h])
  have hfGs : f.i ∉ g.sib.idxList := fun h =>
    hdisjU (show f.i ∈ _ by simp) (by simp [h])
  have hzGs : z ∉ g.sib.idxList := fun h =>
    hdisjU (show z ∈ _ by simp) (by simp [h])
  have hfctx : f.i ∉ ctxIdx rest' := fun h =>
    hdisjU (show f.i ∈ _ by simp) (by simp [h])
  have hzctx : z ∉ ctxIdx rest' := fun h =>
    hdisjU (show z ∈ _ by simp) (by simp [h])
  have hg0 : g.i ≠ 0 := hc.1.1
  -- colors in the rotated state
  have hcol₁ : ∀ j, (s₁.nget j).color = (s.nget j).color := z8
  -- sizes of the original pieces
  rw [SizeOk_plug_iff] at hS
  obtain ⟨hSu, hSctx⟩ := hS
  obtain ⟨hfsz, hSfs, hSZn⟩ := hSu
  obtain ⟨hzsz, hSZl, hSZr⟩ := hSZn
  have hFsrsz : (s.nget f.sib.rootIdx).size = f.sib.count :=
    root_size_eq hSfs hnil
  have hZlrsz : (s.nget Zl.rootIdx).size = Zl.count :=
    root_size_eq hSZl hnil
  have hZrrsz : (s.nget Zr.rootIdx).size = Zr.count :=
    root_size_eq hSZr hnil
  -- invariants of the rotated state
  have hR₁ : OSTree.ReprB s₁ 0 (plug Z₁ (f₁ :: g :: rest')) := by
    rw [hpe₂]
    exact z1
  have hroot₁ : s₁.root = (plug Z₁ (f₁ :: g :: rest')).rootIdx := by
    rw [hpe₂]
    exact z2
  have hnd₁ : (plug Z₁ (f₁ :: g :: rest')).idxList.Nodup := by
    rw [hpe₂]
    exact z3
  have hS₁ : OSTree.SizeOk s₁ (plug Z₁ (f₁ :: g :: rest')) := by
    rw [hpe₂, SizeOk_plug_iff]
    constructor
    · refine ⟨?_, ⟨?_, ?_, ?_⟩, ?_⟩
      · show (s₁.nget z).size = (f.sib.count + Zl.count + 1) + Zr.count + 1
        rw [z12, hFsrsz, hZlrsz, hZrrsz]
      · show (s₁.nget f.i).size = f.sib.count + Zl.count + 1
        rw [z11, hFsrsz, hZlrsz]
      · refine OSTree.SizeOk_mono_of_agree (fun j hj => ?_) hSfs
        exact z13 j (fun h => hfFs (h ▸ hj)) (fun h => hzFs (h ▸ hj))
      · refine OSTree.SizeOk_mono_of_agree (fun j hj => ?_) hSZl
        exact z13 j (fun h => hfZl (h ▸ hj)) (fun h => hzZl (h ▸ hj))
      · refine OSTree.SizeOk_mono_of_agree (fun j hj => ?_) hSZr
        exact z13 j (fun h => hfZr (h ▸ hj)) (fun h => hzZr (h ▸ hj))
    · have hcnt : (STree.node z zk zu Z₁ Zr).count =
          (STree.node f.i f.k f.uid f.sib
            (STree.node z zk zu Zl Zr)).count := by
        show Z₁.count + Zr.count + 1 =
          f.sib.count + (Zl.count + Zr.count + 1) + 1
        rw [hZ₁]
        show f.sib.count + Zl.count + 1 + Zr.count + 1 = _
        omega
      rw [hcnt]
      refine SizeCtx_mono (fun j hj => ?_) hSctx
      have hjc : j ∈ ctxIdx (g :: rest') := hj
      rw [ctxIdx_cons] at hjc
      rcases List.mem_append.mp hjc with hjc | hjc
      · rcases List.mem_cons.mp hjc with rfl | hjc
        · exact z13 g.i (Ne.symm hfg) (Ne.symm hzg)
        · exact z13 j (fun h => hfGs (h ▸ hjc)) (fun h => hzGs (h ▸ hjc))
      · exact z13 j (fun h => hfctx (h ▸ hjc)) (fun h => hzctx (h ▸ hjc))
  have hBh₁ : ∃ n, Bh s₁ (plug Z₁ (f₁ :: g :: rest')) n := by
    obtain ⟨n, hbh⟩ := hBh
    rw [Bh_plug_iff] at hbh
    obtain ⟨m₁, hbu, hbctx⟩ := hbh
    obtain ⟨m, hbFs, hbZn, hm₁⟩ := hbu
    obtain ⟨mz, hbZl, hbZr, hmz⟩ := hbZn
    rw [hfr] at hm₁
    rw [hzred] at hmz
    simp only [RED, BLACK, Bool.true_eq_false, if_false, Nat.add_zero]
      at hm₁ hmz
    subst hm₁
    subst hmz
    refine ⟨n, ?_⟩
    rw [hpe₂, Bh_plug_iff]
    refine ⟨m₁, ⟨m₁, ⟨m₁, ?_, ?_, ?_⟩, ?_, ?_⟩, ?_⟩
    · exact Bh_mono (fun j hj => hcol₁ j) hbFs
    · exact Bh_mono (fun j hj => hcol₁ j) hbZl
    · rw [hcol₁, hfr]
      simp [RED, BLACK]
    · exact Bh_mono (fun j hj => hcol₁ j) hbZr
    · rw [hcol₁, hzred]
      simp [RED, BLACK]
    · exact BhCtx_mono (fun j hj => hcol₁ j) hbctx
  -- apply the case 3 step
  have hmain := @insertFixup_case3L K _ s₁ Z₁ f₁ g
    rest' rfl hgo hR₁ hroot₁ hnd₁ z4 hS₁
    (by show (s₁.nget f.i).color = RED; rw [hcol₁]; exact hfr)
    (by show (s₁.nget z).color = RED; rw [hcol₁]; exact hzred)
    (by rw [hcol₁]; exact hgb)
    (by rw [hcol₁]; exact hyb)
    (by show (s₁.nget Zr.rootIdx).color = BLACK; rw [hcol₁]; exact hzc.2)
    (by
      refine ⟨?_, ?_, ?_⟩
      · intro hred
        rw [hcol₁, hfr] at hred  
        exact ⟨by rw [hcol₁]; exact hcondF hfr, by rw [hcol₁]; exact hzc.1⟩
      · exact RedOk_mono (fun j _ => hcol₁ j) hsibF
      · exact RedOk_mono (fun j _ => hcol₁ j) hZlR)
    (by show RedOk s₁ Zr; exact RedOk_mono (fun j _ => hcol₁ j) hZrR)
    (RedOk_mono (fun j _ => hcol₁ j) hsibG)
    (RedCtx_mono (fun j _ => hcol₁ j) hCtxRest')
    hBh₁ fuel
  obtain ⟨U, d1, d2, d3, d4, d5, d6, d7, d8, d9, d10, d11, d12⟩ := hmain
  refine ⟨U, d1, d2, d3, d4, d5, d6, d7, d8, ?_, d10.trans z5, d11.trans z6,
    d12.trans z7⟩
  rw [d9, hpe₂, hpe]
  refine entries_plug_congr ?_ (g :: rest')
  show (STree.node z zk zu Z₁ Zr).entries =
    (STree.node f.i f.k f.uid f.sib (STree.node z zk zu Zl Zr)).entries
  rw [hZ₁]
  exact entries_rotate f.i z f.k zk f.uid zu f.sib Zl Zr

set_option maxHeartbeats 4000000 in
/-- Case 2 of the insert fixup, right side: `z` is the left child of
its parent, so the parent is first rotated right, reducing to case 3. -/
theorem insertFixup_innerR {s : OSTree K} {z : Nat} {zk : K} {zu : Int}
    {Zl Zr : STree K} {f g : Frame K} {rest' : Ctx K}
    (hfo : f.onLeft = true) (hgo : g.onLeft = false)
    (hR : OSTree.ReprB s 0 (plug (.node z zk zu Zl Zr) (f :: g :: rest')))
    (hroot : s.root = (plug (.node z zk zu Zl Zr) (f :: g :: rest')).rootIdx)
    (hnd : (plug (.node z zk zu Zl Zr) (f :: g :: rest')).idxList.Nodup)
    (hnil : OSTree.NilOk s)
    (hS : OSTree.SizeOk s (plug (.node z zk zu Zl Zr) (f :: g :: rest')))
    (hzred : (s.nget z).color = RED)
    (hfr : (s.nget f.i).color = RED)
    (hgb : (s.nget g.i).color = BLACK)
    (hyb : (s.nget g.sib.rootIdx).color = BLACK)
    (hRedZ : RedOk s (.node z zk zu Zl Zr))
    (hCtxA : RedCtxA s (f :: g :: rest'))
    (hBh : ∃ n, Bh s (plug (.node z zk zu Zl Zr) (f :: g :: rest')) n) :
    ∀ fuel,
      FixDone s
        (OSTree.insertFixup
          (OSTree.rotateLeft
            ((((OSTree.rotateRight s f.i).nset
                  (((OSTree.rotateRight s f.i).nget f.i).parent)
                  fun n => { n with color := BLACK }).nset
                (((OSTree.rotateRight s f.i).nget
                  (((OSTree.rotateRight s f.i).nget f.i).parent)).parent)
                fun n => { n with color := RED }))
            (((OSTree.rotateRight s f.i).nget
              (((OSTree.rotateRight s f.i).nget f.i).parent)).parent))
          fuel f.i)
        ((plug (.node z zk zu Zl Zr) (f :: g :: rest')).entries) := by
  intro fuel
  obtain ⟨hsibF, hcondF, hCtxRest⟩ := hCtxA
  obtain ⟨hsibG, hcondG, hCtxRest'⟩ := hCtxRest
  have hzc := hRedZ.1 hzred
  obtain ⟨_, hZlR, hZrR⟩ := hRedZ
  -- re-anchor the tree at the subtree rooted in `f`
  have hpe : plug (STree.node z zk zu Zl Zr) (f :: g :: rest') =
      plug (STree.node f.i f.k f.uid (STree.node z zk zu Zl Zr) f.sib)
        (g :: rest') := by
    rw [plug_cons]
    have h1 : refill f (STree.node z zk zu Zl Zr) =
        STree.node f.i f.k f.uid (STree.node z zk zu Zl Zr) f.sib := by
      simp [refill, hfo]
    rw [h1]
  rw [hpe] at hR hroot hnd hS hBh
  -- the inner right rotation
  have hzip := @rotateRight_zip K _ s (g :: rest') z f.i zk f.k zu f.uid
    Zl Zr f.sib hR hroot hnd hnil
  obtain ⟨z1, z2, z3, z4, z5, z6, z7, z8, z9, z10, z11, z12, z13⟩ := hzip
  set s₁ := OSTree.rotateRight s f.i with hs₁
  -- the parent pointers of the rotated state, to fold the raw goal
  have hpdec := z1
  rw [ReprB_plug_iff] at hpdec
  obtain ⟨_, _, hu₄⟩ := hpdec
  have hp2 : (s₁.nget z).parent = g.i := hu₄.2.2.2.2.1
  have hp1 : (s₁.nget f.i).parent = z := hu₄.2.2.2.2.2.2.2.2.2.2.2.2.1
  rw [hp1, hp2]
  -- names for the normalized shape
  set f₁ : Frame K := ⟨false, z, zk, zu, Zl⟩ with hf₁
  set Z₁ : STree K := STree.node f.i f.k f.uid Zr f.sib with hZ₁
  have hpe₂ : plug Z₁ (f₁ :: g :: rest') =
      plug (STree.node z zk zu Zl Z₁) (g :: rest') := by
    rw [plug_cons]
    have h1 : refill f₁ Z₁ = STree.node z zk zu Zl Z₁ := by
      simp [refill, hf₁]
    rw [h1]
  -- original index facts
  have hRdec := hR
  rw [ReprB_plug_iff] at hRdec
  obtain ⟨hc, hh, hu⟩ := hRdec
  obtain ⟨hf0, hflen, _, _, _, _, _, hZR, hFsibR⟩ := hu
  obtain ⟨hz0, hzlen, _, _, _, _, _, hZlrep, hZrrep⟩ := hZR
  have hndP := (idxList_plug_perm _ (g :: rest')).nodup hnd
  simp only [STree.idxList] at hndP
  rcases List.nodup_append.mp hndP with ⟨hndU, hndCtx, hdisjU⟩
  rcases List.nodup_cons.mp hndU with ⟨hfmem, hndU2⟩
  rcases List.nodup_append.mp hndU2 with ⟨hndZn, hndFs, hdisjZFs⟩
  rcases List.nodup_cons.mp (by
    simpa using hndZn : (z :: (Zl.idxList ++ Zr.idxList)).Nodup) with
    ⟨hzmem, hndZlr⟩
  rw [ctxIdx_cons] at hdisjU
  have hfz : f.i ≠ z := fun h => hfmem (by simp [h])
  have hfZl : f.i ∉ Zl.idxList := fun h => hfmem (by simp [h])
  have hfZr : f.i ∉ Zr.idxList := fun h => hfmem (by simp [h])
  have hfFs : f.i ∉ f.sib.idxList := fun h => hfmem (by simp [h])
  have hzZl : z ∉ Zl.idxList := fun h => hzmem (by simp [h])
  have hzZr : z ∉ Zr.idxList := fun h => hzmem (by simp [h])
  have hzFs : z ∉ f.sib.idxList := fun h =>
    hdisjZFs (show z ∈ _ by simp) h
  have hfg : f.i ≠ g.i := fun h =>
    hdisjU (show f.i ∈ _ by simp) (by simp [h])
  have hzg : z ≠ g.i := fun h =>
    hdisjU (show z ∈ _ by simp) (by simp [h])
  have hfGs : f.i ∉ g.sib.idxList := fun h =>
    hdisjU (show f.i ∈ _ by simp) (by simp [h])
  have hzGs : z ∉ g.sib.idxList := fun h =>
    hdisjU (show z ∈ _ by simp) (by simp [h])
  have hfctx : f.i ∉ ctxIdx rest' := fun h =>
    hdisjU (show f.i ∈ _ by simp) (by simp [h])
  have hzctx : z ∉ ctxIdx rest' := fun h =>
    hdisjU (show z ∈ _ by simp) (by simp [h])
  have hg0 : g.i ≠ 0 := hc.1.1
  -- colors in the rotated state
  have hcol₁ : ∀ j, (s₁.nget j).color = (s.nget j).color := z8
  -- sizes of the original pieces
  rw [SizeOk_plug_iff] at hS
  obtain ⟨hSu, hSctx⟩ := hS
  obtain ⟨hfsz, hSZn, hSfs⟩ := hSu
  obtain ⟨hzsz, hSZl, hSZr⟩ := hSZn
  have hFsrsz : (s.nget f.sib.rootIdx).size = f.sib.count :=
    root_size_eq hSfs hnil
  have hZlrsz : (s.nget Zl.rootIdx).size = Zl.count :=
    root_size_eq hSZl hnil
  have hZrrsz : (s.nget Zr.rootIdx).size = Zr.count :=
    root_size_eq hSZr hnil
  -- invariants of the rotated state
  have hR₁ : OSTree.ReprB s₁ 0 (plug Z₁ (f₁ :: g :: rest')) := by
    rw [hpe₂]
    exact z1
  have hroot₁ : s₁.root = (plug Z₁ (f₁ :: g :: rest')).rootIdx := by
    rw [hpe₂]
    exact z2
  have hnd₁ : (plug Z₁ (f₁ :: g :: rest')).idxList.Nodup := by
    rw [hpe₂]
    exact z3
  have hS₁ : OSTree.SizeOk s₁ (plug Z₁ (f₁ :: g :: rest')) := by
    rw [hpe₂, SizeOk_plug_iff]
    constructor
    · refine ⟨?_, ?_, ⟨?_, ?_, ?_⟩⟩
      · show (s₁.nget z).size = Zl.count + (Zr.count + f.sib.count + 1) + 1
        rw [z12, hFsrsz, hZlrsz, hZrrsz]
      · refine OSTree.SizeOk_mono_of_agree (fun j hj => ?_) hSZl
        exact z13 j (fun h => hzZl (h ▸ hj)) (fun h => hfZl (h ▸ hj))
      · show (s₁.nget f.i).size = Zr.count + f.sib.count + 1
        rw [z11, hFsrsz, hZrrsz]
      · refine OSTree.SizeOk_mono_of_agree (fun j hj => ?_) hSZr
        exact z13 j (fun h => hzZr (h ▸ hj)) (fun h => hfZr (h ▸ hj))
      · refine OSTree.SizeOk_mono_of_agree (fun j hj => ?_) hSfs
        exact z13 j (fun h => hzFs (h ▸ hj)) (fun h => hfFs (h ▸ hj))
    · have hcnt : (STree.node z zk zu Zl Z₁).count =
          (STree.node f.i f.k f.uid
            (STree.node z zk zu Zl Zr) f.sib).count := by
        show Zl.count + Z₁.count + 1 =
          (Zl.count + Zr.count + 1) + f.sib.count + 1
        rw [hZ₁]
        show Zl.count + (Zr.count + f.sib.count + 1) + 1 = _
        omega
      rw [hcnt]
      refine SizeCtx_mono (fun j hj => ?_) hSctx
      have hjc : j ∈ ctxIdx (g :: rest') := hj
      rw [ctxIdx_cons] at hjc
      rcases List.mem_append.mp hjc with hjc | hjc
      · rcases List.mem_cons.mp hjc with rfl | hjc
        · exact z13 g.i (Ne.symm hzg) (Ne.symm hfg)
        · exact z13 j (fun h => hzGs (h ▸ hjc)) (fun h => hfGs (h ▸ hjc))
      · exact z13 j (fun h => hzctx (h ▸ hjc)) (fun h => hfctx (h ▸ hjc))
  have hBh₁ : ∃ n, Bh s₁ (plug Z₁ (f₁ :: g :: rest')) n := by
    obtain ⟨n, hbh⟩ := hBh
    rw [Bh_plug_iff] at hbh
    obtain ⟨m₁, hbu, hbctx⟩ := hbh
    obtain ⟨m, hbZn, hbFs, hm₁⟩ := hbu
    obtain ⟨mz, hbZl, hbZr, hmz⟩ := hbZn
    rw [hfr] at hm₁
    rw [hzred] at hmz
    simp only [RED, BLACK, Bool.true_eq_false, if_false, Nat.add_zero]
      at hm₁ hmz
    subst hm₁
    subst hmz
    refine ⟨n, ?_⟩
    rw [hpe₂, Bh_plug_iff]
    refine ⟨m₁, ⟨m₁, ?_, ⟨m₁, ?_, ?_, ?_⟩, ?_⟩, ?_⟩
    · exact Bh_mono (fun j hj => hcol₁ j) hbZl
    · exact Bh_mono (fun j hj => hcol₁ j) hbZr
    · exact Bh_mono (fun j hj => hcol₁ j) hbFs
    · rw [hcol₁, hfr]
      simp [RED, BLACK]
    · rw [hcol₁, hzred]
      simp [RED, BLACK]
    · exact BhCtx_mono (fun j hj => hcol₁ j) hbctx
  -- apply the case 3 step
  have hmain := @insertFixup_case3R K _ s₁ Z₁ f₁ g
    rest' rfl hgo hR₁ hroot₁ hnd₁ z4 hS₁
    (by show (s₁.nget f.i).color = RED; rw [hcol₁]; exact hfr)
    (by show (s₁.nget z).color = RED; rw [hcol₁]; exact hzred)
    (by rw [hcol₁]; exact hgb)
    (by rw [hcol₁]; exact hyb)
    (by show (s₁.nget Zl.rootIdx).color = BLACK; rw [hcol₁]; exact hzc.1)
    (by
      refine ⟨?_, ?_, ?_⟩
      · intro hred
        exact ⟨by rw [hcol₁]; exact hzc.2, by rw [hcol₁]; exact hcondF hfr⟩
      · exact RedOk_mono (fun j _ => hcol₁ j) hZrR
      · exact RedOk_mono (fun j _ => hcol₁ j) hsibF)
    (by show RedOk s₁ Zl; exact RedOk_mono (fun j _ => hcol₁ j) hZlR)
    (RedOk_mono (fun j _ => hcol₁ j) hsibG)
    (RedCtx_mono (fun j _ => hcol₁ j) hCtxRest')
    hBh₁ fuel
  obtain ⟨U, d1, d2, d3, d4, d5, d6, d7, d8, d9, d10, d11, d12⟩ := hmain
  refine ⟨U, d1, d2, d3, d4, d5, d6, d7, d8, ?_, d10.trans z5, d11.trans z6,
    d12.trans z7⟩
  rw [d9, hpe₂, hpe]
  refine entries_plug_congr ?_ (g :: rest')
  show (STree.node z zk zu Zl Z₁).entries =
    (STree.node f.i f.k f.uid (STree.node z zk zu Zl Zr) f.sib).entries
  rw [hZ₁]
  exact (entries_rotate z f.i zk f.k zu f.uid Zl Zr f.sib).symm

theorem FixDone_compose {s s₃ s' : OSTree K} {E E' : List (K ×ₗ Int)}
    (h : FixDone s₃ s' E') (hE : E' = E)
    (hlen : s₃.nodes.length = s.nodes.length) (hsz : s₃.size = s.size)
    (hu : s₃.nextUid = s.nextUid) : FixDone s s' E := by
  obtain ⟨U, d1, d2, d3, d4, d5, d6, d7, d8, d9, d10, d11, d12⟩ := h
  exact ⟨U, d1, d2, d3, d4, d5, d6, d7, d8, d9.trans hE, d10.trans hlen,
    d11.trans hsz, d12.trans hu⟩

set_option maxHeartbeats 4000000 in
/-- Main specification of the insert fixup loop: starting from a red
hole subtree `Z` whose context satisfies the loop invariant (full
red-black invariants except possibly a red-red violation between `Z`'s
root and its parent), with enough fuel, the loop restores every
invariant and preserves the multiset of entries. -/
theorem insertFixup_spec (fuel : Nat) :
    ∀ (s : OSTree K) (Z : STree K) (ctx : Ctx K),
    Z ≠ .leaf →
    OSTree.ReprB s 0 (plug Z ctx) →
    s.root = (plug Z ctx).rootIdx →
    (plug Z ctx).idxList.Nodup →
    OSTree.NilOk s →
    OSTree.SizeOk s (plug Z ctx) →
    RedOk s Z →
    RedCtxA s ctx →
    (∃ n, Bh s (plug Z ctx) n) →
    (s.nget Z.rootIdx).color = RED →
    (ctx ≠ [] → (s.nget s.root).color = BLACK) →
    ctx.length ≤ 2 * fuel →
    FixDone s (OSTree.insertFixup s fuel Z.rootIdx) ((plug Z ctx).entries) := by
  induction fuel with
  | zero =>
    intro s Z ctx hZne hR hroot hnd hnil hS hRedZ hCtxA hBh hzred hrb hfl
    have hctx : ctx = [] := by
      cases ctx with
      | nil => rfl
      | cons a b =>
        exfalso
        rw [List.length_cons] at hfl
        omega
    subst hctx
    show FixDone s (s.nset s.root fun n => { n with color := BLACK })
      ((plug Z []).entries)
    refine blackenRoot_spec hR hroot hnd hnil hS ?_ hBh ?_
    · exact hRedZ
    · cases Z with
      | leaf => exact absurd rfl hZne
      | node i k uid l r => exact plug_node_ne_leaf i k uid l r []
  | succ fuel ih =>
    intro s Z ctx hZne hR hroot hnd hnil hS hRedZ hCtxA hBh hzred hrb hfl
    cases Z with
    | leaf => exact absurd rfl hZne
    | node z zk zu Zl Zr =>
    show FixDone s (OSTree.insertFixup s (fuel + 1) z)
      ((plug (STree.node z zk zu Zl Zr) ctx).entries)
    have hzred' : (s.nget z).color = RED := hzred
    have hRdec := hR
    rw [ReprB_plug_iff] at hRdec
    obtain ⟨hc, hh, hu⟩ := hRdec
    obtain ⟨hz0, hzlen, hzk, hzu, hzp, hzl, hzr2, hZlrep, hZrrep⟩ := hu
    by_cases hpr : (s.nget (s.nget z).parent).color = RED
    · -- the parent is red: the loop takes one more iteration
      cases ctx with
      | nil =>
        -- impossible: the parent slot is the black sentinel
        exfalso
        have hpr0 := hpr
        rw [hzp] at hpr0
        have hpr1 : (s.nget 0).color = RED := hpr0
        rw [hnil.2.2.1] at hpr1
        simp [RED, BLACK] at hpr1
      | cons f rest =>
      have hfr : (s.nget f.i).color = RED := by
        have h := hpr
        rw [hzp] at h
        exact h
      have hzpf : (s.nget z).parent = f.i := hzp
      cases rest with
      | nil =>
        -- impossible: the root is black but `f.i` is the red root
        exfalso
        have hrooteq : s.root = f.i := by
          rw [hroot]
          exact rootIdx_refill f _
        have hrbb := hrb (by simp)
        rw [hrooteq, hfr] at hrbb
        simp [RED, BLACK] at hrbb
      | cons g rest' =>
      -- decompose the representation of the two innermost frames
      obtain ⟨hcf, hFsibB, hhG, hcG⟩ := hc
      obtain ⟨hcg, hGsibB, hhR2, hcR2⟩ := hcG
      obtain ⟨hf0, hflen, hfk, hfu, hfp, hfsd⟩ := hcf
      obtain ⟨hg0, hglen, hgk, hgu, hgp, hgsd⟩ := hcg
      have hfpg : (s.nget f.i).parent = g.i := hfp
      have hh2 : (if f.onLeft then (s.nget f.i).left else (s.nget f.i).right)
          = z := hh
      have hhG2 : (if g.onLeft then (s.nget g.i).left else (s.nget g.i).right)
          = f.i := hhG
      obtain ⟨hsibF, hcondF, hsibG, hcondG, hCtxRest'⟩ := id hCtxA
      have hgb : (s.nget g.i).color = BLACK := by
        cases hcv : (s.nget g.i).color with
        | false => rfl
        | true =>
          have hfb := (hcondG hcv).1
          rw [hfr] at hfb
          simp [RED, BLACK] at hfb
      -- index distinctness needed for the child-pointer tests
      have hndP := (idxList_plug_perm (STree.node z zk zu Zl Zr)
        (f :: g :: rest')).nodup hnd
      rw [ctxIdx_cons, ctxIdx_cons] at hndP
      rcases List.nodup_append.mp hndP with ⟨hndZ, hndC, hdisjZC⟩
      rcases List.nodup_append.mp hndC with ⟨hndF, hndC2, hdisjF⟩
      have hzfs : z ≠ f.sib.rootIdx := by
        rcases rootIdx_eq_zero_or_mem f.sib with h0 | hmem
        · rw [h0]
          exact hz0
        · intro he
          exact hdisjZC (show z ∈ (STree.node z zk zu Zl Zr).idxList by
              simp [STree.idxList])
            (List.mem_append.mpr (Or.inl (List.mem_cons.mpr
              (Or.inr (by rw [he]; exact hmem)))))
      have hfgs : f.i ≠ g.sib.rootIdx := by
        rcases rootIdx_eq_zero_or_mem g.sib with h0 | hmem
        · rw [h0]
          exact hf0
        · intro he
          exact hdisjF (List.mem_cons_self _ _)
            (List.mem_append.mpr (Or.inl (List.mem_cons.mpr
              (Or.inr (by rw [he]; exact hmem)))))
      -- case 1 (red uncle), shared between the two grandparent sides
      have hcase1 : (s.nget g.sib.rootIdx).color = RED →
          FixDone s
            (OSTree.insertFixup
              (((s.nset f.i fun n => { n with color := BLACK }).nset
                  g.sib.rootIdx fun n => { n with color := BLACK }).nset g.i
                fun n => { n with color := RED })
              fuel g.i)
            ((plug (STree.node z zk zu Zl Zr) (f :: g :: rest')).entries) := by
        intro hyc
        have hc1 := insertFixup_case1 hR hroot hnd hnil hS hzred' hfr hgb hyc
          hRedZ hCtxA hBh
        obtain ⟨c1, c2, c3, c4, c5, c6, c7, c8, c9, c10, c11, c12, c13, c14,
          c15, c16, c17⟩ := hc1
        have hih := ih _ _ rest' c1 c3 c4 c5 c6 c7 c8 c9 c10
          (by rw [c2]; exact c11)
          (fun hne => c17 hne (hrb (by simp)))
          (by simp only [List.length_cons] at hfl; omega)
        rw [c2] at hih
        exact FixDone_compose hih c12 c13 c14 c15
      -- unfold one iteration of the loop
      simp only [OSTree.insertFixup]
      rw [hzpf, if_pos hfr, hfpg]
      cases hgo : g.onLeft with
      | false =>
        -- `f.i` is the right child of the grandparent
        rw [hgo] at hgsd hhG2
        rw [if_neg Bool.false_ne_true] at hgsd hhG2
        rw [hgsd, if_neg hfgs]
        by_cases hyc : (s.nget g.sib.rootIdx).color = RED
        · rw [if_pos hyc]
          exact hcase1 hyc
        · rw [if_neg hyc]
          have hyb : (s.nget g.sib.rootIdx).color = BLACK := by
            cases hcv : (s.nget g.sib.rootIdx).color with
            | false => rfl
            | true => exact absurd hcv hyc
          cases hfo : f.onLeft with
          | false =>
            -- direct case: recolor and rotate left at the grandparent
            rw [hfo] at hfsd
            rw [if_neg Bool.false_ne_true] at hfsd
            rw [hfsd, if_neg hzfs]
            show FixDone s
              (OSTree.insertFixup
                (OSTree.rotateLeft
                  ((s.nset ((s.nget z).parent) fun n =>
                      { n with color := BLACK }).nset
                    ((s.nget ((s.nget z).parent)).parent) fun n =>
                      { n with color := RED })
                  ((s.nget ((s.nget z).parent)).parent))
                fuel z)
              ((plug (STree.node z zk zu Zl Zr) (f :: g :: rest')).entries)
            rw [hzpf, hfpg]
            exact insertFixup_case3R hfo hgo hR hroot hnd hnil hS hzred' hfr
              hgb hyb (hcondF hfr) hRedZ hsibF hsibG hCtxRest' hBh fuel
          | true =>
            -- inner case: a right-rotation at the parent first
            rw [hfo] at hh2
            rw [if_pos rfl] at hh2
            rw [hh2, if_pos rfl]
            exact insertFixup_innerR hfo hgo hR hroot hnd hnil hS hzred' hfr
              hgb hyb hRedZ hCtxA hBh fuel
      | true =>
        -- `f.i` is the left child of the grandparent
        rw [hgo] at hgsd hhG2
        rw [if_pos rfl] at hgsd hhG2
        rw [hhG2, if_pos rfl, hgsd]
        by_cases hyc : (s.nget g.sib.rootIdx).color = RED
        · rw [if_pos hyc]
          exact hcase1 hyc
        · rw [if_neg hyc]
          have hyb : (s.nget g.sib.rootIdx).color = BLACK := by
            cases hcv : (s.nget g.sib.rootIdx).color with
            | false => rfl
            | true => exact absurd hcv hyc
          cases hfo : f.onLeft with
          | false =>
            -- inner case: a left-rotation at the parent first
            rw [hfo] at hh2
            rw [if_neg Bool.false_ne_true] at hh2
            rw [hh2, if_pos rfl]
            exact insertFixup_innerL hfo hgo hR hroot hnd hnil hS hzred' hfr
              hgb hyb hRedZ hCtxA hBh fuel
          | true =>
            -- direct case: recolor and rotate right at the grandparent
            rw [hfo] at hfsd
            rw [if_pos rfl] at hfsd
            rw [hfsd, if_neg hzfs]
            show FixDone s
              (OSTree.insertFixup
                (OSTree.rotateRight
                  ((s.nset ((s.nget z).parent) fun n =>
                      { n with color := BLACK }).nset
                    ((s.nget ((s.nget z).parent)).parent) fun n =>
                      { n with color := RED })
                  ((s.nget ((s.nget z).parent)).parent))
                fuel z)
              ((plug (STree.node z zk zu Zl Zr) (f :: g :: rest')).entries)
            rw [hzpf, hfpg]
            exact insertFixup_case3L hfo hgo hR hroot hnd hnil hS hzred' hfr
              hgb hyb (hcondF hfr) hRedZ hsibF hsibG hCtxRest' hBh fuel
    · -- the parent is black: the loop exits and blackens the root
      rw [insertFixup_exit hpr (fuel + 1)]
      refine blackenRoot_spec hR hroot hnd hnil hS ?_ hBh
        (plug_node_ne_leaf _ _ _ _ _ _)
      rw [RedOk_plug_iff]
      refine ⟨hRedZ, ?_⟩
      cases ctx with
      | nil => trivial
      | cons f rest =>
        exact ⟨hCtxA.1, fun hr => absurd
          (show (s.nget (s.nget z).parent).color = RED by
            rw [hzp]; exact hr) hpr, hCtxA.2.2⟩

/-! ### Helper lemmas for the full insert specification -/

theorem length_idxList (t : STree K) : t.idxList.length = t.count := by
  induction t with
  | leaf => rfl
  | node i k uid l r ihl ihr =>
    simp only [STree.idxList, STree.count, List.length_cons,
      List.length_append, ihl, ihr]

theorem plug_leaf_insCtx (k : K) (uid : Int) (T : STree K) :
    plug .leaf (insCtx k uid T) = T := by
  induction T with
  | leaf => rfl
  | node i k2 u2 l r ihl ihr =>
    by_cases hlt : toLex (k, uid) < toLex (k2, u2)
    · rw [insCtx, if_pos hlt, plug_append, ihl]
      simp [plug]
    · rw [insCtx, if_neg hlt, plug_append, ihr]
      simp [plug]

theorem insCtx_ne_nil (k : K) (uid : Int) {T : STree K} (h : T ≠ .leaf) :
    insCtx k uid T ≠ [] := by
  cases T with
  | leaf => exact absurd rfl h
  | node i k2 u2 l r =>
    show insCtx k uid (.node i k2 u2 l r) ≠ []
    rw [insCtx]
    by_cases hlt : toLex (k, uid) < toLex (k2, u2)
    · rw [if_pos hlt]
      simp
    · rw [if_neg hlt]
      simp

theorem insCtx_head (k : K) (uid : Int) :
    ∀ (T : STree K) (F : Frame K) (Crest : Ctx K),
      insCtx k uid T = F :: Crest →
      (toLex (k, uid) < toLex (F.k, F.uid) ↔ F.onLeft = true) := by
  intro T
  induction T with
  | leaf => intro F Crest h; cases h
  | node i k2 u2 l r ihl ihr =>
    intro F Crest h
    rw [insCtx] at h
    by_cases hlt : toLex (k, uid) < toLex (k2, u2)
    · rw [if_pos hlt] at h
      cases hl : insCtx k uid l with
      | nil =>
        rw [hl, List.nil_append] at h
        have hF : F = ⟨true, i, k2, u2, r⟩ :=
          ((List.cons.injEq _ _ _ _).mp h).1.symm
        subst hF
        simpa using hlt
      | cons F0 rest0 =>
        rw [hl, List.cons_append] at h
        have hF : F0 = F := ((List.cons.injEq _ _ _ _).mp h).1
        subst hF
        exact ihl F0 rest0 hl
    · rw [if_neg hlt] at h
      cases hl : insCtx k uid r with
      | nil =>
        rw [hl, List.nil_append] at h
        have hF : F = ⟨false, i, k2, u2, l⟩ :=
          ((List.cons.injEq _ _ _ _).mp h).1.symm
        subst hF
        simpa using hlt
      | cons F0 rest0 =>
        rw [hl, List.cons_append] at h
        have hF : F0 = F := ((List.cons.injEq _ _ _ _).mp h).1
        subst hF
        exact ihr F0 rest0 hl

theorem insParent_eq_holeParent (k : K) (uid : Int) (T : STree K) :
    insParent k uid 0 T = holeParent (insCtx k uid T) := by
  have h := holeParent_insCtx k uid T []
  rw [List.append_nil] at h
  exact h.symm

theorem RedCtxA_of_RedCtx {s : OSTree K} {ctx : Ctx K} {h : Nat}
    (hc : RedCtx s ctx h) : RedCtxA s ctx := by
  cases ctx with
  | nil => trivial
  | cons f rest =>
    obtain ⟨h1, h2, h3⟩ := hc
    exact ⟨h1, fun hr => (h2 hr).2, h3⟩

theorem ctx_length_le_ctxIdx (ctx : Ctx K) :
    ctx.length ≤ (ctxIdx ctx).length := by
  induction ctx with
  | nil => exact Nat.le_refl 0
  | cons f rest ih =>
    rw [ctxIdx_cons, List.length_append, List.length_cons, List.length_cons]
    omega

theorem count_le_arena {s : OSTree K} {p : Nat} {T : STree K}
    (hR : OSTree.ReprB s p T) (hnd : T.idxList.Nodup) :
    T.count ≤ s.nodes.length := by
  have hsub : T.idxList ⊆ List.range s.nodes.length := by
    intro j hj
    rw [List.mem_range]
    exact (ReprB_idx_facts hR j hj).2
  have := (List.subperm_of_subset hnd hsub).length_le
  rw [length_idxList, List.length_range] at this
  exact this

theorem mem_ctxIdx_of_mem_i {f : Frame K} {ctx : Ctx K} (hf : f ∈ ctx) :
    f.i ∈ ctxIdx ctx :=
  List.mem_flatMap.mpr ⟨f, hf, by simp⟩

theorem mem_ctxIdx_of_mem_sib {j : Nat} {f : Frame K} {ctx : Ctx K}
    (hf : f ∈ ctx) (hj : j ∈ f.sib.idxList) : j ∈ ctxIdx ctx :=
  List.mem_flatMap.mpr ⟨f, hf, by simp [hj]⟩

theorem SizeCtx_sib {s : OSTree K} :
    ∀ {ctx : Ctx K} {c : Nat}, SizeCtx s ctx c →
      ∀ f ∈ ctx, OSTree.SizeOk s f.sib := by
  intro ctx
  induction ctx with
  | nil =>
    intro c _ f hf
    simp at hf
  | cons g rest ih =>
    intro c h f hf
    obtain ⟨h1, h2, h3⟩ := h
    rcases List.mem_cons.mp hf with rfl | hf'
    · exact h2
    · exact ih h3 f hf'

set_option maxHeartbeats 4000000 in
/-- Staged specification of `insert`: with the intermediate states of
the source spelled out as equations, the final fixup call restores all
red-black invariants, the entries become those of the logical
insertion, and the bookkeeping fields advance as expected. -/
theorem insert_steps_spec (s sA s₁ s₂ s₃ s₄ : OSTree K) (T : STree K)
    (C : Ctx K) (k : K) (uid : Int) (p z : Nat)
    (hsA : sA = { s with nextUid := s.nextUid + 1 })
    (hp : p = OSTree.insertDescend sA k uid (sA.nodes.length + 1) 0 sA.root)
    (hz : z = sA.nodes.length)
    (hs₁ : s₁ = { sA with nodes := sA.nodes ++ [⟨some k, uid, RED, 1, 0, 0, p⟩] })
    (hs₂ : s₂ = if p = 0 then { s₁ with root := z }
      else if OSTree.ltNode k uid (s₁.nget p) then
        s₁.nset p fun n => { n with left := z }
      else s₁.nset p fun n => { n with right := z })
    (hs₃ : s₃ = { s₂ with size := s₂.size + 1 })
    (hs₄ : s₄ = OSTree.updateSizesUpward s₃ (s₃.nodes.length + 1)
      ((s₃.nget z).parent))
    (hC : C = insCtx k uid T)
    (hR : OSTree.ReprB s 0 T) (hroot : s.root = T.rootIdx)
    (hnd : T.idxList.Nodup) (hnil : OSTree.NilOk s)
    (hS : OSTree.SizeOk s T) (hRed : RedOk s T)
    (hBh : ∃ n, Bh s T n) (hrb : (s.nget s.root).color = BLACK)
    (hlen0 : 0 < s.nodes.length) :
    FixDone s₄ (OSTree.insertFixup s₄ (s₄.nodes.length + 1) z)
      ((insTree k uid z T).entries) ∧
    s₄.nodes.length = s.nodes.length + 1 ∧
    s₄.size = s.size + 1 ∧
    s₄.nextUid = s.nextUid + 1 := by
  -- stage A: only the uid counter changes
  have hAnget : ∀ j, sA.nget j = s.nget j := fun j => by rw [hsA]; rfl
  have hAlen : sA.nodes.length = s.nodes.length := by rw [hsA]
  have hAroot : sA.root = s.root := by rw [hsA]
  have hRA : OSTree.ReprB sA 0 T :=
    OSTree.ReprB_mono_of_agree (le_of_eq hAlen.symm) (fun i _ => hAnget i) hR
  have hTle : T.count ≤ s.nodes.length := count_le_arena hR hnd
  have hdesc : p = insParent k uid 0 T := by
    rw [hp, hAroot, hroot]
    exact insertDescend_spec k uid hRA (sA.nodes.length + 1)
      (by rw [hAlen]; omega)
  have hplugT : plug .leaf C = T := by
    rw [hC]
    exact plug_leaf_insCtx k uid T
  have hpC : p = holeParent C := by
    rw [hdesc, hC, insParent_eq_holeParent]
  have hRdecT := hR
  rw [← hplugT, ReprB_plug_iff] at hRdecT
  obtain ⟨hCrep, hChole, -⟩ := hRdecT
  have hidxf : ∀ j ∈ T.idxList, j ≠ 0 ∧ j < s.nodes.length :=
    ReprB_idx_facts hR
  have hctxperm : T.idxList.Perm (ctxIdx C) := by
    have h := idxList_plug_perm .leaf C
    rw [hplugT] at h
    simpa using h
  have hctxf : ∀ j ∈ ctxIdx C, j ≠ 0 ∧ j < s.nodes.length := fun j hj =>
    hidxf j (hctxperm.mem_iff.mpr hj)
  have hctxnd : (ctxIdx C).Nodup := hctxperm.nodup hnd
  have hzlen : z = s.nodes.length := by rw [hz, hAlen]
  have hzfresh : z ∉ ctxIdx C := fun hmem =>
    absurd (hctxf z hmem).2 (by rw [hzlen]; omega)
  have hz0 : z ≠ 0 := by rw [hzlen]; omega
  have hClen : C.length ≤ s.nodes.length := by
    have h1 := ctx_length_le_ctxIdx C
    have h2 : (ctxIdx C).length = T.count := by
      rw [← hctxperm.length_eq, length_idxList]
    omega
  -- stage 1: the new node is appended
  have h1len : s₁.nodes.length = s.nodes.length + 1 := by
    rw [hs₁]
    simp [hAlen]
  have h1get : ∀ j, j < s.nodes.length → s₁.nget j = s.nget j := fun j hj => by
    rw [hs₁, nget_append_lt (by rw [hAlen]; exact hj)]
    exact hAnget j
  have h1z : s₁.nget z = ⟨some k, uid, RED, 1, 0, 0, p⟩ := by
    rw [hs₁, hz]
    exact nget_append_self
  have h1root : s₁.root = s.root := by rw [hs₁, hsA]
  have h1size : s₁.size = s.size := by rw [hs₁, hsA]
  have h1uid : s₁.nextUid = s.nextUid + 1 := by rw [hs₁, hsA]
  -- stage 2: the parent's child pointer is attached
  have hbundle :
      s₂.nodes.length = s.nodes.length + 1 ∧
      s₂.size = s.size ∧
      s₂.nextUid = s.nextUid + 1 ∧
      s₂.root = (plug (STree.node z k uid .leaf .leaf) C).rootIdx ∧
      s₂.nget z = ⟨some k, uid, RED, 1, 0, 0, p⟩ ∧
      (∀ j, j < s.nodes.length → j ≠ p → s₂.nget j = s.nget j) ∧
      (∀ j, j < s.nodes.length → (s₂.nget j).color = (s.nget j).color) ∧
      s₂.nget 0 = s.nget 0 ∧
      ReprC s₂ C ∧
      HoleOk s₂ C z := by
    cases C with
    | nil =>
      have hp0 : p = 0 := hpC
      have hs₂' : s₂ = { s₁ with root := z } := by rw [hs₂, if_pos hp0]
      refine ⟨?_, ?_, ?_, ?_, ?_, ?_, ?_, ?_, trivial, trivial⟩
      · rw [hs₂']
        exact h1len
      · rw [hs₂']
        exact h1size
      · rw [hs₂']
        exact h1uid
      · rw [hs₂']
        rfl
      · rw [hs₂']
        exact h1z
      · intro j hj _
        rw [hs₂']
        show s₁.nget j = s.nget j
        exact h1get j hj
      · intro j hj
        rw [hs₂']
        show (s₁.nget j).color = (s.nget j).color
        rw [h1get j hj]
      · rw [hs₂']
        show s₁.nget 0 = s.nget 0
        exact h1get 0 hlen0
    | cons F Crest =>
      obtain ⟨⟨hF0, hFlt, hFk, hFu, hFp, hFsd⟩, hFsib, hFhole, hCrest⟩ := hCrep
      have hpF : p = F.i := hpC
      have hpn0 : p ≠ 0 := by rw [hpF]; exact hF0
      have hplt : p < s.nodes.length := by rw [hpF]; exact hFlt
      have hzp_ne : z ≠ p := by
        rw [hzlen]
        intro he
        omega
      have hlt_iff := insCtx_head k uid T F Crest hC.symm
      have hltn : OSTree.ltNode k uid (s₁.nget p) =
          decide (toLex (k, uid) < toLex (F.k, F.uid)) := by
        rw [h1get p hplt, hpF]
        exact ltNode_eq k uid hFk hFu
      have hdec : decide (toLex (k, uid) < toLex (F.k, F.uid)) = F.onLeft := by
        cases hFo : F.onLeft
        · have hnp : ¬ toLex (k, uid) < toLex (F.k, F.uid) := fun hlt2 =>
            Bool.false_ne_true (hFo ▸ hlt_iff.mp hlt2)
          simp [hnp]
        · simp [hlt_iff.mpr hFo]
      have hs₂' : s₂ = if F.onLeft then s₁.nset p fun n => { n with left := z }
          else s₁.nset p fun n => { n with right := z } := by
        rw [hs₂, if_neg hpn0, hltn, hdec]
      have h2get : ∀ j, j ≠ p → s₂.nget j = s₁.nget j := fun j hj => by
        rw [hs₂']
        cases hFo2 : F.onLeft
        · rw [if_neg Bool.false_ne_true]
          exact OSTree.nget_nset_ne hj _
        · rw [if_pos rfl]
          exact OSTree.nget_nset_ne hj _
      have h2p : s₂.nget p = (if F.onLeft then
          { s₁.nget p with left := z } else { s₁.nget p with right := z }) := by
        rw [hs₂']
        cases hFo2 : F.onLeft
        · rw [if_neg Bool.false_ne_true, if_neg Bool.false_ne_true]
          exact OSTree.nget_nset_self (by rw [h1len]; omega) _
        · rw [if_pos rfl, if_pos rfl]
          exact OSTree.nget_nset_self (by rw [h1len]; omega) _
      have h2struct : s₂.nodes.length = s₁.nodes.length ∧ s₂.size = s₁.size ∧
          s₂.nextUid = s₁.nextUid ∧ s₂.root = s₁.root := by
        rw [hs₂']
        cases hFo2 : F.onLeft
        · rw [if_neg Bool.false_ne_true]
          exact ⟨by simp [OSTree.nset], rfl, rfl, rfl⟩
        · rw [if_pos rfl]
          exact ⟨by simp [OSTree.nset], rfl, rfl, rfl⟩
      refine ⟨?_, ?_, ?_, ?_, ?_, ?_, ?_, ?_, ?_, ?_⟩
      · rw [h2struct.1]
        exact h1len
      · rw [h2struct.2.1]
        exact h1size
      · rw [h2struct.2.2.1]
        exact h1uid
      · calc s₂.root = s₁.root := h2struct.2.2.2
          _ = s.root := h1root
          _ = T.rootIdx := hroot
          _ = (plug .leaf (F :: Crest)).rootIdx := by rw [hplugT]
          _ = (plug (STree.node z k uid .leaf .leaf) (F :: Crest)).rootIdx :=
            rootIdx_plug_congr (Or.inr (by simp))
      · rw [h2get z hzp_ne]
        exact h1z
      · intro j hj hjp
        rw [h2get j hjp]
        exact h1get j hj
      · intro j hj
        by_cases hjp : j = p
        · subst hjp
          rw [h2p]
          cases hFo2 : F.onLeft
          · rw [if_neg Bool.false_ne_true]
            show (s₁.nget j).color = _
            rw [h1get j hj]
          · rw [if_pos rfl]
            show (s₁.nget j).color = _
            rw [h1get j hj]
        · rw [h2get j hjp]
          rw [h1get j hj]
      · rw [h2get 0 (fun he => hpn0 he.symm)]
        exact h1get 0 hlen0
      · -- the context representation survives the hole update
        have hrepr1 : ReprC s₁ (F :: Crest) := by
          refine ReprC_mono_of_agree (by rw [h1len]; omega)
            (fun j hj => h1get j (hctxf j hj).2) ?_
          exact ⟨⟨hF0, hFlt, hFk, hFu, hFp, hFsd⟩, hFsib, hFhole, hCrest⟩
        refine ReprC_update_hole (le_of_eq (h2struct.1).symm) hctxnd hrepr1
          (fun j _ hne => h2get j (by rw [hpC]; exact hne)) ?_
        intro f hf
        have hfF : F = f := ((List.cons.injEq _ _ _ _).mp hf).1
        subst hfF
        rw [← hpF, h2p]
        cases hFo2 : F.onLeft
        · rw [if_neg Bool.false_ne_true, if_neg Bool.false_ne_true,
            if_neg Bool.false_ne_true]
          exact ⟨rfl, rfl, rfl, rfl⟩
        · rw [if_pos rfl, if_pos rfl, if_pos rfl]
          exact ⟨rfl, rfl, rfl, rfl⟩
      · -- the hole now points at the fresh node
        show (if F.onLeft then (s₂.nget F.i).left else (s₂.nget F.i).right) = z
        rw [← hpF, h2p]
        cases hFo2 : F.onLeft
        · rfl
        · rfl
  obtain ⟨B1, B2, B3, B4, B5, B6, B7, B8, B9, B10⟩ := hbundle
  -- stage 3: only the size counter changes
  have h3get : ∀ j, s₃.nget j = s₂.nget j := fun j => by rw [hs₃]; rfl
  have h3len : s₃.nodes.length = s₂.nodes.length := by rw [hs₃]
  have h3root : s₃.root = s₂.root := by rw [hs₃]
  have h3size : s₃.size = s₂.size + 1 := by rw [hs₃]
  have h3uid : s₃.nextUid = s₂.nextUid := by rw [hs₃]
  have h3efields : ∀ j, eqFields (s₃.nget j) (s₂.nget j) := fun j => by
    rw [h3get]
    exact eqFields_refl _
  have h3rep : ReprC s₃ C :=
    ReprC_mono_of_agree (le_of_eq h3len.symm) (fun j _ => h3get j) B9
  have h3hole : HoleOk s₃ C z := HoleOk_congr h3efields B10
  have h3nil : OSTree.NilOk s₃ := NilOk_of_agree (by rw [h3get, B8]) hnil
  have h3z : s₃.nget z = ⟨some k, uid, RED, 1, 0, 0, p⟩ := by rw [h3get, B5]
  have hSC : SizeCtx s C 0 := by
    have h := hS
    rw [← hplugT, SizeOk_plug_iff] at h
    exact h.2
  have hsibnp : ∀ f ∈ C, p ∉ f.sib.idxList := by
    cases C with
    | nil =>
      intro f hf
      simp at hf
    | cons F₀ rest₀ =>
      intro f hf hmem
      have hpF₀ : p = F₀.i := hpC
      have hnd2 := hctxnd
      rw [ctxIdx_cons] at hnd2
      have hhead : F₀.i ∉ F₀.sib.idxList ++ ctxIdx rest₀ :=
        (List.nodup_cons.mp (by
          rw [show (F₀.i :: F₀.sib.idxList) ++ ctxIdx rest₀ =
            F₀.i :: (F₀.sib.idxList ++ ctxIdx rest₀) from rfl] at hnd2
          exact hnd2)).1
      rcases List.mem_cons.mp hf with rfl | hf'
      · exact hhead (List.mem_append.mpr (Or.inl (hpF₀ ▸ hmem)))
      · exact hhead (List.mem_append.mpr (Or.inr
          (mem_ctxIdx_of_mem_sib hf' (hpF₀ ▸ hmem))))
  have hsibS : ∀ f ∈ C, OSTree.SizeOk s₃ f.sib := by
    intro f hf
    refine OSTree.SizeOk_mono_of_agree (fun j hj => ?_) (SizeCtx_sib hSC f hf)
    have hjC : j ∈ ctxIdx C := mem_ctxIdx_of_mem_sib hf hj
    have hjp : j ≠ p := fun he => hsibnp f hf (he ▸ hj)
    rw [h3get, B6 j (hctxf j hjC).2 hjp]
  -- stage 4: the upward size walk
  have h3zparent : (s₃.nget z).parent = holeParent C := by
    rw [h3z]
    exact hpC
  have hs₄' : s₄ = OSTree.updateSizesUpward s₃ (s₃.nodes.length + 1)
      (holeParent C) := by rw [hs₄, h3zparent]
  have hzip := updateSizesUpward_zip h3rep
    (show HoleOk s₃ C (STree.node z k uid .leaf .leaf).rootIdx from h3hole)
    hctxnd
    (fun j hj => by
      have hjz : j = z := by simpa [STree.idxList] using hj
      rw [hjz]
      exact hzfresh)
    h3nil
    (show OSTree.SizeOk s₃ (STree.node z k uid .leaf .leaf) from
      ⟨by rw [h3z]; rfl, trivial, trivial⟩)
    hsibS
    (s₃.nodes.length + 1)
    (by rw [h3len, B1]; omega)
  rw [← hs₄'] at hzip
  obtain ⟨u1, u2, u3, u4, u5, u6, u7, u8⟩ := hzip
  -- the fixup preconditions
  have hmapsub : ∀ j ∈ C.map Frame.i, j ∈ ctxIdx C := by
    intro j hj
    obtain ⟨f, hf, rfl⟩ := List.mem_map.mp hj
    exact mem_ctxIdx_of_mem_i hf
  have h4z : s₄.nget z = ⟨some k, uid, RED, 1, 0, 0, p⟩ := by
    rw [u3 z (fun hmem => hzfresh (hmapsub z hmem)), h3z]
  have h4get0 : s₄.nget 0 = s₃.nget 0 :=
    u3 0 (fun hmem => (hctxf 0 (hmapsub 0 hmem)).1 rfl)
  have h4nil : OSTree.NilOk s₄ := NilOk_of_agree h4get0 h3nil
  have h4len : s₄.nodes.length = s.nodes.length + 1 := by rw [u5, h3len, B1]
  have h4root : s₄.root =
      (plug (STree.node z k uid .leaf .leaf) C).rootIdx := by
    rw [u4, h3root, B4]
  have h4colors_s : ∀ j, j < s.nodes.length →
      (s₄.nget j).color = (s.nget j).color := fun j hj => by
    rw [u2 j, h3get j]
    exact B7 j hj
  have hrepr4 : OSTree.ReprB s₄ 0 (plug (STree.node z k uid .leaf .leaf) C) := by
    rw [ReprB_plug_iff]
    refine ⟨ReprC_mono_of_fields (le_of_eq u5.symm) (fun j _ => u1 j) h3rep,
      HoleOk_congr u1 h3hole, ?_⟩
    refine ⟨hz0, ?_, ?_, ?_, ?_, ?_, ?_, trivial, trivial⟩
    · rw [h4len, hzlen]
      omega
    · rw [h4z]
    · rw [h4z]
    · rw [h4z]
      exact hpC
    · rw [h4z]
      rfl
    · rw [h4z]
      rfl
  have h4nd : (plug (STree.node z k uid .leaf .leaf) C).idxList.Nodup :=
    (idxList_plug_perm _ C).symm.nodup
      (by simpa [STree.idxList] using List.nodup_cons.mpr ⟨hzfresh, hctxnd⟩)
  have h4RedZ : RedOk s₄ (STree.node z k uid .leaf .leaf) := by
    refine ⟨fun _ => ⟨?_, ?_⟩, trivial, trivial⟩
    · exact h4nil.2.2.1
    · exact h4nil.2.2.1
  have h4CtxA : RedCtxA s₄ C := by
    have h := hRed
    rw [← hplugT, RedOk_plug_iff] at h
    refine RedCtxA_mono (fun j hj => ?_) (RedCtxA_of_RedCtx h.2)
    rcases hj with rfl | hj
    · rw [u2 0, h3get 0, B8]
    · exact h4colors_s j (hctxf j hj).2
  have h4Bh : ∃ n, Bh s₄ (plug (STree.node z k uid .leaf .leaf) C) n := by
    obtain ⟨n, hbh⟩ := hBh
    rw [← hplugT, Bh_plug_iff] at hbh
    obtain ⟨m, hm0, hctxbh⟩ := hbh
    have hm0' : m = 0 := hm0
    subst hm0'
    refine ⟨n, ?_⟩
    rw [Bh_plug_iff]
    refine ⟨0, ⟨0, rfl, rfl, ?_⟩, ?_⟩
    · rw [h4z]
      simp [RED, BLACK]
    · exact BhCtx_mono (fun j hj => h4colors_s j (hctxf j hj).2) hctxbh
  have h4zred : (s₄.nget z).color = RED := by rw [h4z]
  have h4rb : C ≠ [] → (s₄.nget s₄.root).color = BLACK := by
    intro hne
    have hTne : T ≠ .leaf := by
      intro hT
      rw [hT] at hC
      exact hne (hC.trans rfl)
    have hrootmem : T.rootIdx ∈ T.idxList := STree.rootIdx_mem_idxList hTne
    have hrootlt : T.rootIdx < s.nodes.length := (hidxf _ hrootmem).2
    have h4rooteq : s₄.root = T.rootIdx :=
      h4root.trans ((rootIdx_plug_congr (Or.inr hne)).trans
        (by rw [hplugT]))
    rw [h4rooteq, h4colors_s _ hrootlt, ← hroot]
    exact hrb
  have hfl4 : C.length ≤ 2 * (s₄.nodes.length + 1) := by
    rw [h4len]
    omega
  have hfix := insertFixup_spec (s₄.nodes.length + 1) s₄
    (STree.node z k uid .leaf .leaf) C
    (fun h => STree.noConfusion h)
    hrepr4 h4root h4nd h4nil u8 h4RedZ h4CtxA h4Bh h4zred h4rb hfl4
  have hentries : (plug (STree.node z k uid .leaf .leaf) C).entries =
      (insTree k uid z T).entries := by
    rw [hC, ← insTree_eq_plug]
  refine ⟨?_, h4len, ?_, ?_⟩
  · rw [← hentries]
    exact hfix
  · rw [u6, h3size, B2]
  · rw [u7, h3uid, B3]

set_option maxHeartbeats 4000000 in
/-- Full specification of `insert`: on a well-formed red-black
order-statistic arena representing `T`, inserting `k` yields a
well-formed arena representing some `T'` whose in-order entries are
those of the logical insertion of `(k, s.nextUid)`, with all fields
advanced as the source does. -/
theorem insert_spec {s : OSTree K} {T : STree K} (k : K)
    (hR : OSTree.ReprB s 0 T) (hroot : s.root = T.rootIdx)
    (hnd : T.idxList.Nodup) (hnil : OSTree.NilOk s)
    (hS : OSTree.SizeOk s T) (hRed : RedOk s T)
    (hBh : ∃ n, Bh s T n) (hrb : (s.nget s.root).color = BLACK)
    (hlen0 : 0 < s.nodes.length) :
    ∃ T' : STree K,
      OSTree.ReprB (s.insert k) 0 T' ∧
      (s.insert k).root = T'.rootIdx ∧
      T'.idxList.Nodup ∧
      OSTree.NilOk (s.insert k) ∧
      OSTree.SizeOk (s.insert k) T' ∧
      RedOk (s.insert k) T' ∧
      (∃ n, Bh (s.insert k) T' n) ∧
      ((s.insert k).nget (s.insert k).root).color = BLACK ∧
      T'.entries = (insTree k s.nextUid s.nodes.length T).entries ∧
      (s.insert k).nodes.length = s.nodes.length + 1 ∧
      (s.insert k).size = s.size + 1 ∧
      (s.insert k).nextUid = s.nextUid + 1 := by
  obtain ⟨hfd, hlen, hsz, hu⟩ := insert_steps_spec s _ _ _ _ _ T _ k
    s.nextUid _ s.nodes.length rfl rfl rfl rfl rfl rfl rfl rfl
    hR hroot hnd hnil hS hRed hBh hrb hlen0
  obtain ⟨U, d1, d2, d3, d4, d5, d6, d7, d8, d9, d10, d11, d12⟩ := hfd
  exact ⟨U, d1, d2, d3, d4, d5, d6, d7, d8, d9, d10.trans hlen,
    d11.trans hsz, d12.trans hu⟩

/-! ### The full well-formedness bundle and insert-only reachability -/

/-- Everything the order-statistic red-black tree maintains about a
state `s` representing the logical shape `T`. -/
def RBWf (s : OSTree K) (T : STree K) : Prop :=
  OSTree.ReprB s 0 T ∧ s.root = T.rootIdx ∧ T.idxList.Nodup ∧
  OSTree.NilOk s ∧ OSTree.SizeOk s T ∧ RedOk s T ∧ (∃ n, Bh s T n) ∧
  (s.nget s.root).color = BLACK ∧ 0 < s.nodes.length ∧
  s.size = T.count ∧ T.entries.Pairwise (· ≤ ·) ∧
  (∀ e ∈ T.entries, (ofLex e).2 < s.nextUid)

theorem empty_RBWf : RBWf (OSTree.empty K) .leaf := by
  refine ⟨trivial, rfl, List.nodup_nil, ⟨rfl, rfl, rfl, rfl, rfl⟩, trivial,
    trivial, ⟨0, rfl⟩, rfl, by simp [OSTree.empty], rfl, List.Pairwise.nil,
    ?_⟩
  intro e he
  simp [STree.entries] at he

set_option maxHeartbeats 1000000 in
/-- `insert` preserves the bundle; the new shape's entries are those of
the logical insertion at a fresh arena slot with the fresh uid. -/
theorem insert_RBWf {s : OSTree K} {T : STree K} (k : K)
    (h : RBWf s T) :
    ∃ T' : STree K, RBWf (s.insert k) T' ∧
      T'.entries = (insTree k s.nextUid s.nodes.length T).entries ∧
      (s.insert k).nextUid = s.nextUid + 1 ∧
      (s.insert k).size = s.size + 1 := by
  obtain ⟨hR, hroot, hnd, hnil, hS, hRed, hBh, hrb, hlen0, hsz, hsort,
    huid⟩ := h
  obtain ⟨T', d1, d2, d3, d4, d5, d6, d7, d8, d9, d10, d11, d12⟩ :=
    insert_spec k hR hroot hnd hnil hS hRed hBh hrb hlen0
  have hperm : T'.entries.Perm (toLex (k, s.nextUid) :: T.entries) := by
    rw [d9]
    exact entries_insTree_perm k s.nextUid s.nodes.length T
  refine ⟨T', ⟨d1, d2, d3, d4, d5, d6, d7, d8, ?_, ?_, ?_, ?_⟩, d9, d12,
    d11⟩
  · rw [d10]
    omega
  · rw [d11, hsz, STree.count_eq_length_entries T', hperm.length_eq,
      List.length_cons, STree.count_eq_length_entries T]
  · rw [d9]
    exact entries_insTree_sorted k s.nextUid s.nodes.length hsort
  · intro e he
    rw [d12]
    rcases List.mem_cons.mp (hperm.mem_iff.mp he) with rfl | he'
    · simp
    · have := huid e he'
      omega

/-- The uid tags `insert` hands out to a list of keys, starting at
counter value `u`. -/
def taggedFrom (u : Int) : List K → List (K ×ₗ Int)
  | [] => []
  | k :: ks => toLex (k, u) :: taggedFrom (u + 1) ks

theorem foldl_insert_RBWf (l : List K) :
    ∀ (s : OSTree K) (T : STree K), RBWf s T →
    ∃ T' : STree K, RBWf (l.foldl OSTree.insert s) T' ∧
      T'.entries.Perm (taggedFrom s.nextUid l ++ T.entries) ∧
      (l.foldl OSTree.insert s).nextUid = s.nextUid + l.length ∧
      (l.foldl OSTree.insert s).size = s.size + l.length := by
  induction l with
  | nil =>
    intro s T h
    exact ⟨T, h, by simp [taggedFrom], by simp, by simp⟩
  | cons k ks ih =>
    intro s T h
    obtain ⟨T₁, h₁, he₁, hu₁, hsz₁⟩ := insert_RBWf k h
    obtain ⟨T', h', he', hu', hsz'⟩ := ih (s.insert k) T₁ h₁
    refine ⟨T', h', ?_, ?_, ?_⟩
    · refine he'.trans ?_
      have hperm₁ : T₁.entries.Perm (toLex (k, s.nextUid) :: T.entries) := by
        rw [he₁]
        exact entries_insTree_perm k s.nextUid s.nodes.length T
      have h1 : taggedFrom (s.insert k).nextUid ks =
          taggedFrom (s.nextUid + 1) ks := by rw [hu₁]
      rw [h1]
      refine (List.Perm.append_left _ hperm₁).trans ?_
      show (taggedFrom (s.nextUid + 1) ks ++
          (toLex (k, s.nextUid) :: T.entries)).Perm
        ((toLex (k, s.nextUid) :: taggedFrom (s.nextUid + 1) ks) ++
          T.entries)
      simp only [List.cons_append]
      exact List.perm_middle
    · rw [List.foldl_cons, hu', hu₁, List.length_cons]
      omega
    · rw [List.foldl_cons, hsz', hsz₁, List.length_cons]
      omega

/-- Any tree built by the constructor from a key list is well formed,
and its entries are a permutation of the keys tagged with their
insertion order. -/
theorem ofList_RBWf (l : List K) :
    ∃ T : STree K, RBWf (OSTree.ofList l) T ∧
      T.entries.Perm (taggedFrom 0 l) ∧
      (OSTree.ofList l).size = l.length := by
  obtain ⟨T, h, he, _, hsz⟩ := foldl_insert_RBWf l (OSTree.empty K) .leaf
    empty_RBWf
  refine ⟨T, h, by simpa [OSTree.empty, STree.entries] using he, ?_⟩
  show (l.foldl OSTree.insert (OSTree.empty K)).size = l.length
  rw [hsz]
  simp [OSTree.empty]

theorem taggedFrom_map_fst (u : Int) (l : List K) :
    (taggedFrom u l).map (fun e => (ofLex e).1) = l := by
  induction l generalizing u with
  | nil => rfl
  | cons k ks ih =>
    simp only [taggedFrom, List.map_cons, ih]
    rfl

/-! ## The stream merge buffer (`src/buffer.py`)

Timestamps (`pd.Timestamp`) are embedded as `Int` (days relative to the
epoch; only their order matters).  A raw date string is embedded as
`DateStr`: `empty` is Python's falsy `""`/`None`, `invalid` a non-empty
unparseable string, `valid t` a string parsing to instant `t`.
`pd.to_datetime(·, errors="coerce")` maps non-valid to `NaT` (here
`none`); the `pd.Timestamp` constructor raises instead (here `none`
propagated as a failure). -/

/-- A raw date string as the buffer sees it. -/
inductive DateStr
  | empty
  | invalid
  | valid (t : Int)
  deriving Repr, DecidableEq

/-- Python's `a or b` on date strings: `""` is falsy, everything else
truthy. -/
def orDate : DateStr → DateStr → DateStr
  | .empty, d => d
  | d, _ => d

/-- `pd.to_datetime(s, utc=True, errors="coerce")`: `none` is `NaT`. -/
def toDatetimeCoerce : DateStr → Option Int
  | .valid t => some t
  | _ => none

/-- `pd.Timestamp(s)`: raises (`none`) unless the string parses. -/
def timestampStrict : DateStr → Option Int
  | .valid t => some t
  | _ => none

/-- `pd.Timestamp("1970-01-01", tz="UTC")`, the epoch fallback of
`link_timestamp`. -/
def epochTimestamp : Int := 0

/-- `LinkBuffer.min_timestamp = pd.Timestamp("1969-01-01", tz="UTC")`. -/
def minTimestamp : Int := -365

/-- `LinkBuffer.max_timestamp = pd.Timestamp("2069-01-01", tz="UTC")`. -/
def maxTimestamp : Int := 36160

/-- The fields of `src/nodes.py`'s `Link` that the buffer reads or
writes: its url (`link`), display `title`, the two date strings, and
the private `_title` slot used by `set_title`.  (The remaining metadata
fields of the dataclass never influence the merge core.) -/
structure Link where
  link : String
  title : String
  created_date : DateStr
  modified_date : DateStr
  titlePriv : Option String := none
  deriving Repr, DecidableEq

namespace Link

/-- `Link.url` property. -/
def url (l : Link) : String := l.link

/-- `Link.timestamp` property: `pd.Timestamp(self.modified_date)` —
raises (`none`) when the modified date string does not parse; the
created date is not consulted. -/
def timestamp (l : Link) : Option Int :=
  timestampStrict l.modified_date

/-- `Link.set_title`. -/
def set_title (l : Link) (t : String) : Link :=
  { l with titlePriv := some (l.titlePriv.getD t), title := t }

end Link

/-- `link_timestamp` (module level in `buffer.py`): modified-or-created
with coercion, epoch sentinel on failure. -/
def link_timestamp (l : Link) : Int :=
  (toDatetimeCoerce (orDate l.modified_date l.created_date)).getD epochTimestamp

/-- The source-side view of a followed user that the buffer consumes:
its id, name parts, `last_online` activity bound, and the
`links_page` fetch capability. -/
structure SourceUser where
  id : Nat
  first_name : String
  last_name : String
  last_online : DateStr
  pages : Nat → List Link

/-- `User.name`. -/
def SourceUser.name (u : SourceUser) : String :=
  if u.last_name.length = 0 then u.first_name
  else u.first_name ++ " " ++ u.last_name

/-- Merge keys of the buffer's tree: `(timestamp, insertion number)`
compared lexicographically, as Python compares tuples. -/
abbrev MergeKey := Int ×ₗ Int

/-- First maximum of a list by a key function — Python's
`max(xs, key=f)` keeps the first of several maximal elements
(and raises, here `none`, on an empty list). -/
def argmaxFirst (f : SourceUser → Int) : List SourceUser → Option SourceUser
  | [] => none
  | u :: us =>
    some (us.foldl (fun best v => if f v > f best then v else best) u)

/-- The complete mutable state of `LinkBuffer`.  Python dicts are
embedded as functions (update-in-place semantics), the `_explored_links`
set as a membership predicate. -/
structure LinkBuffer where
  user_data : List SourceUser
  tree : OSTree MergeKey
  links_by_key : MergeKey → Option Link
  links_by_url : String → Option Link
  link_users : String → List String
  next_key_id : Int
  explored_links : String → Bool
  user_cutoffs : Nat → Int
  max_user_cutoff : Int
  max_user_id : Nat
  user_pages : Nat → Nat
  include_users : Bool

namespace LinkBuffer

/-- `LinkBuffer.__init__`: builds per-user cutoffs from
`pd.Timestamp(user.last_online)` (raising, hence `none`, on an
unparseable bound), then takes `max` over the cutoff values and the
first user attaining it — both of which raise on an empty user list. -/
def mkBuffer (users : List SourceUser) (include_users : Bool) :
    Option LinkBuffer := do
  let cutoffList ← users.mapM fun u => do
    let t ← timestampStrict u.last_online
    pure (u.id, t)
  let cutoffs : Nat → Int := fun i =>
    (cutoffList.foldl (fun acc p => if p.1 = i then some p.2 else acc) none).getD 0
  let maxCut ← match (users.map (fun u => cutoffs u.id)).max? with
    | some m => some m
    | none => none
  let maxUser ← argmaxFirst (fun u => cutoffs u.id) users
  pure
    { user_data := users
      tree := OSTree.empty MergeKey
      links_by_key := fun _ => none
      links_by_url := fun _ => none
      link_users := fun _ => []
      next_key_id := 0
      explored_links := fun _ => false
      user_cutoffs := cutoffs
      max_user_cutoff := maxCut
      max_user_id := maxUser.id
      user_pages := fun _ => 0
      include_users := include_users }

/-- `_update_user_cutoff`. -/
def updateUserCutoff (s : LinkBuffer) (updatedId : Nat) (oldCutoff : Int) :
    LinkBuffer :=
  let newCutoff := s.user_cutoffs updatedId
  if updatedId = s.max_user_id ∧ newCutoff < oldCutoff then
    match argmaxFirst (fun u => s.user_cutoffs u.id) s.user_data with
    | some u =>
      { s with max_user_id := u.id, max_user_cutoff := s.user_cutoffs u.id }
    | none => s
  else if newCutoff > s.max_user_cutoff then
    { s with max_user_id := updatedId, max_user_cutoff := newCutoff }
  else s

/-- `next_user`: first user in the stored order with the cached max id
(`next(...)` raises, hence `none`, if absent). -/
def next_user (s : LinkBuffer) : Option SourceUser :=
  s.user_data.find? fun u => u.id = s.max_user_id

/-- `is_exhausted`. -/
def is_exhausted (s : LinkBuffer) : Bool :=
  s.max_user_cutoff ≤ minTimestamp

/-- `add_link`: dedup on url; fresh records get key
`(link_timestamp, next id)` and enter the tree; duplicates only extend
the attribution list (when tracking is on). -/
def add_link (s : LinkBuffer) (l : Link) (userName : String) : LinkBuffer :=
  if s.explored_links l.url then
    if s.include_users then
      { s with link_users := fun u =>
          if u = l.url then s.link_users u ++ [userName] else s.link_users u }
    else s
  else
    let key : MergeKey := toLex (link_timestamp l, s.next_key_id)
    let s₁ :=
      { s with
        next_key_id := s.next_key_id + 1
        tree := s.tree.insert key
        links_by_key := fun k => if k = key then some l else s.links_by_key k }
    let s₂ :=
      if s.include_users then
        { s₁ with
          links_by_url := fun u =>
            if u = l.url then some l else s.links_by_url u
          link_users := fun u =>
            if u = l.url then [userName] else s.link_users u }
      else s₁
    { s₂ with explored_links := fun u => u = l.url || s.explored_links u }

/-- `add_links`. -/
def add_links (s : LinkBuffer) (ls : List Link) (userName : String) :
    LinkBuffer :=
  ls.foldl (fun acc l => add_link acc l userName) s

/-- `process_next`: fetch the scheduled page of the max-cutoff user,
update that user's cutoff (note: via the raising `Link.timestamp`
property of the page's last record, not the coercing
`link_timestamp`), refresh the cached max, then insert the page. -/
def process_next (s : LinkBuffer) : Option LinkBuffer := do
  let user ← s.next_user
  let page := s.user_pages user.id
  let s := { s with user_pages := fun i =>
    if i = user.id then s.user_pages i + 1 else s.user_pages i }
  let links := user.pages page
  let oldCutoff := s.user_cutoffs user.id
  let newCutoff ← match links.getLast? with
    | none => some minTimestamp
    | some l => l.timestamp
  let s := { s with user_cutoffs := fun i =>
    if i = user.id then newCutoff else s.user_cutoffs i }
  let s := updateUserCutoff s user.id oldCutoff
  pure (s.add_links links user.name)

/-- `n_between`. -/
def n_between (s : LinkBuffer) (startTs endTs : Int) : Nat :=
  if startTs > endTs then 0
  else s.tree.count_range (toLex (startTs, -1)) (toLex (endTs, 2 ^ 63 - 1))

/-- `add_users_to_title`: renders the accumulated attribution into the
display label (`"a, b | original"`). -/
def add_users_to_title (s : LinkBuffer) (l : Link) : Link :=
  let users := s.link_users l.url
  let userStr := String.intercalate ", " users
  let title := l.titlePriv.getD l.title
  l.set_title (userStr ++ " | " ++ title)

/-- The pop loop of `pop_n` (at most `n` iterations): select the
maximal key (rank `len − 1`), remove it, pop its record from the
key map.  `none` models the `KeyError`/`IndexError` raises that cannot
occur on buffer-reachable states. -/
def popLoop : Nat → LinkBuffer → List Link → Option (List Link × LinkBuffer)
  | 0, s, acc => some (acc, s)
  | n + 1, s, acc =>
    if s.tree.size > 0 then do
      let lastIndex := s.tree.size - 1
      let key ← s.tree.select lastIndex
      let tree' ← s.tree.remove_by_rank lastIndex
      let l ← s.links_by_key key
      let s := { s with tree := tree'
                        links_by_key := fun k =>
                          if k = key then none else s.links_by_key k }
      popLoop n s (acc ++ [l])
    else some (acc, s)

/-- `pop_n`. -/
def pop_n (s : LinkBuffer) (n : Nat) : Option (List Link × LinkBuffer) := do
  let (links, s) ← popLoop n s []
  if s.include_users then
    pure (links.map s.add_users_to_title, s)
  else
    pure (links, s)

/-- The fetch loop of `get_next_n`, fuel-driven (the source's `while`
terminates only for well-behaved sources; the fuel is sized by the
caller). -/
def fetchLoop : Nat → LinkBuffer → Nat → Option LinkBuffer
  | 0, _, _ => none
  | fuel + 1, s, n =>
    if ¬ s.is_exhausted ∧ s.n_between s.max_user_cutoff maxTimestamp < n then do
      let s' ← s.process_next
      fetchLoop fuel s' n
    else
      some s

/-- `get_next_n(n)` with explicit loop fuel. -/
def get_next_n (fuel : Nat) (s : LinkBuffer) (n : Nat) :
    Option (List Link × LinkBuffer) := do
  if s.user_data.length = 0 then
    pure ([], s)
  else
    let s ← fetchLoop fuel s n
    s.pop_n n

end LinkBuffer

/-! ## The cutoff cache invariant (C10) -/

/-- The cache invariant of the buffer: sources exist, the cached
max-cutoff source is a stored source attaining the cached maximum, and
the cached maximum bounds every per-source cutoff. -/
def CutoffCacheOk (s : LinkBuffer) : Prop :=
  s.user_data ≠ [] ∧
  (∃ u ∈ s.user_data, u.id = s.max_user_id ∧
    s.user_cutoffs u.id = s.max_user_cutoff) ∧
  (∀ u ∈ s.user_data, s.user_cutoffs u.id ≤ s.max_user_cutoff)

theorem foldl_max_spec (as : List Int) (a : Int) :
    as.foldl max a ∈ a :: as ∧ ∀ x ∈ a :: as, x ≤ as.foldl max a := by
  induction as generalizing a with
  | nil => simp
  | cons b bs ih =>
    obtain ⟨hmem, hbd⟩ := ih (max a b)
    simp only [List.foldl_cons]
    constructor
    · rcases List.mem_cons.mp hmem with h1 | h1
      · rw [h1]
        rcases max_choice a b with hm | hm <;> rw [hm] <;> simp
      · simp [h1]
    · intro x hx
      rcases List.mem_cons.mp hx with h1 | h1
      · refine le_trans ?_ (hbd _ (List.mem_cons_self _ _))
        rw [h1]
        exact le_max_left a b
      rcases List.mem_cons.mp h1 with h2 | h2
      · refine le_trans ?_ (hbd _ (List.mem_cons_self _ _))
        rw [h2]
        exact le_max_right a b
      · exact hbd _ (List.mem_cons_of_mem _ h2)

theorem max?_spec {l : List Int} {m : Int} (h : l.max? = some m) :
    m ∈ l ∧ ∀ x ∈ l, x ≤ m := by
  cases l with
  | nil => simp [List.max?] at h
  | cons a as =>
    have hm : m = as.foldl max a := by
      simpa [List.max?] using h.symm
    subst hm
    exact foldl_max_spec as a

theorem argmaxFirst_spec (f : SourceUser → Int) {l : List SourceUser}
    {u : SourceUser} (h : argmaxFirst f l = some u) :
    u ∈ l ∧ ∀ v ∈ l, f v ≤ f u := by
  cases l with
  | nil => simp [argmaxFirst] at h
  | cons a as =>
    have hu : u = as.foldl (fun best v => if f v > f best then v else best) a := by
      simpa [argmaxFirst] using h.symm
    subst hu
    clear h
    induction as generalizing a with
    | nil => simp
    | cons b bs ih =>
      obtain ⟨hmem, hbd⟩ := ih (if f b > f a then b else a)
      simp only [List.foldl_cons]
      constructor
      · rcases List.mem_cons.mp hmem with h1 | h1
        · rw [h1]
          by_cases hb : f b > f a
          · rw [if_pos hb]
            simp
          · rw [if_neg hb]
            simp
        · simp [h1]
      · intro x hx
        rcases List.mem_cons.mp hx with h1 | h1
        · refine le_trans ?_ (hbd _ (List.mem_cons_self _ _))
          rw [h1]
          by_cases hb : f b > f a
          · rw [if_pos hb]
            omega
          · rw [if_neg hb]
        rcases List.mem_cons.mp h1 with h2 | h2
        · refine le_trans ?_ (hbd _ (List.mem_cons_self _ _))
          rw [h2]
          by_cases hb : f b > f a
          · rw [if_pos hb]
          · rw [if_neg hb]
            omega
        · exact hbd _ (List.mem_cons_of_mem _ h2)

namespace LinkBuffer

theorem add_link_user_fields (s : LinkBuffer) (l : Link) (un : String) :
    (s.add_link l un).user_data = s.user_data ∧
    (s.add_link l un).user_cutoffs = s.user_cutoffs ∧
    (s.add_link l un).max_user_cutoff = s.max_user_cutoff ∧
    (s.add_link l un).max_user_id = s.max_user_id ∧
    (s.add_link l un).user_pages = s.user_pages := by
  unfold add_link
  by_cases h1 : s.explored_links l.url <;> by_cases h2 : s.include_users <;>
    simp [h1, h2]

theorem add_links_user_fields (ls : List Link) (s : LinkBuffer) (un : String) :
    (s.add_links ls un).user_data = s.user_data ∧
    (s.add_links ls un).user_cutoffs = s.user_cutoffs ∧
    (s.add_links ls un).max_user_cutoff = s.max_user_cutoff ∧
    (s.add_links ls un).max_user_id = s.max_user_id ∧
    (s.add_links ls un).user_pages = s.user_pages := by
  induction ls generalizing s with
  | nil => simp [add_links]
  | cons l ls ih =>
    have h1 := add_link_user_fields s l un
    have h2 := ih (s.add_link l un)
    simp only [add_links, List.foldl_cons] at h2 ⊢
    exact ⟨h2.1.trans h1.1, h2.2.1.trans h1.2.1, h2.2.2.1.trans h1.2.2.1,
      h2.2.2.2.1.trans h1.2.2.2.1, h2.2.2.2.2.trans h1.2.2.2.2⟩

theorem CutoffCacheOk_congr {s t : LinkBuffer}
    (hd : t.user_data = s.user_data) (hc : t.user_cutoffs = s.user_cutoffs)
    (hm : t.max_user_cutoff = s.max_user_cutoff)
    (hi : t.max_user_id = s.max_user_id) (h : CutoffCacheOk s) :
    CutoffCacheOk t := by
  unfold CutoffCacheOk at h ⊢
  rw [hd, hc, hm, hi]
  exact h

theorem mkBuffer_cutoff_ok {users : List SourceUser} {inc : Bool}
    {s : LinkBuffer} (h : mkBuffer users inc = some s) :
    CutoffCacheOk s := by
  unfold mkBuffer at h
  simp only [Option.bind_eq_bind, Option.bind_eq_some] at h
  obtain ⟨cl, hcl, h⟩ := h
  cases hmm : (users.map fun u =>
      (cl.foldl (fun acc p => if p.1 = u.id then some p.2 else acc)
        none).getD 0).max? with
  | none =>
    rw [hmm] at h
    simp at h
  | some m =>
    rw [hmm] at h
    simp only [Option.some_bind] at h
    cases hag : argmaxFirst (fun u =>
        (cl.foldl (fun acc p => if p.1 = u.id then some p.2 else acc)
          none).getD 0) users with
    | none =>
      rw [hag] at h
      simp at h
    | some mu =>
      rw [hag] at h
      simp only [Option.some_bind, Option.pure_def, Option.some.injEq] at h
      subst h
      have hmax := max?_spec hmm
      have hamax := argmaxFirst_spec _ hag
      have hne : users ≠ [] := by
        intro he
        subst he
        simp [argmaxFirst] at hag
      refine ⟨hne, ⟨mu, hamax.1, rfl, ?_⟩, ?_⟩
      · show (cl.foldl (fun acc p => if p.1 = mu.id then some p.2 else acc)
            none).getD 0 = m
        have h1 := hmax.2 _ (List.mem_map.mpr ⟨mu, hamax.1, rfl⟩)
        have h2 : m ≤ (cl.foldl (fun acc p => if p.1 = mu.id then some p.2
            else acc) none).getD 0 := by
          obtain ⟨v, hv, hveq⟩ := List.mem_map.mp hmax.1
          exact hveq ▸ hamax.2 v hv
        omega
      · intro u hu
        exact hmax.2 _ (List.mem_map.mpr ⟨u, hu, rfl⟩)

theorem updateUserCutoff_ok (q : LinkBuffer) (uid : Nat) (oldC : Int)
    (hne : q.user_data ≠ [])
    (hmem : ∃ w ∈ q.user_data, w.id = uid)
    (hbound : ∀ u ∈ q.user_data, u.id ≠ uid →
      q.user_cutoffs u.id ≤ q.max_user_cutoff)
    (hwit : ∃ u ∈ q.user_data, u.id = q.max_user_id ∧
      (u.id ≠ uid → q.user_cutoffs u.id = q.max_user_cutoff) ∧
      (u.id = uid → oldC = q.max_user_cutoff)) :
    CutoffCacheOk (q.updateUserCutoff uid oldC) := by
  unfold updateUserCutoff
  by_cases hcase1 : uid = q.max_user_id ∧ q.user_cutoffs uid < oldC
  · rw [if_pos hcase1]
    cases hag : argmaxFirst (fun u => q.user_cutoffs u.id) q.user_data with
    | none =>
      exfalso
      cases hud : q.user_data with
      | nil => exact hne hud
      | cons a as => rw [hud] at hag; simp [argmaxFirst] at hag
    | some u =>
      have hsp := argmaxFirst_spec _ hag
      exact ⟨hne, ⟨u, hsp.1, rfl, rfl⟩, fun v hv => hsp.2 v hv⟩
  · rw [if_neg hcase1]
    by_cases hcase2 : q.user_cutoffs uid > q.max_user_cutoff
    · rw [if_pos hcase2]
      obtain ⟨w, hw, hwid⟩ := hmem
      refine ⟨hne, ⟨w, hw, by simp [hwid], by simp [hwid]⟩, ?_⟩
      intro u hu
      by_cases hui : u.id = uid
      · simp [hui]
      · simp only
        exact le_of_lt (lt_of_le_of_lt (hbound u hu hui) hcase2)
    · rw [if_neg hcase2]
      obtain ⟨u₀, hu₀, hid₀, hwne, hweq⟩ := hwit
      refine ⟨hne, ⟨u₀, hu₀, hid₀, ?_⟩, ?_⟩
      · by_cases hui : u₀.id = uid
        · have h1 : oldC = q.max_user_cutoff := hweq hui
          have h2 : ¬ q.user_cutoffs uid < oldC := fun hlt =>
            hcase1 ⟨hui ▸ hid₀, hlt⟩
          rw [hui]
          omega
        · exact hwne hui
      · intro u hu
        by_cases hui : u.id = uid
        · rw [hui]; omega
        · exact hbound u hu hui

theorem process_next_cutoff_ok {s s' : LinkBuffer} (h : CutoffCacheOk s)
    (hp : s.process_next = some s') : CutoffCacheOk s' := by
  obtain ⟨hne, ⟨u₀, hu₀, hid₀, hcut₀⟩, hbound⟩ := h
  unfold process_next at hp
  simp only [Option.bind_eq_bind, Option.bind_eq_some] at hp
  obtain ⟨user, huser, hp⟩ := hp
  have humem : user ∈ s.user_data := List.mem_of_find?_eq_some huser
  have huid : user.id = s.max_user_id := by
    have := List.find?_some huser
    simpa using this
  have main : ∀ newC : Int, CutoffCacheOk
      ((LinkBuffer.updateUserCutoff
        { s with
          user_pages := fun i =>
            if i = user.id then s.user_pages i + 1 else s.user_pages i
          user_cutoffs := fun i =>
            if i = user.id then newC else s.user_cutoffs i }
        user.id (s.user_cutoffs user.id)).add_links
        (user.pages (s.user_pages user.id)) user.name) := by
    intro newC
    set q : LinkBuffer :=
      { s with
        user_pages := fun i =>
          if i = user.id then s.user_pages i + 1 else s.user_pages i
        user_cutoffs := fun i =>
          if i = user.id then newC else s.user_cutoffs i } with hq
    have hok : CutoffCacheOk
        (q.updateUserCutoff user.id (s.user_cutoffs user.id)) := by
      refine updateUserCutoff_ok q user.id (s.user_cutoffs user.id)
        hne ⟨user, humem, rfl⟩ ?_ ?_
      · intro v hv hvne
        have hv' : q.user_cutoffs v.id = s.user_cutoffs v.id := by
          simp [hq, hvne]
        rw [hv']
        exact hbound v hv
      · refine ⟨u₀, hu₀, hid₀, ?_, ?_⟩
        · intro hne'
          have hv' : q.user_cutoffs u₀.id = s.user_cutoffs u₀.id := by
            simp [hq, hne']
          rw [hv']
          exact hcut₀
        · intro heq
          rw [← heq]
          exact hcut₀
    have hff := add_links_user_fields (user.pages (s.user_pages user.id))
      (q.updateUserCutoff user.id (s.user_cutoffs user.id)) user.name
    exact CutoffCacheOk_congr hff.1 hff.2.1 hff.2.2.1 hff.2.2.2.1 hok
  cases hgl : (user.pages (s.user_pages user.id)).getLast? with
  | none =>
    rw [hgl] at hp
    simp only [Option.some_bind, Option.pure_def, Option.some.injEq] at hp
    exact hp ▸ main minTimestamp
  | some l =>
    rw [hgl] at hp
    cases hts : l.timestamp with
    | none =>
      simp [hts] at hp
    | some t =>
      simp only [hts, Option.some_bind, Option.pure_def,
        Option.some.injEq] at hp
      exact hp ▸ main t

theorem next_user_max {s : LinkBuffer} (h : CutoffCacheOk s) :
    ∃ u, s.next_user = some u ∧ u ∈ s.user_data ∧
      s.user_cutoffs u.id = s.max_user_cutoff ∧
      ∀ v ∈ s.user_data, s.user_cutoffs v.id ≤ s.user_cutoffs u.id := by
  obtain ⟨_, ⟨u₀, hu₀, hid₀, hcut₀⟩, hbound⟩ := h
  have hsome : (s.user_data.find? fun u => u.id = s.max_user_id).isSome := by
    rw [List.find?_isSome]
    exact ⟨u₀, hu₀, by simp [hid₀]⟩
  cases hfind : s.user_data.find? fun u => u.id = s.max_user_id with
  | none => rw [hfind] at hsome; cases hsome
  | some u =>
    have humem := List.mem_of_find?_eq_some hfind
    have huid : u.id = s.max_user_id := by
      have := List.find?_some hfind
      simpa using this
    have hcut : s.user_cutoffs u.id = s.max_user_cutoff := by
      rw [huid, ← hid₀]
      exact hcut₀
    exact ⟨u, hfind, humem, hcut, fun v hv => hcut ▸ hbound v hv⟩

end LinkBuffer

/-- The module self-test of the source
(`if __name__ == "__main__"`, mirrored here as a sanity check of the
embedding): inorder, select, rank, count_range and remove_by_rank on
the tree built from `[5, 1, 3, 3, 9]`. -/
theorem ostree_selftest :
    let t := OSTree.ofList [5, 1, 3, 3, 9]
    t.inorder = [1, 3, 3, 5, 9] ∧ t.select 2 = some 3 ∧ t.rank 3 = 1 ∧
      t.count_range 3 5 = 3 ∧
      (t.remove_by_rank 1).map OSTree.inorder = some [1, 3, 5, 9] := by
  decide

/-! ## Eager reference merge (the specification side of C1)

`eagerSpecSeq` is written from the spec's words, for refinement
comparison with the buffer: fetch all pages of all sources (in source
order, pages in order, stopping at the first empty page), deduplicate
by identity keeping the first occurrence, and sort by timestamp
descending, stably (so ties keep first-seen order). -/

/-- All records of one source: concatenate pages `0, 1, …` up to the
first empty page (`bound` dominates the number of non-empty pages). -/
def sourceRecords (bound : Nat) (u : SourceUser) : List Link :=
  go bound 0
where
  go : Nat → Nat → List Link
    | 0, _ => []
    | b + 1, p =>
      match u.pages p with
      | [] => []
      | ls => ls ++ go b (p + 1)

/-- All records of all sources, in source order. -/
def eagerRecords (bound : Nat) (users : List SourceUser) : List Link :=
  users.flatMap (sourceRecords bound)

/-- Deduplicate by identity (url), keeping the first occurrence
(`seen` accumulates the identities already kept). -/
def dedupByUrlAux (seen : List String) : List Link → List Link
  | [] => []
  | l :: ls =>
    if seen.contains l.url then dedupByUrlAux seen ls
    else l :: dedupByUrlAux (l.url :: seen) ls

/-- Deduplicate by identity (url), keeping the first occurrence. -/
def dedupByUrl : List Link → List Link :=
  dedupByUrlAux []

/-- Stable insertion (descending by `link_timestamp`): a new element
goes after all existing elements with an equal or newer timestamp. -/
def insDesc (a : Link) : List Link → List Link
  | [] => [a]
  | b :: bs =>
    if link_timestamp b ≥ link_timestamp a then b :: insDesc a bs
    else a :: b :: bs

/-- Stable descending sort by timestamp (ties keep list order). -/
def sortDescStable (ls : List Link) : List Link :=
  ls.foldl (fun acc a => insDesc a acc) []

/-- The eager merge sequence the spec describes: fetch everything,
dedup by identity (first seen), sort by timestamp descending with ties
in first-seen order. -/
def eagerSpecSeq (bound : Nat) (users : List SourceUser) : List Link :=
  sortDescStable (dedupByUrl (eagerRecords bound users))

/-! ## Concrete scenarios used by the claims -/

namespace Scenario

/-- A minimal record with equal `modified`/`created` date and the url
doubling as title. -/
def mkLink (u : String) (ts : Int) : Link :=
  { link := u, title := u, created_date := .valid ts, modified_date := .valid ts }

/-- C2's source S1: activity bound 100, page 0 = `[a@100, b@90]`. -/
def S1 : SourceUser :=
  { id := 1, first_name := "S1", last_name := "", last_online := .valid 100,
    pages := fun p => if p = 0 then [mkLink "a" 100, mkLink "b" 90] else [] }

/-- C2's source S2: activity bound 95, page 0 = `[c@95]`. -/
def S2 : SourceUser :=
  { id := 2, first_name := "S2", last_name := "", last_online := .valid 95,
    pages := fun p => if p = 0 then [mkLink "c" 95] else [] }

/-- C7's failing source: its only page ends in a record whose
`modified` date does not parse (while `created` does). -/
def S7 : SourceUser :=
  { id := 3, first_name := "S3", last_name := "", last_online := .valid 100,
    pages := fun p => if p = 0 then
      [{ link := "x", title := "x", created_date := .valid 50,
         modified_date := .invalid }] else [] }

/-- C1's tie counterexample source: one page with two records sharing
timestamp 100, first-seen order `x` then `y`. -/
def S4 : SourceUser :=
  { id := 4, first_name := "S4", last_name := "", last_online := .valid 100,
    pages := fun p => if p = 0 then [mkLink "x" 100, mkLink "y" 100] else [] }

end Scenario

/-- C2: on sources S1 (bound 100, page 0 `[a@100, b@90]`) and S2
(bound 95, page 0 `[c@95]`), the first `get_next_n(2)` returns
`[a, c]` in that order — not `[a, b]`. -/
theorem C2_concrete_scenario :
    ((LinkBuffer.mkBuffer [Scenario.S1, Scenario.S2] false).bind fun s =>
        (LinkBuffer.get_next_n 10 s 2).map fun p => p.1.map Link.url) =
      some ["a", "c"] ∧ ["a", "c"] ≠ ["a", "b"] := by
  constructor
  · rfl
  · decide

/-- C3: the claim says construction from an empty source list succeeds
and `get_next_n` then returns empty; in the code `__init__` evaluates
`max` over an empty cutoff dict and raises `ValueError` (modelled as
`none`), so construction fails — the zero-sources guard inside
`get_next_n` is unreachable.  (Code bug: the guard and the spec state
the intent.) -/
theorem C3_empty_sources_constructor_raises :
    LinkBuffer.mkBuffer [] false = none ∧
      LinkBuffer.mkBuffer [] true = none :=
  ⟨rfl, rfl⟩

/-- C7: for a record with `modified` and `created` both absent or
unparseable the MergeKey side does substitute the epoch sentinel
(`link_timestamp` is total), but the cutoff-update side of
`process_next` uses the raising `Link.timestamp` property
(`pd.Timestamp(modified_date)`, no `created` fallback, no coercion),
so a page ending in a record with an unparseable `modified` date makes
`process_next` — and hence `get_next_n` — raise, contradicting the
claim's "never raises".  (Code bug: `link_timestamp` right above in
the same module shows the intended recovery.) -/
theorem C7_cutoff_update_raises :
    link_timestamp
        { link := "x", title := "x", created_date := .invalid,
          modified_date := .empty } = epochTimestamp ∧
      ((LinkBuffer.mkBuffer [Scenario.S7] false).bind fun s =>
        s.process_next) = none ∧
      ((LinkBuffer.mkBuffer [Scenario.S7] false).bind fun s =>
        LinkBuffer.get_next_n 10 s 1) = none := by
  exact ⟨rfl, rfl, rfl⟩

/-- C1 counterexample: a single source whose page 0 holds two records
with equal timestamps, first-seen `x` then `y`.  Draining the buffer
emits `[y, x]` (the tree pops the largest `(timestamp, insertion)` key,
so equal timestamps come out newest-insertion-first), while the claimed
eager reference — timestamp descending, ties in first-seen order —
is `[x, y]`. -/
theorem C1_tie_order_counterexample :
    ((LinkBuffer.mkBuffer [Scenario.S4] false).bind fun s =>
        (LinkBuffer.get_next_n 10 s 2).map fun p => p.1.map Link.url) =
      some ["y", "x"] ∧
      (eagerSpecSeq 10 [Scenario.S4]).map Link.url = ["x", "y"] ∧
      some ["y", "x"] ≠ some ["x", "y"] := by
  refine ⟨rfl, by decide, by decide⟩

/-- C4 counterexample: with duplicate keys the second half of the claim
fails: inserting `[3, 3]` gives `select 1 = 3` but `rank 3 = 0 ≠ 1`
(`rank` counts strictly smaller elements, so it returns the rank of the
first duplicate).  The repository's own self-test shows the same:
`select(2) == 3` yet `rank(3) == 1`. -/
theorem C4_rank_select_counterexample :
    (OSTree.ofList [3, 3]).select 1 = some 3 ∧
      (OSTree.ofList [3, 3]).rank 3 = 0 ∧ (0 : Nat) ≠ 1 := by
  refine ⟨by decide, by decide, by decide⟩

/-- C10: the cutoff cache invariant — nonempty sources, the cached
max-cutoff id names a stored source attaining the cached maximum, and
the cached maximum bounds every per-source cutoff — holds after
construction and is preserved by every `process_next`; consequently
`next_user` always yields a source of most-recent cutoff and
`is_exhausted` compares the true global maximum cutoff with the
sentinel. -/
theorem C10_cutoff_cache_invariant :
    (∀ (users : List SourceUser) (inc : Bool) (s : LinkBuffer),
      LinkBuffer.mkBuffer users inc = some s → CutoffCacheOk s) ∧
    (∀ s s' : LinkBuffer, CutoffCacheOk s → s.process_next = some s' →
      CutoffCacheOk s') ∧
    (∀ s : LinkBuffer, CutoffCacheOk s →
      ∃ u, s.next_user = some u ∧ u ∈ s.user_data ∧
        s.user_cutoffs u.id = s.max_user_cutoff ∧
        ∀ v ∈ s.user_data, s.user_cutoffs v.id ≤ s.user_cutoffs u.id) ∧
    (∀ s : LinkBuffer, CutoffCacheOk s →
      (s.is_exhausted = true ↔
        ∀ u ∈ s.user_data, s.user_cutoffs u.id ≤ minTimestamp)) :=
  ⟨fun _ _ _ h => LinkBuffer.mkBuffer_cutoff_ok h,
   fun _ _ h hp => LinkBuffer.process_next_cutoff_ok h hp,
   fun _ h => LinkBuffer.next_user_max h,
   fun s h => by
    obtain ⟨_, ⟨u₀, hu₀, _, hcut₀⟩, hbound⟩ := h
    unfold LinkBuffer.is_exhausted
    simp only [decide_eq_true_eq]
    constructor
    · intro hle u hu
      exact le_trans (hbound u hu) hle
    · intro hall
      rw [← hcut₀]
      exact hall u₀ hu₀⟩

/-- A concrete buffer state over C2's two sources with correctly cached
cutoffs, instantiating the invariant consequences of
`C10_cutoff_cache_invariant`. -/
def cutoffDemoBuffer : LinkBuffer :=
  { user_data := [Scenario.S1, Scenario.S2]
    tree := OSTree.empty MergeKey
    links_by_key := fun _ => none
    links_by_url := fun _ => none
    link_users := fun _ => []
    next_key_id := 0
    explored_links := fun _ => false
    user_cutoffs := fun i => if i = 1 then 100 else if i = 2 then 95 else 0
    max_user_cutoff := 100
    max_user_id := 1
    user_pages := fun _ => 0
    include_users := false }

/-- Witness: the invariant consequences at a concrete state. -/
theorem C10_cutoff_cache_witness :
    ∃ u, cutoffDemoBuffer.next_user = some u ∧
      u ∈ cutoffDemoBuffer.user_data ∧
      cutoffDemoBuffer.user_cutoffs u.id = cutoffDemoBuffer.max_user_cutoff ∧
      ∀ v ∈ cutoffDemoBuffer.user_data,
        cutoffDemoBuffer.user_cutoffs v.id ≤ cutoffDemoBuffer.user_cutoffs u.id :=
  C10_cutoff_cache_invariant.2.2.1 cutoffDemoBuffer
    ⟨by simp [cutoffDemoBuffer], ⟨Scenario.S1, by simp [cutoffDemoBuffer],
      by decide, by decide⟩, by decide⟩

end Curius
